import Mathlib

set_option maxHeartbeats 1000000

/-!
Verification development for the template document synthesis engine of
`src/routes/word.py`.

Texts are modelled as lists of characters.  The Python string operations
used by the engine (`in`, `str.replace`, `str.strip`, `str.join`) are
given as executable functions below, and the document model mirrors the
python-docx objects the engine traverses: a document owns a list of body
blocks (paragraphs of runs, or tables of rows of cells of paragraphs)
plus header paragraph lists; `paragraph.text` concatenates the run
texts, and assigning `paragraph.text` collapses the paragraph to a
single run.
-/


abbrev Txt := List Char

/-- Shorthand turning a string literal into the `Txt` character list. -/
def T (s : String) : Txt := s.toList

/-- `pfx pat s` is true when `pat` is a prefix of `s` (the primitive used
by the substring scan below). -/
def pfx : Txt → Txt → Bool
  | [], _ => true
  | _ :: _, [] => false
  | a :: as, b :: bs => (a == b) && pfx as bs

/-- Python `pat in s`: `pat` occurs as a contiguous substring of `s`. -/
def hasSub : Txt → Txt → Bool
  | [], pat => pfx pat []
  | s@(_ :: t), pat => pfx pat s || hasSub t pat

/-- Fuelled worker for Python `str.replace`: scan left to right, on a
prefix match emit the replacement and skip the pattern, otherwise copy
one character.  One unit of fuel is spent per step and every step
consumes at least one character of `s`, so `s.length` fuel is enough. -/
def replaceAllF : Nat → Txt → Txt → Txt → Txt
  | 0, s, _, _ => s
  | fuel + 1, s, pat, rep =>
    if pat ≠ [] ∧ pfx pat s = true then
      rep ++ replaceAllF fuel (s.drop pat.length) pat rep
    else
      match s with
      | [] => []
      | c :: t => c :: replaceAllF fuel t pat rep

/-- Python `s.replace(pat, rep)`.  Every call site in `word.py` passes a
non-empty literal placeholder as `pat`; for `pat = []` this returns `s`
unchanged (Python would instead interleave `rep` everywhere). -/
def replaceAll (s pat rep : Txt) : Txt := replaceAllF s.length s pat rep

/-- The whitespace set stripped by Python `str.strip()`. -/
def isWs (c : Char) : Bool :=
  c == ' ' || c == '\t' || c == '\n' || c == '\r' || c == '\x0b' || c == '\x0c'

/-- Python `s.strip()`. -/
def pyStrip (s : Txt) : Txt :=
  ((s.dropWhile isWs).reverse.dropWhile isWs).reverse

/-- Python `sep.join(parts)`. -/
def pyJoin (sep : Txt) : List Txt → Txt
  | [] => []
  | [x] => x
  | x :: y :: xs => x ++ sep ++ pyJoin sep (y :: xs)

/-- A decimal digit character; used to render the numeric indices that
the engine splices into placeholder names. -/
def digitChar (d : Nat) : Char :=
  match d % 10 with
  | 0 => '0' | 1 => '1' | 2 => '2' | 3 => '3' | 4 => '4'
  | 5 => '5' | 6 => '6' | 7 => '7' | 8 => '8' | _ => '9'

/-- Fuelled decimal rendering of a natural number. -/
def natTxtF : Nat → Nat → Txt
  | 0, n => [digitChar n]
  | f + 1, n => if n < 10 then [digitChar n] else natTxtF f (n / 10) ++ [digitChar (n % 10)]

/-- Python `str(n)` for a natural number (as spliced into f-strings). -/
def natTxt (n : Nat) : Txt := natTxtF n n

-- Well-formed placeholder texts. ---------------------------------------------
--
-- Authored template texts alternate brace-free literal runs with closed
-- placeholder tokens `{{name}}` whose bare name is brace-free and non-empty
-- (the marker grammar of the spec).  On such texts Python's substring scan
-- and `str.replace` act token-wise, which the lemmas below establish.

/-- No `{` or `}` occurs in the text. -/
def braceFree (s : Txt) : Bool := s.all fun c => !(c == '{') && !(c == '}')

inductive Chunk where
  | lit : Txt → Chunk
  | tok : Txt → Chunk

deriving DecidableEq

/-- The literal text of the placeholder token with bare name `n`. -/
def tokTxt (n : Txt) : Txt := '{' :: '{' :: (n ++ ['}', '}'])

def Chunk.render : Chunk → Txt
  | .lit s => s
  | .tok n => tokTxt n

def renderChunks (cs : List Chunk) : Txt := (cs.map Chunk.render).flatten

def Chunk.wfB : Chunk → Bool
  | .lit s => braceFree s
  | .tok n => braceFree n && !n.isEmpty

def wfChunks (cs : List Chunk) : Bool := cs.all Chunk.wfB

/-- A text is well formed when it renders a list of well-formed chunks. -/
def WfTxt (s : Txt) : Prop := ∃ cs, wfChunks cs = true ∧ s = renderChunks cs

/-- Replacing a token chunk-wise: each `tok x` chunk becomes the literal
replacement, everything else is unchanged. -/
def replaceTokChunks (cs : List Chunk) (x rep : Txt) : List Chunk :=
  cs.map fun c => if c = .tok x then .lit rep else c

/-- The per-paragraph substitution of `replace_text`: replace only when the
token occurs (Python checks `placeholder in paragraph.text` first). -/
def substTxt (pat rep s : Txt) : Txt :=
  if hasSub s pat = true then replaceAll s pat rep else s

-- Placeholder tokens of the closed vocabulary. -------------------------------
--
-- These transcribe the f-strings in `word.py` (`f"\x7b\x7b\x7b\x7bSegment\x7bi\x7d\x7d\x7d\x7d\x7d"` etc.).

def noWs (s : Txt) : Bool := s.all fun c => !isWs c

def marketTok : Txt := T "\x7b\x7bmarket_name\x7d\x7d"

def regionTok : Txt := T "\x7b\x7bregion\x7d\x7d"

def countryTok : Txt := T "\x7b\x7bcountry\x7d\x7d"

def segTok (i : Nat) : Txt := T "\x7b\x7bSegment" ++ natTxt i ++ T "\x7d\x7d"

def subTokL (i j : Nat) : Txt :=
  T "\x7b\x7bSegment" ++ natTxt i ++ T "Sub-segment" ++ natTxt j ++ T "\x7d\x7d"

def subTokU (i j : Nat) : Txt :=
  T "\x7b\x7bSegment" ++ natTxt i ++ T "Sub-Segment" ++ natTxt j ++ T "\x7d\x7d"

def companyTok (n : Nat) : Txt := T "\x7b\x7bCompany" ++ natTxt n ++ T "\x7d\x7d"

def startTok (n : Nat) : Txt := T "\x7b\x7bSegment" ++ natTxt n ++ T "_Start\x7d\x7d"

def endTok (n : Nat) : Txt := T "\x7b\x7bSegment" ++ natTxt n ++ T "_End\x7d\x7d"

-- Document model (the python-docx objects the engine traverses). -------------

structure Para where
  runs : List Txt

deriving DecidableEq

/-- python-docx `paragraph.text`: concatenation of the run texts. -/
def Para.text (p : Para) : Txt := p.runs.flatten

structure Cell where
  paragraphs : List Para

deriving DecidableEq

structure Row where
  cells : List Cell

deriving DecidableEq

structure Table where
  rows : List Row

deriving DecidableEq

/-- A body-level block: a paragraph or a table.  (python-docx cell access in
`word.py` only ever reads `cell.paragraphs`, and `doc.tables` yields only
body-level tables, so cells hold paragraphs directly here.) -/
inductive Block where
  | para : Para → Block
  | table : Table → Block

deriving DecidableEq

structure Doc where
  body : List Block
  headers : List (List Para)

deriving DecidableEq

def blockPara : Block → Option Para
  | .para p => some p
  | .table _ => none

def blockTable : Block → Option Table
  | .para _ => none
  | .table t => some t

/-- python-docx `doc.paragraphs`: the body-level paragraphs in order. -/
def Doc.paragraphs (d : Doc) : List Para := d.body.filterMap blockPara

/-- python-docx `doc.tables`: the body-level tables in order. -/
def Doc.tables (d : Doc) : List Table := d.body.filterMap blockTable

def Doc.bodyTexts (d : Doc) : List Txt := d.paragraphs.map Para.text

def Table.cellParaTexts (t : Table) : List Txt :=
  t.rows.flatMap fun r => r.cells.flatMap fun c => c.paragraphs.map Para.text

def Doc.cellTexts (d : Doc) : List Txt := d.tables.flatMap Table.cellParaTexts

def Doc.headerTexts (d : Doc) : List Txt := d.headers.flatMap fun h => h.map Para.text

/-- Every paragraph text the structural substitution engine can reach:
document body, table cells, header paragraphs. -/
def Doc.texts (d : Doc) : List Txt := d.bodyTexts ++ d.cellTexts ++ d.headerTexts

-- `replace_text` (word.py:179-208). ------------------------------------------

/-- Per-paragraph action: when `placeholder in paragraph.text`, Python
assigns `paragraph.text = paragraph.text.replace(...)`, which clears the
runs and leaves the whole result in a single run. -/
def substPara (pat rep : Txt) (p : Para) : Para :=
  if hasSub p.text pat then ⟨[replaceAll p.text pat rep]⟩ else p

def substCell (pat rep : Txt) (c : Cell) : Cell :=
  ⟨c.paragraphs.map (substPara pat rep)⟩

def substTable (pat rep : Txt) (t : Table) : Table :=
  ⟨t.rows.map fun r => ⟨r.cells.map (substCell pat rep)⟩⟩

def substBlock (pat rep : Txt) : Block → Block
  | .para p => .para (substPara pat rep p)
  | .table t => .table (substTable pat rep t)

/-- `replace_text`: substitute in body paragraphs, header paragraphs and
table-cell paragraphs; the boolean is `replacement_done` (when it is false
the source logs a warning and returns normally — it never raises). -/
def replace_text (d : Doc) (pat rep : Txt) : Doc × Bool :=
  (⟨d.body.map (substBlock pat rep), d.headers.map fun h => h.map (substPara pat rep)⟩,
    d.texts.any fun s => hasSub s pat)

/-- `replace_region` (word.py:111). -/
def replace_region (d : Doc) (region : Txt) : Doc := (replace_text d regionTok region).1

/-- `replace_country` (word.py:116). -/
def replace_country (d : Doc) (country : Txt) : Doc := (replace_text d countryTok country).1

-- Segments, companies, pruning. ----------------------------------------------

structure Seg where
  name : Txt
  subSegments : List Txt

deriving DecidableEq

/-- `replace_segments` (word.py:210-222). -/
def replace_segments (d : Doc) (segs : List Seg) : Doc :=
  segs.enum.foldl
    (fun d0 is =>
      let d1 := (replace_text d0 (segTok (is.1 + 1)) is.2.name).1
      is.2.subSegments.enum.foldl
        (fun d2 js => (replace_text d2 (subTokL (is.1 + 1) (js.1 + 1)) js.2).1) d1)
    d

/-- `replace_companies` (word.py:224-229): bounded to the first ten. -/
def replace_companies (d : Doc) (companies : List Txt) : Doc :=
  (companies.take 10).enum.foldl
    (fun d0 ic => (replace_text d0 (companyTok (ic.1 + 1)) ic.2).1) d

/-- The placeholder list of word.py:236-246: for each segment 1..6 the
segment token twice, then for each sub-segment 1..10 both spelling
variants (`Sub-Segment`, `Sub-segment`). -/
def segment_placeholders : List Txt :=
  (List.range' 1 6).flatMap fun i =>
    [segTok i, segTok i] ++
      ((List.range' 1 10).flatMap fun j => [subTokU i j, subTokL i j])

/-- Body-paragraph removal test of `clean_empty_segments`: skip blank
paragraphs, else remove when some placeholder occurs in the stripped text. -/
def cesRemoveTxt (s : Txt) : Bool :=
  !(pyStrip s).isEmpty && segment_placeholders.any fun ph => hasSub (pyStrip s) ph

/-- python-docx `cell.text`: paragraph texts joined by newlines. -/
def Cell.textRaw (c : Cell) : Txt := pyJoin ['\n'] (c.paragraphs.map Para.text)

/-- `" ".join([p.text.strip() for p in cell.paragraphs if p.text.strip()])`. -/
def cellJoined (c : Cell) : Txt :=
  pyJoin [' '] (c.paragraphs.filterMap fun p =>
    if (pyStrip p.text).isEmpty then none else some (pyStrip p.text))

/-- `" | ".join([cell.text.strip() for cell in row.cells])`. -/
def rowJoined (r : Row) : Txt :=
  pyJoin (T " | ") (r.cells.map fun c => pyStrip c.textRaw)

/-- Row removal test of `clean_empty_segments` (word.py:275-295): skip rows
whose joined text strips to empty, else remove the row when any cell's
joined paragraph text contains a placeholder. -/
def cesRemoveRow (r : Row) : Bool :=
  !(pyStrip (rowJoined r)).isEmpty &&
    r.cells.any fun c => segment_placeholders.any fun ph => hasSub (cellJoined c) ph

/-- Per-block action of `clean_empty_segments`: drop a paragraph that still
carries a placeholder, filter the rows of a table. -/
def cesBlock : Block → Option Block
  | .para p => if cesRemoveTxt p.text then none else some (.para p)
  | .table t => some (.table ⟨t.rows.filter fun r => !(cesRemoveRow r)⟩)

/-- `clean_empty_segments` (word.py:231-303): delete body paragraphs whose
stripped text still contains a segment placeholder, then delete table rows
one of whose cells still contains one.  Headers are never visited; the
`user_inputs` parameter is unused in the source body as well. -/
def clean_empty_segments (d : Doc) (user_inputs : List Seg) : Doc :=
  ⟨d.body.filterMap cesBlock, d.headers⟩

-- `remove_unused_sections` (word.py:305-361). --------------------------------

def isParaBlock : Block → Bool
  | .para _ => true
  | .table _ => false

/-- The roundabout paragraph identity of word.py:339-341: count the
paragraph-tagged elements before index `idx` in the body snapshot and look
that count up in `doc.paragraphs` (guarded by its length). -/
def paraCountLookup (body : List Block) (idx : Nat) : Option Para :=
  (body.filterMap blockPara).get? ((body.take idx).filter isParaBlock).length

/-- First pass of `remove_unused_sections` (word.py:336-348): walk the body
blocks in order; at a paragraph, open a zone at a Start marker seen while no
zone is open, close it at the next End marker and record the inclusive index
range; multiple instances of the same segment produce multiple ranges. -/
def findZonesAux (body : List Block) (smark emark : Txt) :
    Nat → List Block → Option Nat → List (Nat × Nat)
  | _, [], _ => []
  | i, b :: rest, op =>
    match b with
    | .table _ => findZonesAux body smark emark (i + 1) rest op
    | .para _ =>
      match paraCountLookup body i with
      | none => findZonesAux body smark emark (i + 1) rest op
      | some paragraph =>
        let op2 := if hasSub paragraph.text smark && op.isNone then some i else op
        match op2 with
        | some s =>
          if hasSub paragraph.text emark then
            (s, i) :: findZonesAux body smark emark (i + 1) rest none
          else
            findZonesAux body smark emark (i + 1) rest (some s)
        | none => findZonesAux body smark emark (i + 1) rest none

def findZones (body : List Block) (smark emark : Txt) : List (Nat × Nat) :=
  findZonesAux body smark emark 0 body none

/-- Removal of one recorded range, positionally. -/
def removeRange (body : List Block) (s e : Nat) : List Block :=
  body.take s ++ body.drop (e + 1)

/-- The descending order used by `sorted(segment_zones, reverse=True)`. -/
def zoneDescRel (a b : Nat × Nat) : Prop :=
  b.1 < a.1 ∨ (b.1 = a.1 ∧ b.2 ≤ a.2)

instance : DecidableRel zoneDescRel := fun a b => by
  unfold zoneDescRel
  infer_instance

/-- Second pass (word.py:350-361): remove the recorded zones processing
ranges from the highest start index to the lowest. -/
def removeZones (body : List Block) (zones : List (Nat × Nat)) : List Block :=
  (zones.insertionSort zoneDescRel).foldl (fun b z => removeRange b z.1 z.2) body

/-- word.py:315-318: a segment is present when its `name` entry is truthy
(a non-empty string). -/
def presentSegments (user_inputs : List Seg) : List Nat :=
  user_inputs.enum.filterMap fun is =>
    if is.2.name ≠ [] then some (is.1 + 1) else none

/-- `remove_unused_sections`: for each segment number 1..6 missing from the
input, find the marker-delimited zones in the current body and remove them. -/
def remove_unused_sections (d : Doc) (user_inputs : List Seg) : Doc :=
  (List.range' 1 6).foldl
    (fun d0 n =>
      if n ∈ presentSegments user_inputs then d0
      else ⟨removeZones d0.body (findZones d0.body (startTok n) (endTok n)), d0.headers⟩)
    d

-- `clean_all_segment_markers` (word.py:363-388). ------------------------------

/-- Cell-paragraph treatment: strip the Start marker if present, then
re-check the updated text and strip the End marker. -/
def camCellPara (smark emark : Txt) (p : Para) : Para :=
  let p1 := if hasSub p.text smark then (⟨[replaceAll p.text smark []]⟩ : Para) else p
  if hasSub p1.text emark then ⟨[replaceAll p1.text emark []]⟩ else p1

/-- Body-paragraph removal of one marker pass: a body paragraph containing
the Start or End marker is deleted whole; tables pass through. -/
def camDropPara (smark emark : Txt) (b : Block) : Option Block :=
  match b with
  | .para p =>
    if hasSub p.text smark || hasSub p.text emark then none else some (.para p)
  | .table t => some (.table t)

/-- Marker stripping inside a table. -/
def camTable (smark emark : Txt) (t : Table) : Table :=
  ⟨t.rows.map fun r => ⟨r.cells.map fun c =>
    ⟨c.paragraphs.map (camCellPara smark emark)⟩⟩⟩

def camStripTables (smark emark : Txt) (b : Block) : Block :=
  match b with
  | .para p => .para p
  | .table t => .table (camTable smark emark t)

/-- One `segment_num` iteration of `clean_all_segment_markers`: delete
marker-bearing body paragraphs (the source loop removes them from the live
snapshot, which amounts to a filter), then strip markers in table cells. -/
def camStep (d : Doc) (n : Nat) : Doc :=
  ⟨(d.body.filterMap (camDropPara (startTok n) (endTok n))).map
      (camStripTables (startTok n) (endTok n)),
    d.headers⟩

/-- The per-text effect of one marker pass on a cell paragraph. -/
def camTxt (smark emark s : Txt) : Txt :=
  substTxt emark [] (substTxt smark [] s)

/-- `clean_all_segment_markers`: for each segment number 1..6 delete every
body paragraph containing the Start or End marker, then strip marker
substrings from table-cell paragraph texts.  Headers are not visited. -/
def clean_all_segment_markers (d : Doc) : Doc :=
  (List.range' 1 6).foldl camStep d

/-- `update_document_references` (word.py:390-454) only sets `w:dirty`
attributes on field-code begin markers; it changes no paragraph, table or
header text, so on this structural model it is the identity. -/
def update_document_references (d : Doc) : Doc := d

-- Template resolution (word.py:35-109). ---------------------------------------

/-- Error taxonomy.  The source raises `ValueError` for the region /
template-type failures (both "Region is required…" and "Invalid region:…"
are region failures), `FileNotFoundError` for a missing asset, `ValueError`
for a missing scope field in the pipeline, and `TypeError` for the
wrong-arity `replace_header_textbox` calls; each constructor carries the
exception message. -/
inductive GenErr where
  | invalidRegion : Txt → GenErr
  | invalidTemplateType : Txt → GenErr
  | templateNotFound : Txt → GenErr
  | missingScopeField : Txt → GenErr
  | typeError : Txt → GenErr

deriving DecidableEq

def region_template_mapping : List (Txt × Txt) :=
  [(T "North America", T "north_america_region_template.docx"),
   (T "Europe", T "europe_region_template.docx"),
   (T "Asia Pacific", T "asia_pacific_region_template.docx"),
   (T "Middle East & Africa", T "middle_east_africa_region_template.docx"),
   (T "Latin America", T "latin_america_region_template.docx")]

def template_mapping : List (Txt × Txt) :=
  [(T "Global", T "global_template.docx"),
   (T "Country", T "country_template.docx")]

/-- Python dict lookup on the literal mappings. -/
def lookupT (m : List (Txt × Txt)) (k : Txt) : Option Txt :=
  (m.find? fun kv => kv.1 == k).map (·.2)

/-- `get_template_path`, parameterised by the filesystem check
`os.path.exists`; the app-root prefix of `os.path.join` is elided to the
constant `templates/` segment. -/
def get_template_path (exists_ : Txt → Bool) (template_type : Txt)
    (region : Option Txt) : Except GenErr Txt :=
  if template_type = T "Regional" then
    if region = none ∨ region = some [] then
      .error (.invalidRegion (T "Region is required for Regional template"))
    else
      match lookupT region_template_mapping (region.getD []) with
      | none => .error (.invalidRegion (T "Invalid region: " ++ region.getD []))
      | some fn =>
        if exists_ (T "templates/" ++ fn) then .ok (T "templates/" ++ fn)
        else .error (.templateNotFound (T "Template file not found: " ++ fn))
  else
    match lookupT template_mapping template_type with
    | none => .error (.invalidTemplateType (T "Invalid template type: " ++ template_type))
    | some fn =>
      if exists_ (T "templates/" ++ fn) then .ok (T "templates/" ++ fn)
      else .error (.templateNotFound (T "Template file not found: " ++ fn))

def valid_regions : List Txt :=
  [T "North America", T "Europe", T "Asia Pacific",
   T "Middle East & Africa", T "Latin America"]

/-- `validate_region` (word.py:85-109). -/
def validate_region (region : Txt) : Except GenErr Txt :=
  if region ∈ valid_regions then .ok region
  else .error (.invalidRegion (T "Invalid region: " ++ region))

-- Single-document pipeline (word.py:764-931). ---------------------------------

/-- The JSON body of a single-document request: scope fields plus the flat
`SegmentI` / `SegmentISub-segmentJ` / `CompanyI` keys, modelled as
association lists on the numeric indices. -/
structure InputData where
  template_type : Option Txt
  region : Option Txt
  country : Option Txt
  market_name : Option Txt
  segmentFields : List (Nat × Txt)
  subFields : List ((Nat × Nat) × Txt)
  companyFields : List (Nat × Txt)

deriving DecidableEq

def InputData.seg? (d : InputData) (i : Nat) : Option Txt :=
  (d.segmentFields.find? fun kv => kv.1 == i).map (·.2)

def InputData.sub? (d : InputData) (i j : Nat) : Option Txt :=
  (d.subFields.find? fun kv => kv.1 == (i, j)).map (·.2)

def InputData.company? (d : InputData) (i : Nat) : Option Txt :=
  (d.companyFields.find? fun kv => kv.1 == i).map (·.2)

/-- Inner while-loop of the segment materialisation (word.py:843-846):
collect `Segment{i}Sub-segment{j}` for j = 1, 2, … until the first gap.
The fuel bounds the loop by the number of sub-segment keys present, which a
contiguous run can never exceed. -/
def collectSubsF : Nat → InputData → Nat → Nat → List Txt
  | 0, _, _, _ => []
  | f + 1, d, i, j =>
    match d.sub? i j with
    | some v => v :: collectSubsF f d i (j + 1)
    | none => []

/-- Outer while-loop (word.py:839-848): collect `Segment{i}` for
i = 1, 2, … until the first gap. -/
def collectSegsF : Nat → InputData → Nat → List Seg
  | 0, _, _ => []
  | f + 1, d, i =>
    match d.seg? i with
    | some name =>
      ⟨name, collectSubsF (d.subFields.length + 1) d i 1⟩ :: collectSegsF f d (i + 1)
    | none => []

/-- word.py:838-848: convert the flat dictionary to structured
segmentations, reading sequentially numbered fields until a gap. -/
def materializeSegs (d : InputData) : List Seg :=
  collectSegsF (d.segmentFields.length + 1) d 1

/-- The tail of the single-document pipeline, from the market-name
substitution (word.py:828) to the reference refresh (word.py:866): market
name (only when truthy), materialised segments, placeholder pruning,
companies (ten entries, absent ones defaulting to the empty string), zone
removal, marker stripping, reference refresh. -/
def synthTail (data : InputData) (doc2 : Doc) : Doc :=
  let market_name := data.market_name.getD []
  let doc3 := if market_name ≠ [] then (replace_text doc2 marketTok market_name).1 else doc2
  let segs := materializeSegs data
  let doc4 := replace_segments doc3 segs
  let doc5 := clean_empty_segments doc4 segs
  let companies := (List.range' 1 10).map fun i => (data.company? i).getD []
  let doc6 := replace_companies doc5 companies
  let doc7 := remove_unused_sections doc6 segs
  let doc8 := clean_all_segment_markers doc7
  update_document_references doc8

/-- The structural pipeline of `generate_word_doc` (word.py:764-931).
HTTP, auth and MongoDB writes are outside the model; `exists_` and
`templates` stand for the template store (path → parsed document).
`replace_textbox_text` and the `replace_header_textbox` pass over the saved
file patch only textbox/drawing nodes inside raw header XML — nodes this
structural model does not contain — and leave every body, table-cell and
header paragraph text unchanged, so they are identities here; the final
reload preserves the structural tree that is serialized. -/
def generate_word_doc (exists_ : Txt → Bool) (templates : Txt → Doc)
    (data : InputData) : Except GenErr Doc :=
  let template_type := data.template_type.getD (T "Global")
  match get_template_path exists_ template_type
      (if template_type = T "Regional" then data.region else none) with
  | .error e => .error e
  | .ok path =>
    let doc0 := templates path
    let step1 : Except GenErr Doc :=
      if template_type = T "Regional" then
        match data.region with
        | none => .error (.invalidRegion (T "Region is required for Regional template"))
        | some r =>
          if r = [] then
            .error (.invalidRegion (T "Region is required for Regional template"))
          else
            match validate_region r with
            | .error e => .error e
            | .ok r2 => .ok (replace_region doc0 r2)
      else .ok doc0
    match step1 with
    | .error e => .error e
    | .ok doc1 =>
      let step2 : Except GenErr Doc :=
        if template_type = T "Country" then
          match data.country with
          | none => .error (.missingScopeField (T "Country is required for Country template"))
          | some c =>
            if c = [] then
              .error (.missingScopeField (T "Country is required for Country template"))
            else .ok (replace_country doc1 c)
        else .ok doc1
      match step2 with
      | .error e => .error e
      | .ok doc2 => .ok (synthTail data doc2)

-- Bulk pipeline (word.py:970-1290). -------------------------------------------

/-- The message of the `TypeError` raised by the dictionary-style calls
`replace_header_textbox(doc, {...})` at word.py:1241, 1248 and 1255: the
function signature (word.py:485) requires a third positional argument. -/
def typeErrorHeaderTextbox : Txt :=
  T "replace_header_textbox() missing 1 required positional argument: location"

/-- The flat `doc_data` dictionary a bulk row is turned into
(word.py:1082-1104): scope fields are always-present strings, segment /
sub-segment / company values are stripped strings keyed by index. -/
structure RowDoc where
  template_type : Txt
  market_name : Txt
  region : Txt
  country : Txt
  segmentFields : List (Nat × Txt)
  subFields : List ((Nat × Nat) × Txt)
  companyFields : List (Nat × Txt)

deriving DecidableEq

def RowDoc.seg? (d : RowDoc) (i : Nat) : Option Txt :=
  (d.segmentFields.find? fun kv => kv.1 == i).map (·.2)

def RowDoc.sub? (d : RowDoc) (i j : Nat) : Option Txt :=
  (d.subFields.find? fun kv => kv.1 == (i, j)).map (·.2)

def RowDoc.company? (d : RowDoc) (i : Nat) : Option Txt :=
  (d.companyFields.find? fun kv => kv.1 == i).map (·.2)

/-- The sparse materialisation (word.py:1259-1270) of the bulk row
pipeline: `for i in range(1, 7): if SegmentI present`, sub-segments
likewise sparse. -/
def rowSegs (data : RowDoc) : List Seg :=
  (List.range' 1 6).filterMap fun i =>
    (data.seg? i).map fun name =>
      (⟨name, (List.range' 1 10).filterMap fun j => data.sub? i j⟩ : Seg)

/-- Tail of the bulk row pipeline (word.py:1272-1286). -/
def synthTailRow (data : RowDoc) (doc2 : Doc) : Doc :=
  let segs := rowSegs data
  let doc3 := replace_segments doc2 segs
  let doc4 := clean_empty_segments doc3 segs
  let companies := (List.range' 1 10).map fun i => (data.company? i).getD []
  let doc5 := replace_companies doc4 companies
  let doc6 := clean_all_segment_markers (remove_unused_sections doc5 segs)
  update_document_references doc6

/-- `generate_single_document` (word.py:1221-1290), the per-row pipeline of
bulk generation.  Unlike `generate_word_doc` it materialises segments
sparsely (`for i in range(1, 7): if f'Segment{i}' in data`), and its
`replace_header_textbox(doc, {...})` calls raise `TypeError`
unconditionally (two arguments passed to a three-positional-argument
function), which the transcription throws at the corresponding points. -/
def generate_single_document (exists_ : Txt → Bool) (templates : Txt → Doc)
    (data : RowDoc) : Except GenErr Doc :=
  match get_template_path exists_ data.template_type
      (if data.template_type = T "Regional" then some data.region else none) with
  | .error e => .error e
  | .ok path =>
    let doc0 := templates path
    let step1 : Except GenErr Doc :=
      if data.template_type = T "Regional" then
        match validate_region data.region with
        | .error e => .error e
        | .ok r =>
          let _ := replace_region doc0 r
          .error (.typeError typeErrorHeaderTextbox)
      else if data.template_type = T "Country" then
        let _ := replace_country doc0 data.country
        .error (.typeError typeErrorHeaderTextbox)
      else .ok doc0
    match step1 with
    | .error e => .error e
    | .ok doc1 =>
      let step2 : Except GenErr Doc :=
        if data.market_name ≠ [] then
          let _ := (replace_text doc1 marketTok data.market_name).1
          .error (.typeError typeErrorHeaderTextbox)
        else .ok doc1
      match step2 with
      | .error e => .error e
      | .ok doc2 => .ok (synthTailRow data doc2)

/-- One CSV row after pandas parsing: a missing column or NaN cell is
`none`. -/
structure RowCsv where
  template_type : Option Txt
  market_name : Option Txt
  region : Option Txt
  country : Option Txt
  segCols : List (Nat × Txt)
  subCols : List ((Nat × Nat) × Txt)
  companyCols : List (Nat × Txt)

deriving DecidableEq

def RowCsv.segCol? (r : RowCsv) (i : Nat) : Option Txt :=
  (r.segCols.find? fun kv => kv.1 == i).map (·.2)

def RowCsv.subCol? (r : RowCsv) (i j : Nat) : Option Txt :=
  (r.subCols.find? fun kv => kv.1 == (i, j)).map (·.2)

def RowCsv.companyCol? (r : RowCsv) (i : Nat) : Option Txt :=
  (r.companyCols.find? fun kv => kv.1 == i).map (·.2)

/-- `str.isalnum()` restricted to ASCII letters and digits (the filenames in
the claims are ASCII). -/
def pyIsAlnum (c : Char) : Bool := c.isAlpha || c.isDigit

/-- word.py:1115: keep only alphanumerics, spaces, `_`, `-`, `.`. -/
def sanitizeFilename (s : Txt) : Txt :=
  s.filter fun c => pyIsAlnum c || c == ' ' || c == '_' || c == '-' || c == '.'

/-- Python `str(e)` on the caught exception. -/
def errMsg : GenErr → Txt
  | .invalidRegion m => m
  | .invalidTemplateType m => m
  | .templateNotFound m => m
  | .missingScopeField m => m
  | .typeError m => m

/-- One iteration of the bulk row loop (word.py:1064-1135): validate the
row's template type and scope, build `doc_data`, compute the sanitised
filename, and run the row pipeline; any raised error becomes the row's
failure message.  (The per-row MongoDB records are outside the model.) -/
def processRow (exists_ : Txt → Bool) (templates : Txt → Doc) (idx : Nat)
    (row : RowCsv) : Except Txt (Txt × Doc) :=
  let tt := row.template_type.getD []
  if ¬(tt = T "Global" ∨ tt = T "Regional" ∨ tt = T "Country") then
    .error (T "Invalid template_type in row " ++ natTxt (idx + 1) ++ T ": " ++ tt)
  else if tt = T "Regional" ∧ (row.region = none ∨ pyStrip (row.region.getD []) = []) then
    .error (T "Region is required for Regional template in row " ++ natTxt (idx + 1))
  else if tt = T "Country" ∧ (row.country = none ∨ pyStrip (row.country.getD []) = []) then
    .error (T "Country is required for Country template in row " ++ natTxt (idx + 1))
  else
    let docData : RowDoc :=
      { template_type := tt
        market_name := row.market_name.getD []
        region := row.region.getD []
        country := row.country.getD []
        segmentFields := (List.range' 1 6).filterMap fun i =>
          (row.segCol? i).map fun v => (i, pyStrip v)
        subFields := (List.range' 1 6).flatMap fun i =>
          if (row.segCol? i).isSome then
            (List.range' 1 10).filterMap fun j =>
              (row.subCol? i j).map fun v => ((i, j), pyStrip v)
          else []
        companyFields := (List.range' 1 10).filterMap fun i =>
          (row.companyCol? i).map fun v => (i, pyStrip v) }
    let filename :=
      if tt = T "Regional" then
        sanitizeFilename (docData.region ++ T "_" ++ docData.market_name ++ T "_Market.docx")
      else if tt = T "Country" then
        sanitizeFilename (docData.country ++ T "_" ++ docData.market_name ++ T "_Market.docx")
      else
        sanitizeFilename (docData.market_name ++ T "_Global_Market.docx")
    match generate_single_document exists_ templates docData with
    | .ok doc => .ok (filename, doc)
    | .error e => .error (errMsg e)

structure BulkOutcome where
  success : Nat
  failed : Nat
  files : List (Txt × Doc)
  errors : List Txt

deriving DecidableEq

/-- The row loop of `generate_bulk_documents` (word.py:1064-1178): a
successful row appends its document to the in-memory archive and counts a
success; a failed row records `f"Error in row \x7bindex+1\x7d: \x7be\x7d"` and counts a
failure — the loop always continues with the next row.  CSV decoding,
required-column validation, auth and MongoDB bookkeeping are outside this
model. -/
def generate_bulk_documents (exists_ : Txt → Bool) (templates : Txt → Doc)
    (rows : List RowCsv) : BulkOutcome :=
  rows.enum.foldl
    (fun st ir =>
      match processRow exists_ templates ir.1 ir.2 with
      | .ok fd =>
        { st with success := st.success + 1, files := st.files ++ [fd] }
      | .error e =>
        { st with failed := st.failed + 1,
                  errors := st.errors ++ [T "Error in row " ++ natTxt (ir.1 + 1) ++ T ": " ++ e] })
    ⟨0, 0, [], []⟩

/-- word.py:1187-1207: if some row failed and none succeeded the route
returns a 500 response and no archive; otherwise the ZIP of the successful
documents is returned. -/
def bulkArchive (o : BulkOutcome) : Option (List (Txt × Doc)) :=
  if o.failed > 0 ∧ o.success = 0 then none else some o.files

deriving instance DecidableEq for Except

-- Well-formedness and absence predicates over a document. ---------------------

/-- Every reachable paragraph text of the document is well formed. -/
def TextsWf (d : Doc) : Prop := ∀ s ∈ d.texts, WfTxt s

/-- The token occurs in no reachable paragraph text. -/
def NoTok (d : Doc) (t : Txt) : Prop := ∀ s ∈ d.texts, hasSub s t = false

/-- A flat chain of `replace_text` calls, each replacing the token with the
given bare name by the given value. -/
def replaceJobs (d : Doc) (jobs : List (Txt × Txt)) : Doc :=
  jobs.foldl (fun d0 j => (replace_text d0 (tokTxt j.1) j.2).1) d

/-- The flat list of (bare token name, value) substitutions performed by
`replace_segments`. -/
def segJobs (segs : List Seg) : List (Txt × Txt) :=
  segs.enum.flatMap fun is =>
    (T "Segment" ++ natTxt (is.1 + 1), is.2.name) ::
      (is.2.subSegments.enum.map fun js =>
        (T "Segment" ++ natTxt (is.1 + 1) ++ T "Sub-segment" ++ natTxt (js.1 + 1), js.2))

/-- The flat list of company substitutions performed by `replace_companies`. -/
def companyJobs (companies : List Txt) : List (Txt × Txt) :=
  (companies.take 10).enum.map fun ic => (T "Company" ++ natTxt (ic.1 + 1), ic.2)

/-- A marker or placeholder token together with its bare brace-free name. -/
def IsTokShape (t : Txt) : Prop := ∃ x, braceFree x = true ∧ t = tokTxt x

-- The closed placeholder vocabulary (§6 of the spec). --------------------------

def closedVocab : List Txt :=
  [marketTok, regionTok, countryTok]
    ++ ((List.range' 1 6).flatMap fun i =>
        segTok i :: startTok i :: endTok i ::
          ((List.range' 1 10).map fun j => subTokL i j))
    ++ ((List.range' 1 10).map fun n => companyTok n)

/-- A one-paragraph template consisting only of the market-name
placeholder. -/
def c1CexDoc : Doc := ⟨[Block.para ⟨[marketTok]⟩], []⟩

/-- A Global request whose `market_name` is the empty string. -/
def c1CexData : InputData :=
  ⟨some (T "Global"), none, none, some [], [], [], []⟩

/-- A Global request with market name "Widgets". -/
def c1WitData : InputData :=
  ⟨some (T "Global"), none, none, some (T "Widgets"), [], [], []⟩

/-- The output of the pipeline on `c1CexDoc` and `c1WitData`. -/
def c1WitOut : Doc := ⟨[Block.para ⟨[T "Widgets"]⟩], []⟩

/-- One marker-delimited zone of three body paragraphs: Start marker,
content, End marker. -/
def c2Zone (i : Nat) (content : Txt) : List Block :=
  [Block.para ⟨[startTok i]⟩, Block.para ⟨[content]⟩, Block.para ⟨[endTok i]⟩]

/-- A template with marker-delimited zones for all six segments. -/
def c2Doc : Doc :=
  ⟨c2Zone 1 (T "ZoneOneBody") ++ c2Zone 2 (T "ZoneTwoBody")
      ++ c2Zone 3 (T "ZoneThreeBody") ++ c2Zone 4 (T "ZoneFourBody")
      ++ c2Zone 5 (T "ZoneFiveBody") ++ c2Zone 6 (T "ZoneSixBody"),
    []⟩

/-- A request that provides Segment1 and Segment3 but no Segment2. -/
def c2Data : InputData :=
  ⟨some (T "Global"), none, none, some (T "M"),
    [(1, T "SegOne"), (3, T "SegThree")], [], []⟩

/-- What the pipeline actually produces on `c2Doc` and `c2Data`: only zone
1's content survives. -/
def c2Out : Doc := ⟨[Block.para ⟨[T "ZoneOneBody"]⟩], []⟩

/-- The loop body of `generate_bulk_documents`, named for reasoning. -/
def bulkStep (exists_ : Txt → Bool) (templates : Txt → Doc)
    (st : BulkOutcome) (ir : Nat × RowCsv) : BulkOutcome :=
  match processRow exists_ templates ir.1 ir.2 with
  | .ok fd =>
    { st with success := st.success + 1, files := st.files ++ [fd] }
  | .error e =>
    { st with failed := st.failed + 1,
              errors := st.errors ++ [T "Error in row " ++ natTxt (ir.1 + 1) ++ T ": " ++ e] }

/-- The five-row table of the claim: rows 1, 2, 4 and 5 are Global with a
market name, row 3 is Regional with no region. -/
def c3Rows : List RowCsv :=
  [⟨some (T "Global"), some (T "Alpha"), none, none, [], [], []⟩,
   ⟨some (T "Global"), some (T "Beta"), none, none, [], [], []⟩,
   ⟨some (T "Regional"), some (T "Gamma"), none, none, [], [], []⟩,
   ⟨some (T "Global"), some (T "Delta"), none, none, [], [], []⟩,
   ⟨some (T "Global"), some (T "Epsilon"), none, none, [], [], []⟩]

/-- A one-paragraph document holding just the market token. -/
def c5Doc : Doc := ⟨[Block.para ⟨[marketTok]⟩], []⟩

/-- A replacement value that itself contains the token being replaced. -/
def c5Rep : Txt := T "A" ++ marketTok

/-- Modelled on the claim's words: scan the blocks in order carrying the
index and the optionally open zone; at a paragraph, open a zone on a Start
marker seen while no zone is open, close the open zone on an End marker and
record the inclusive range; tables are skipped. -/
def scanSpec (smark emark : Txt) : List Block → Nat → Option Nat → List (Nat × Nat)
  | [], _, _ => []
  | .table _ :: rest, i, op => scanSpec smark emark rest (i + 1) op
  | .para p :: rest, i, none =>
    if hasSub p.text smark then
      (if hasSub p.text emark then (i, i) :: scanSpec smark emark rest (i + 1) none
       else scanSpec smark emark rest (i + 1) (some i))
    else scanSpec smark emark rest (i + 1) none
  | .para p :: rest, i, some s =>
    if hasSub p.text emark then (s, i) :: scanSpec smark emark rest (i + 1) none
    else scanSpec smark emark rest (i + 1) (some s)

instance : IsTrans (Nat × Nat) zoneDescRel :=
  ⟨fun a b c hab hbc => by unfold zoneDescRel at *; omega⟩

instance : IsTotal (Nat × Nat) zoneDescRel :=
  ⟨fun a b => by unfold zoneDescRel; omega⟩

instance : IsAntisymm (Nat × Nat) zoneDescRel :=
  ⟨fun a b h1 h2 => by
    unfold zoneDescRel at h1 h2
    have hfst : a.1 = b.1 := by omega
    have hsnd : a.2 = b.2 := by omega
    exact Prod.ext hfst hsnd⟩

/-- The index-based pruning the removal amounts to: walking the blocks with
their indices, drop each block whose index lies in some recorded range. -/
def dropRanges (zones : List (Nat × Nat)) : Nat → List Block → List Block
  | _, [] => []
  | i, b :: rest =>
    if zones.any fun z => decide (z.1 ≤ i) && decide (i ≤ z.2) then
      dropRanges zones (i + 1) rest
    else b :: dropRanges zones (i + 1) rest

/-- A document with a full marker-delimited zone, for the C7 witness. -/
def c7Doc : Doc :=
  ⟨[Block.para ⟨[startTok 1]⟩, Block.para ⟨[T "Body"]⟩, Block.para ⟨[endTok 1]⟩], []⟩

/-- A one-paragraph document holding a company placeholder. -/
def c9Doc : Doc := ⟨[Block.para ⟨[companyTok 2]⟩], []⟩

/-- A Global request with no market name and no company fields. -/
def c9Data : InputData := ⟨some (T "Global"), none, none, none, [], [], []⟩

/-- The output on `c9Doc`/`c9Data`: the company token replaced by the empty
string. -/
def c9Out : Doc := ⟨[Block.para ⟨[([] : Txt)]⟩], []⟩

-- Theorems. -------------------------------------------------------------------

-- Basic facts about the text primitives. ------------------------------------

theorem pfx_iff (p s : Txt) : pfx p s = true ↔ p <+: s := by
  induction p generalizing s with
  | nil => simp [pfx]
  | cons a as ih =>
    cases s with
    | nil => simp [pfx]
    | cons b bs =>
      simp only [pfx, Bool.and_eq_true, beq_iff_eq]
      constructor
      · rintro ⟨rfl, h⟩
        exact (List.prefix_cons_inj a).mpr ((ih bs).mp h)
      · intro h
        rcases List.cons_prefix_cons.mp h with ⟨rfl, h2⟩
        exact ⟨rfl, (ih bs).mpr h2⟩

theorem hasSub_iff (s pat : Txt) : hasSub s pat = true ↔ pat <:+: s := by
  induction s with
  | nil =>
    simp only [hasSub, pfx_iff]
    constructor
    · exact fun h => h.isInfix
    · intro h
      rw [List.infix_nil] at h
      simp [h]
  | cons c t ih =>
    simp only [hasSub, Bool.or_eq_true, pfx_iff, ih]
    exact (List.infix_cons_iff).symm

theorem hasSub_congr_infix {s s' pat : Txt} (h : s <:+: s')
    (hh : hasSub s pat = true) : hasSub s' pat = true := by
  rw [hasSub_iff] at *
  exact hh.trans h

theorem replaceAllF_nil_eq (f : Nat) (pat rep : Txt) : replaceAllF f [] pat rep = [] := by
  cases f with
  | zero => rfl
  | succ f =>
    simp only [replaceAllF]
    by_cases h : pat ≠ [] ∧ pfx pat [] = true
    · rcases h with ⟨h1, h2⟩
      cases pat with
      | nil => exact absurd rfl h1
      | cons a as => simp [pfx] at h2
    · simp [h]

theorem replaceAllF_congr : ∀ (f g : Nat) (s pat rep : Txt),
    s.length ≤ f → s.length ≤ g →
    replaceAllF f s pat rep = replaceAllF g s pat rep := by
  intro f
  induction f with
  | zero =>
    intro g s pat rep hf _
    have : s = [] := List.length_eq_zero.mp (Nat.le_zero.mp hf)
    subst this
    rw [replaceAllF_nil_eq, replaceAllF_nil_eq]
  | succ f ih =>
    intro g s pat rep hf hg
    cases s with
    | nil => rw [replaceAllF_nil_eq, replaceAllF_nil_eq]
    | cons c t =>
      cases g with
      | zero => simp at hg
      | succ g =>
        simp only [replaceAllF]
        by_cases h : pat ≠ [] ∧ pfx pat (c :: t) = true
        · simp only [if_pos h]
          have hlen : ((c :: t).drop pat.length).length ≤ f := by
            have := List.length_drop pat.length (c :: t)
            simp only [this]
            have hp : 1 ≤ pat.length := by
              cases pat with
              | nil => exact absurd rfl h.1
              | cons _ _ => simp
            simp only [List.length_cons] at hf hg ⊢
            omega
          have hlen2 : ((c :: t).drop pat.length).length ≤ g := by
            have := List.length_drop pat.length (c :: t)
            simp only [this]
            have hp : 1 ≤ pat.length := by
              cases pat with
              | nil => exact absurd rfl h.1
              | cons _ _ => simp
            simp only [List.length_cons] at hf hg ⊢
            omega
          rw [ih _ _ _ _ hlen hlen2]
        · simp only [if_neg h]
          have hlen : t.length ≤ f := by simp only [List.length_cons] at hf; omega
          have hlen2 : t.length ≤ g := by simp only [List.length_cons] at hg; omega
          rw [ih _ _ _ _ hlen hlen2]

theorem replaceAll_nil (pat rep : Txt) : replaceAll [] pat rep = [] := by
  simp [replaceAll, replaceAllF_nil_eq]

theorem replaceAll_pos {s pat : Txt} (rep : Txt) (h1 : pat ≠ [])
    (h2 : pfx pat s = true) :
    replaceAll s pat rep = rep ++ replaceAll (s.drop pat.length) pat rep := by
  cases s with
  | nil =>
    cases pat with
    | nil => exact absurd rfl h1
    | cons a as => simp [pfx] at h2
  | cons c t =>
    show replaceAllF (c :: t).length (c :: t) pat rep = _
    have : (c :: t).length = t.length + 1 := rfl
    rw [this]
    simp only [replaceAllF, if_pos (And.intro h1 h2)]
    congr 1
    apply replaceAllF_congr
    · have := List.length_drop pat.length (c :: t)
      simp only [this, List.length_cons]
      have hp : 1 ≤ pat.length := by
        cases pat with
        | nil => exact absurd rfl h1
        | cons _ _ => simp
      omega
    · exact le_refl _

theorem replaceAll_neg {s pat : Txt} (rep : Txt) (c : Char) (t : Txt)
    (hs : s = c :: t) (h : ¬(pat ≠ [] ∧ pfx pat s = true)) :
    replaceAll s pat rep = c :: replaceAll t pat rep := by
  subst hs
  show replaceAllF (c :: t).length (c :: t) pat rep = _
  have : (c :: t).length = t.length + 1 := rfl
  rw [this]
  simp only [replaceAllF, if_neg h]
  rfl

theorem replaceAll_of_not_hasSub {s pat : Txt} (rep : Txt)
    (h : hasSub s pat = false) : replaceAll s pat rep = s := by
  induction s with
  | nil => exact replaceAll_nil pat rep
  | cons c t ih =>
    simp only [hasSub, Bool.or_eq_false_iff] at h
    rw [replaceAll_neg rep c t rfl (by
      rintro ⟨_, h2⟩
      rw [h.1] at h2
      exact Bool.false_ne_true h2)]
    rw [ih h.2]

@[simp] theorem renderChunks_nil : renderChunks [] = [] := rfl

@[simp] theorem renderChunks_cons (c : Chunk) (cs : List Chunk) :
    renderChunks (c :: cs) = c.render ++ renderChunks cs := rfl

theorem braceFree_mem {s : Txt} (h : braceFree s = true) {c : Char} (hc : c ∈ s) :
    c ≠ '{' ∧ c ≠ '}' := by
  simp only [braceFree, List.all_eq_true, Bool.and_eq_true, Bool.not_eq_true',
    beq_eq_false_iff_ne] at h
  exact h c hc

theorem tokTxt_ne_nil (x : Txt) : tokTxt x ≠ [] := by simp [tokTxt]

theorem pfx_head_ne {a b : Char} (h : a ≠ b) (p s : Txt) :
    pfx (a :: p) (b :: s) = false := by
  simp [pfx, h]

theorem pfx_tok_head_ne {x : Txt} {c : Char} (h : c ≠ '{') (s : Txt) :
    pfx (tokTxt x) (c :: s) = false := by
  simp only [tokTxt]
  exact pfx_head_ne (Ne.symm h) _ _

theorem pfx_tok_second_ne {x : Txt} {d : Char} (h : d ≠ '{') (s : Txt) :
    pfx (tokTxt x) ('{' :: d :: s) = false := by
  simp only [tokTxt, pfx, beq_self_eq_true, Bool.true_and]
  exact pfx_head_ne (Ne.symm h) _ _

theorem bf_brace_inj : ∀ {x y a b : Txt}, braceFree x = true → braceFree y = true →
    x ++ '}' :: a = y ++ '}' :: b → x = y ∧ a = b := by
  intro x
  induction x with
  | nil =>
    intro y a b _ hy heq
    cases y with
    | nil =>
      simp only [List.nil_append] at heq
      exact ⟨rfl, (List.cons.injEq _ _ _ _).mp heq |>.2⟩
    | cons d y2 =>
      simp only [List.nil_append, List.cons_append, List.cons.injEq] at heq
      exact absurd heq.1.symm (braceFree_mem hy (List.mem_cons_self d y2)).2
  | cons c x2 ih =>
    intro y a b hx hy heq
    cases y with
    | nil =>
      simp only [List.cons_append, List.nil_append, List.cons.injEq] at heq
      exact absurd heq.1 (braceFree_mem hx (List.mem_cons_self c x2)).2
    | cons d y2 =>
      simp only [List.cons_append, List.cons.injEq] at heq
      have hx2 : braceFree x2 = true := by
        simp only [braceFree, List.all_cons, Bool.and_eq_true] at hx
        exact hx.2
      have hy2 : braceFree y2 = true := by
        simp only [braceFree, List.all_cons, Bool.and_eq_true] at hy
        exact hy.2
      obtain ⟨h1, h2⟩ := ih hx2 hy2 heq.2
      exact ⟨by rw [heq.1, h1], h2⟩

theorem tok_pfx_iff {x y : Txt} (t : Txt) (hx : braceFree x = true)
    (hy : braceFree y = true) :
    pfx (tokTxt x) (tokTxt y ++ t) = true ↔ x = y := by
  constructor
  · intro h
    rw [pfx_iff] at h
    obtain ⟨u, hu⟩ := h
    simp only [tokTxt, List.cons_append, List.append_assoc, List.cons.injEq] at hu
    have heq : x ++ '}' :: ('}' :: u) = y ++ '}' :: ('}' :: t) := by
      have := hu.2.2
      simpa using this
    exact (bf_brace_inj hx hy heq).1
  · intro h
    subst h
    rw [pfx_iff]
    exact List.prefix_append _ _

theorem replaceTok_eq (x t rep : Txt) :
    replaceAll (tokTxt x ++ t) (tokTxt x) rep = rep ++ replaceAll t (tokTxt x) rep := by
  rw [replaceAll_pos rep (tokTxt_ne_nil x) (by rw [pfx_iff]; exact List.prefix_append _ _)]
  rw [List.drop_left]

theorem hasSub_of_pfx {s pat : Txt} (h : pfx pat s = true) : hasSub s pat = true := by
  cases s with
  | nil => simpa [hasSub] using h
  | cons c t => simp [hasSub, h]

theorem hasTok_eq (x t : Txt) : hasSub (tokTxt x ++ t) (tokTxt x) = true :=
  hasSub_of_pfx (by rw [pfx_iff]; exact List.prefix_append _ _)

theorem copyLit {x : Txt} (rep : Txt) : ∀ {l : Txt}, braceFree l = true → ∀ (t : Txt),
    replaceAll (l ++ t) (tokTxt x) rep = l ++ replaceAll t (tokTxt x) rep := by
  intro l
  induction l with
  | nil => intro _ t; simp
  | cons c l2 ih =>
    intro hl t
    have hc : c ≠ '{' := (braceFree_mem hl (List.mem_cons_self c l2)).1
    have hl2 : braceFree l2 = true := by
      simp only [braceFree, List.all_cons, Bool.and_eq_true] at hl
      exact hl.2
    rw [List.cons_append]
    rw [replaceAll_neg rep c (l2 ++ t) rfl (by
      rintro ⟨_, h2⟩
      rw [pfx_tok_head_ne hc] at h2
      exact Bool.false_ne_true h2)]
    rw [ih hl2 t, List.cons_append]

theorem hasLit {x : Txt} : ∀ {l : Txt}, braceFree l = true → ∀ (t : Txt),
    hasSub (l ++ t) (tokTxt x) = hasSub t (tokTxt x) := by
  intro l
  induction l with
  | nil => intro _ t; simp
  | cons c l2 ih =>
    intro hl t
    have hc : c ≠ '{' := (braceFree_mem hl (List.mem_cons_self c l2)).1
    have hl2 : braceFree l2 = true := by
      simp only [braceFree, List.all_cons, Bool.and_eq_true] at hl
      exact hl.2
    rw [List.cons_append]
    show (pfx (tokTxt x) (c :: (l2 ++ t)) || hasSub (l2 ++ t) (tokTxt x)) = _
    rw [pfx_tok_head_ne hc, ih hl2 t, Bool.false_or]

theorem wfChunks_cons {c : Chunk} {cs : List Chunk} :
    wfChunks (c :: cs) = true ↔ c.wfB = true ∧ wfChunks cs = true := by
  simp [wfChunks]

theorem replaceTok_ne {x y : Txt} (t rep : Txt) (hx : braceFree x = true)
    (hy : braceFree y = true) (hny : y ≠ []) (hne : x ≠ y) :
    replaceAll (tokTxt y ++ t) (tokTxt x) rep = tokTxt y ++ replaceAll t (tokTxt x) rep := by
  have hshape : tokTxt y ++ t = '{' :: '{' :: (y ++ ('}' :: '}' :: t)) := by
    simp [tokTxt]
  rw [hshape]
  rw [replaceAll_neg rep '{' ('{' :: (y ++ ('}' :: '}' :: t))) rfl (by
    rintro ⟨_, h2⟩
    rw [← hshape, tok_pfx_iff t hx hy] at h2
    exact hne h2)]
  cases y with
  | nil => exact absurd rfl hny
  | cons d y2 =>
    have hd : d ≠ '{' := (braceFree_mem hy (List.mem_cons_self d y2)).1
    rw [replaceAll_neg rep '{' (((d :: y2)) ++ ('}' :: '}' :: t)) rfl (by
      rintro ⟨_, h2⟩
      rw [List.cons_append, pfx_tok_second_ne hd] at h2
      exact Bool.false_ne_true h2)]
    rw [copyLit rep hy]
    rw [replaceAll_neg rep '}' ('}' :: t) rfl (by
      rintro ⟨_, h2⟩
      rw [pfx_tok_head_ne (by decide)] at h2
      exact Bool.false_ne_true h2)]
    rw [replaceAll_neg rep '}' t rfl (by
      rintro ⟨_, h2⟩
      rw [pfx_tok_head_ne (by decide)] at h2
      exact Bool.false_ne_true h2)]
    simp [tokTxt]

theorem hasSub_cons (c : Char) (t pat : Txt) :
    hasSub (c :: t) pat = (pfx pat (c :: t) || hasSub t pat) := rfl

theorem hasTok_ne {x y : Txt} (t : Txt) (hx : braceFree x = true)
    (hy : braceFree y = true) (hny : y ≠ []) (hne : x ≠ y) :
    hasSub (tokTxt y ++ t) (tokTxt x) = hasSub t (tokTxt x) := by
  cases y with
  | nil => exact absurd rfl hny
  | cons d y2 =>
    have hd : d ≠ '{' := (braceFree_mem hy (List.mem_cons_self d y2)).1
    have hy2 : braceFree y2 = true := by
      simp only [braceFree, List.all_cons, Bool.and_eq_true] at hy
      exact hy.2
    have h0 : pfx (tokTxt x) (tokTxt (d :: y2) ++ t) = false := by
      rcases Bool.eq_false_or_eq_true (pfx (tokTxt x) (tokTxt (d :: y2) ++ t)) with h | h
      · exact absurd ((tok_pfx_iff t hx hy).mp h) hne
      · exact h
    have hshape : tokTxt (d :: y2) ++ t = '{' :: '{' :: ((d :: y2) ++ ('}' :: '}' :: t)) := by
      simp [tokTxt]
    rw [hshape] at h0 ⊢
    rw [hasSub_cons, h0, Bool.false_or]
    rw [hasSub_cons]
    have h1 : pfx (tokTxt x) ('{' :: ((d :: y2) ++ ('}' :: '}' :: t))) = false := by
      simp only [List.cons_append]
      exact pfx_tok_second_ne hd _
    rw [h1, Bool.false_or]
    rw [hasLit hy]
    rw [hasSub_cons, pfx_tok_head_ne (by decide), Bool.false_or]
    rw [hasSub_cons, pfx_tok_head_ne (by decide), Bool.false_or]

theorem wf_replaceTokChunks {cs : List Chunk} {x rep : Txt}
    (hcs : wfChunks cs = true) (hrep : braceFree rep = true) :
    wfChunks (replaceTokChunks cs x rep) = true := by
  induction cs with
  | nil => rfl
  | cons c cs2 ih =>
    rw [wfChunks_cons] at hcs
    show wfChunks ((if c = .tok x then .lit rep else c) :: _) = true
    rw [wfChunks_cons]
    refine ⟨?_, ih hcs.2⟩
    by_cases h : c = .tok x
    · simp only [if_pos h]
      exact hrep
    · simp only [if_neg h]
      exact hcs.1

/-- Python `replace` on a rendered well-formed chunk list acts exactly
chunk-wise: the occurrences of the token `{{x}}` are the `tok x` chunks. -/
theorem replaceAll_renderChunks {x rep : Txt} (hx : braceFree x = true) :
    ∀ {cs : List Chunk}, wfChunks cs = true →
    replaceAll (renderChunks cs) (tokTxt x) rep = renderChunks (replaceTokChunks cs x rep) := by
  intro cs
  induction cs with
  | nil => intro _; simp [replaceTokChunks, replaceAll_nil]
  | cons c cs2 ih =>
    intro hwf
    rw [wfChunks_cons] at hwf
    cases c with
    | lit l =>
      have hl : braceFree l = true := hwf.1
      show replaceAll (l ++ renderChunks cs2) (tokTxt x) rep = _
      rw [copyLit rep hl, ih hwf.2]
      show _ = renderChunks ((if Chunk.lit l = .tok x then Chunk.lit rep else .lit l) :: _)
      simp [replaceTokChunks, Chunk.render]
    | tok y =>
      have h1 := hwf.1
      simp only [Chunk.wfB, Bool.and_eq_true] at h1
      have hy : braceFree y = true := h1.1
      have hny : y ≠ [] := by
        intro h
        subst h
        simp at h1
      show replaceAll (tokTxt y ++ renderChunks cs2) (tokTxt x) rep = _
      by_cases hxy : x = y
      · subst hxy
        rw [replaceTok_eq, ih hwf.2]
        show _ = renderChunks ((if Chunk.tok x = .tok x then Chunk.lit rep else .tok x) :: _)
        simp [replaceTokChunks, Chunk.render]
      · rw [replaceTok_ne _ rep hx hy hny hxy, ih hwf.2]
        show _ = renderChunks ((if Chunk.tok y = .tok x then Chunk.lit rep else .tok y) :: _)
        rw [if_neg (by intro h; injection h with h2; exact hxy h2.symm)]
        rfl

/-- The token `{{x}}` occurs in a rendered well-formed chunk list exactly
when `tok x` is one of its chunks. -/
theorem hasSub_renderChunks {x : Txt} (hx : braceFree x = true) :
    ∀ {cs : List Chunk}, wfChunks cs = true →
    (hasSub (renderChunks cs) (tokTxt x) = true ↔ Chunk.tok x ∈ cs) := by
  intro cs
  induction cs with
  | nil =>
    intro _
    show hasSub [] (tokTxt x) = true ↔ _
    simp [hasSub, tokTxt, pfx]
  | cons c cs2 ih =>
    intro hwf
    rw [wfChunks_cons] at hwf
    cases c with
    | lit l =>
      have hl : braceFree l = true := hwf.1
      show hasSub (l ++ renderChunks cs2) (tokTxt x) = true ↔ _
      rw [hasLit hl, ih hwf.2]
      simp
    | tok y =>
      have h1 := hwf.1
      simp only [Chunk.wfB, Bool.and_eq_true] at h1
      have hy : braceFree y = true := h1.1
      have hny : y ≠ [] := by
        intro h
        subst h
        simp at h1
      show hasSub (tokTxt y ++ renderChunks cs2) (tokTxt x) = true ↔ _
      by_cases hxy : x = y
      · subst hxy
        rw [hasTok_eq]
        simp
      · rw [hasTok_ne _ hx hy hny hxy, ih hwf.2]
        constructor
        · exact fun h => List.mem_cons_of_mem _ h
        · intro h
          rcases List.mem_cons.mp h with h2 | h2
          · injection h2 with h3
            exact absurd h3 hxy
          · exact h2

/-- A well-formed text stays well formed under token replacement with a
brace-free value. -/
theorem WfTxt_replaceAll {s x rep : Txt} (hs : WfTxt s) (hx : braceFree x = true)
    (hrep : braceFree rep = true) : WfTxt (replaceAll s (tokTxt x) rep) := by
  obtain ⟨cs, hwf, rfl⟩ := hs
  exact ⟨replaceTokChunks cs x rep, wf_replaceTokChunks hwf hrep,
    replaceAll_renderChunks hx hwf⟩

/-- The workhorse: after replacing `{{x}}` by a brace-free value in a
well-formed text, `{{z}}` occurs exactly when it occurred before and
`z ≠ x`.  In particular the replaced token is gone and no new token is
ever introduced. -/
theorem hasSub_replaceAll_tok {s x z rep : Txt} (hs : WfTxt s)
    (hx : braceFree x = true) (hz : braceFree z = true)
    (hrep : braceFree rep = true) :
    (hasSub (replaceAll s (tokTxt x) rep) (tokTxt z) = true ↔
      (hasSub s (tokTxt z) = true ∧ z ≠ x)) := by
  obtain ⟨cs, hwf, rfl⟩ := hs
  rw [replaceAll_renderChunks hx hwf]
  rw [hasSub_renderChunks hz (wf_replaceTokChunks hwf hrep)]
  rw [hasSub_renderChunks hz hwf]
  constructor
  · intro hmem
    simp only [replaceTokChunks, List.mem_map] at hmem
    obtain ⟨c, hc, hceq⟩ := hmem
    by_cases h : c = .tok x
    · rw [if_pos h] at hceq
      exact absurd hceq (by simp)
    · rw [if_neg h] at hceq
      subst hceq
      refine ⟨hc, fun hzx => h (by rw [hzx])⟩
  · rintro ⟨hmem, hne⟩
    simp only [replaceTokChunks, List.mem_map]
    refine ⟨.tok z, hmem, ?_⟩
    rw [if_neg (by intro h; injection h with h2; exact hne h2)]

theorem WfTxt_substTxt {s x rep : Txt} (hs : WfTxt s) (hx : braceFree x = true)
    (hrep : braceFree rep = true) : WfTxt (substTxt (tokTxt x) rep s) := by
  unfold substTxt
  by_cases h : hasSub s (tokTxt x) = true
  · rw [if_pos h]
    exact WfTxt_replaceAll hs hx hrep
  · rw [if_neg h]
    exact hs

theorem hasSub_substTxt_self {s x rep : Txt} (hs : WfTxt s) (hx : braceFree x = true)
    (hrep : braceFree rep = true) :
    hasSub (substTxt (tokTxt x) rep s) (tokTxt x) = false := by
  unfold substTxt
  by_cases h : hasSub s (tokTxt x) = true
  · rw [if_pos h]
    rcases Bool.eq_false_or_eq_true (hasSub (replaceAll s (tokTxt x) rep) (tokTxt x)) with h2 | h2
    · obtain ⟨_, hne⟩ := (hasSub_replaceAll_tok hs hx hx hrep).mp h2
      exact absurd rfl hne
    · exact h2
  · rw [if_neg h]
    exact Bool.not_eq_true _ |>.mp h

theorem hasSub_substTxt_mono {s x z rep : Txt} (hs : WfTxt s) (hx : braceFree x = true)
    (hz : braceFree z = true) (hrep : braceFree rep = true)
    (hgone : hasSub s (tokTxt z) = false) :
    hasSub (substTxt (tokTxt x) rep s) (tokTxt z) = false := by
  unfold substTxt
  by_cases h : hasSub s (tokTxt x) = true
  · rw [if_pos h]
    rcases Bool.eq_false_or_eq_true (hasSub (replaceAll s (tokTxt x) rep) (tokTxt z)) with h2 | h2
    · obtain ⟨h3, _⟩ := (hasSub_replaceAll_tok hs hx hz hrep).mp h2
      rw [hgone] at h3
      exact absurd h3 (by simp)
    · exact h2
  · rw [if_neg h]
    exact hgone

-- Facts about `pyStrip` and `pyJoin`. ----------------------------------------

theorem dropWhile_decomp (p : Char → Bool) (s : Txt) :
    ∃ a, s = a ++ s.dropWhile p ∧ a.all p = true := by
  refine ⟨s.takeWhile p, (List.takeWhile_append_dropWhile (p := p) (l := s)).symm, ?_⟩
  rw [List.all_eq_true]
  intro c hc
  exact List.mem_takeWhile_imp hc

theorem pyStrip_decomp (s : Txt) :
    ∃ a b, s = a ++ (pyStrip s ++ b) ∧ a.all isWs = true ∧ b.all isWs = true := by
  obtain ⟨a, ha, hallA⟩ := dropWhile_decomp isWs s
  obtain ⟨b2, hb2, hallB2⟩ := dropWhile_decomp isWs (s.dropWhile isWs).reverse
  refine ⟨a, b2.reverse, ?_, hallA, ?_⟩
  · have h3 : s.dropWhile isWs = pyStrip s ++ b2.reverse := by
      have h4 := congrArg List.reverse hb2
      rw [List.reverse_reverse, List.reverse_append] at h4
      exact h4
    conv_lhs => rw [ha, h3]
  · rw [List.all_eq_true] at hallB2 ⊢
    intro c hc
    exact hallB2 c (List.mem_reverse.mp hc)

theorem infix_of_ws_left {pat m : Txt} (hnp : pat.all (fun c => !isWs c) = true)
    (hne : pat ≠ []) : ∀ {a : Txt}, a.all isWs = true → pat <:+: a ++ m → pat <:+: m := by
  intro a
  induction a with
  | nil =>
    intro _ h
    simpa using h
  | cons c a2 ih =>
    intro hws h
    rw [List.all_cons, Bool.and_eq_true] at hws
    rw [List.cons_append] at h
    rcases List.infix_cons_iff.mp h with h2 | h2
    · cases pat with
      | nil => exact absurd rfl hne
      | cons p0 pr =>
        rcases List.cons_prefix_cons.mp h2 with ⟨heq, _⟩
        rw [List.all_cons, Bool.and_eq_true] at hnp
        rw [heq, hws.1] at hnp
        simp at hnp
    · exact ih hws.2 h2

theorem infix_of_ws_right {pat m b : Txt} (hws : b.all isWs = true)
    (hnp : pat.all (fun c => !isWs c) = true) (hne : pat ≠ [])
    (h : pat <:+: m ++ b) : pat <:+: m := by
  have h2 : pat.reverse <:+: b.reverse ++ m.reverse := by
    rw [← List.reverse_append]
    exact List.reverse_infix.mpr h
  have hnp2 : pat.reverse.all (fun c => !isWs c) = true := by
    rw [List.all_eq_true] at hnp ⊢
    intro c hc
    exact hnp c (List.mem_reverse.mp hc)
  have hws2 : b.reverse.all isWs = true := by
    rw [List.all_eq_true] at hws ⊢
    intro c hc
    exact hws c (List.mem_reverse.mp hc)
  have h3 := infix_of_ws_left hnp2 (by simpa using hne) hws2 h2
  have h4 := List.reverse_infix.mpr h3
  simpa using h4

theorem hasSub_pyStrip {s pat : Txt} (hnp : pat.all (fun c => !isWs c) = true)
    (hne : pat ≠ []) (h : hasSub s pat = true) : hasSub (pyStrip s) pat = true := by
  obtain ⟨a, b, hdec, hwa, hwb⟩ := pyStrip_decomp s
  rw [hasSub_iff] at h ⊢
  rw [hdec] at h
  exact infix_of_ws_right hwb hnp hne (infix_of_ws_left hnp hne hwa h)

theorem pyStrip_all_ws {s : Txt} (h : pyStrip s = []) : s.all isWs = true := by
  obtain ⟨a, b, hdec, hwa, hwb⟩ := pyStrip_decomp s
  rw [h, List.nil_append] at hdec
  rw [hdec, List.all_append, hwa, hwb]
  rfl

theorem hasSub_of_all_ws {s pat : Txt} (hs : s.all isWs = true)
    (hnp : pat.all (fun c => !isWs c) = true) (hne : pat ≠ []) :
    hasSub s pat = false := by
  rcases Bool.eq_false_or_eq_true (hasSub s pat) with h | h
  · rw [hasSub_iff] at h
    have hsub := h.sublist
    cases pat with
    | nil => exact absurd rfl hne
    | cons p0 pr =>
      have hp0 : p0 ∈ s := hsub.subset (List.mem_cons_self _ _)
      rw [List.all_eq_true] at hs hnp
      have h1 := hs p0 hp0
      have h2 := hnp p0 (List.mem_cons_self _ _)
      rw [h1] at h2
      simp at h2
  · exact h

theorem mem_pyJoin_infix {sep : Txt} :
    ∀ {parts : List Txt} {x : Txt}, x ∈ parts → x <:+: pyJoin sep parts := by
  intro parts
  induction parts with
  | nil =>
    intro x h
    simp at h
  | cons p rest ih =>
    intro x hx
    cases rest with
    | nil =>
      rw [List.mem_singleton] at hx
      subst hx
      exact List.infix_refl _
    | cons q rest2 =>
      rcases List.mem_cons.mp hx with heq | h2
      · subst heq
        show x <:+: x ++ sep ++ pyJoin sep (q :: rest2)
        rw [List.append_assoc]
        exact (List.prefix_append _ _).isInfix
      · exact (ih h2).trans (List.suffix_append _ _).isInfix

theorem braceFree_append (a b : Txt) :
    braceFree (a ++ b) = (braceFree a && braceFree b) := List.all_append

theorem noWs_append (a b : Txt) : noWs (a ++ b) = (noWs a && noWs b) := List.all_append

theorem digitChar_bf (d : Nat) : braceFree [digitChar d] = true := by
  simp only [digitChar]
  split <;> decide

theorem digitChar_nws (d : Nat) : noWs [digitChar d] = true := by
  simp only [digitChar]
  split <;> decide

theorem natTxtF_bf (f : Nat) : ∀ (n : Nat), braceFree (natTxtF f n) = true := by
  induction f with
  | zero => exact fun n => digitChar_bf n
  | succ f ih =>
    intro n
    simp only [natTxtF]
    split
    · exact digitChar_bf n
    · rw [braceFree_append, Bool.and_eq_true]
      exact ⟨ih _, digitChar_bf _⟩

theorem natTxtF_nws (f : Nat) : ∀ (n : Nat), noWs (natTxtF f n) = true := by
  induction f with
  | zero => exact fun n => digitChar_nws n
  | succ f ih =>
    intro n
    simp only [natTxtF]
    split
    · exact digitChar_nws n
    · rw [noWs_append, Bool.and_eq_true]
      exact ⟨ih _, digitChar_nws _⟩

theorem natTxtF_ne_nil (f : Nat) : ∀ (n : Nat), natTxtF f n ≠ [] := by
  induction f with
  | zero => intro n; simp [natTxtF]
  | succ f ih =>
    intro n
    simp only [natTxtF]
    split
    · simp
    · simp

theorem natTxt_bf (n : Nat) : braceFree (natTxt n) = true := natTxtF_bf n n

theorem natTxt_nws (n : Nat) : noWs (natTxt n) = true := natTxtF_nws n n

theorem natTxt_ne_nil (n : Nat) : natTxt n ≠ [] := natTxtF_ne_nil n n

theorem marketTok_eq : marketTok = tokTxt (T "market_name") := by decide

theorem regionTok_eq : regionTok = tokTxt (T "region") := by decide

theorem countryTok_eq : countryTok = tokTxt (T "country") := by decide

theorem segTok_eq (i : Nat) : segTok i = tokTxt (T "Segment" ++ natTxt i) := by
  have h1 : T "\x7b\x7bSegment" = '{' :: '{' :: T "Segment" := by decide
  have h2 : T "\x7d\x7d" = ['}', '}'] := by decide
  simp [segTok, tokTxt, h1, h2]

theorem subTokL_eq (i j : Nat) :
    subTokL i j = tokTxt (T "Segment" ++ natTxt i ++ T "Sub-segment" ++ natTxt j) := by
  have h1 : T "\x7b\x7bSegment" = '{' :: '{' :: T "Segment" := by decide
  have h2 : T "\x7d\x7d" = ['}', '}'] := by decide
  simp [subTokL, tokTxt, h1, h2]

theorem subTokU_eq (i j : Nat) :
    subTokU i j = tokTxt (T "Segment" ++ natTxt i ++ T "Sub-Segment" ++ natTxt j) := by
  have h1 : T "\x7b\x7bSegment" = '{' :: '{' :: T "Segment" := by decide
  have h2 : T "\x7d\x7d" = ['}', '}'] := by decide
  simp [subTokU, tokTxt, h1, h2]

theorem companyTok_eq (n : Nat) : companyTok n = tokTxt (T "Company" ++ natTxt n) := by
  have h1 : T "\x7b\x7bCompany" = '{' :: '{' :: T "Company" := by decide
  have h2 : T "\x7d\x7d" = ['}', '}'] := by decide
  simp [companyTok, tokTxt, h1, h2]

theorem startTok_eq (n : Nat) :
    startTok n = tokTxt (T "Segment" ++ natTxt n ++ T "_Start") := by
  have h1 : T "\x7b\x7bSegment" = '{' :: '{' :: T "Segment" := by decide
  have h2 : T "_Start\x7d\x7d" = T "_Start" ++ ['}', '}'] := by decide
  simp [startTok, tokTxt, h1, h2]

theorem endTok_eq (n : Nat) :
    endTok n = tokTxt (T "Segment" ++ natTxt n ++ T "_End") := by
  have h1 : T "\x7b\x7bSegment" = '{' :: '{' :: T "Segment" := by decide
  have h2 : T "_End\x7d\x7d" = T "_End" ++ ['}', '}'] := by decide
  simp [endTok, tokTxt, h1, h2]

-- Projections of `replace_text`. ----------------------------------------------

theorem Para.text_single (t : Txt) : (Para.mk [t]).text = t := by
  simp [Para.text]

theorem substPara_text (pat rep : Txt) (p : Para) :
    (substPara pat rep p).text = substTxt pat rep p.text := by
  unfold substPara substTxt
  by_cases h : hasSub p.text pat = true
  · rw [if_pos h, if_pos h, Para.text_single]
  · rw [if_neg h, if_neg h]

theorem replace_text_fst_paragraphs (d : Doc) (pat rep : Txt) :
    ((replace_text d pat rep).1).paragraphs = d.paragraphs.map (substPara pat rep) := by
  show (d.body.map (substBlock pat rep)).filterMap blockPara = _
  rw [List.filterMap_map]
  unfold Doc.paragraphs
  rw [List.map_filterMap]
  apply List.filterMap_congr
  intro b _
  cases b with
  | para p => simp [blockPara, substBlock, Function.comp]
  | table t => simp [blockPara, substBlock, Function.comp]

theorem replace_text_fst_tables (d : Doc) (pat rep : Txt) :
    ((replace_text d pat rep).1).tables = d.tables.map (substTable pat rep) := by
  show (d.body.map (substBlock pat rep)).filterMap blockTable = _
  rw [List.filterMap_map]
  unfold Doc.tables
  rw [List.map_filterMap]
  apply List.filterMap_congr
  intro b _
  cases b with
  | para p => simp [blockTable, substBlock, Function.comp]
  | table t => simp [blockTable, substBlock, Function.comp]

theorem replace_text_fst_bodyTexts (d : Doc) (pat rep : Txt) :
    ((replace_text d pat rep).1).bodyTexts = d.bodyTexts.map (substTxt pat rep) := by
  unfold Doc.bodyTexts
  rw [replace_text_fst_paragraphs, List.map_map, List.map_map]
  congr 1
  funext p
  exact substPara_text pat rep p

theorem cellParaTexts_subst (pat rep : Txt) (t : Table) :
    (substTable pat rep t).cellParaTexts = t.cellParaTexts.map (substTxt pat rep) := by
  obtain ⟨rows⟩ := t
  show (Table.mk (rows.map fun r => ⟨r.cells.map (substCell pat rep)⟩)).cellParaTexts = _
  unfold Table.cellParaTexts
  rw [List.flatMap_map, List.map_flatMap]
  congr 1
  funext r
  show (r.cells.map (substCell pat rep)).flatMap (fun c => c.paragraphs.map Para.text) = _
  rw [List.flatMap_map, List.map_flatMap]
  congr 1
  funext c
  show ((substCell pat rep c).paragraphs).map Para.text = _
  show (c.paragraphs.map (substPara pat rep)).map Para.text = _
  rw [List.map_map, List.map_map]
  congr 1
  funext p
  exact substPara_text pat rep p

theorem replace_text_fst_cellTexts (d : Doc) (pat rep : Txt) :
    ((replace_text d pat rep).1).cellTexts = d.cellTexts.map (substTxt pat rep) := by
  unfold Doc.cellTexts
  rw [replace_text_fst_tables, List.flatMap_map, List.map_flatMap]
  congr 1
  funext t
  exact cellParaTexts_subst pat rep t

theorem replace_text_fst_headerTexts (d : Doc) (pat rep : Txt) :
    ((replace_text d pat rep).1).headerTexts = d.headerTexts.map (substTxt pat rep) := by
  show (d.headers.map fun h => h.map (substPara pat rep)).flatMap (fun h => h.map Para.text) = _
  unfold Doc.headerTexts
  rw [List.flatMap_map, List.map_flatMap]
  congr 1
  funext h
  show (h.map (substPara pat rep)).map Para.text = _
  rw [List.map_map, List.map_map]
  congr 1
  funext p
  exact substPara_text pat rep p

theorem replace_text_fst_texts (d : Doc) (pat rep : Txt) :
    ((replace_text d pat rep).1).texts = d.texts.map (substTxt pat rep) := by
  unfold Doc.texts
  rw [replace_text_fst_bodyTexts, replace_text_fst_cellTexts,
    replace_text_fst_headerTexts, List.map_append, List.map_append]

theorem replace_text_fst_headers (d : Doc) (pat rep : Txt) :
    ((replace_text d pat rep).1).headers = d.headers.map fun h => h.map (substPara pat rep) := rfl

-- Membership of texts in the projections. --------------------------------------

theorem text_mem_bodyTexts {d : Doc} {p : Para} (hb : Block.para p ∈ d.body) :
    p.text ∈ d.bodyTexts := by
  unfold Doc.bodyTexts Doc.paragraphs
  exact List.mem_map_of_mem _ (List.mem_filterMap.mpr ⟨Block.para p, hb, rfl⟩)

theorem text_mem_cellTexts {d : Doc} {t : Table} {r : Row} {c : Cell} {p : Para}
    (ht : Block.table t ∈ d.body) (hr : r ∈ t.rows) (hc : c ∈ r.cells)
    (hp : p ∈ c.paragraphs) : p.text ∈ d.cellTexts := by
  unfold Doc.cellTexts Doc.tables
  refine List.mem_flatMap.mpr ⟨t, List.mem_filterMap.mpr ⟨Block.table t, ht, rfl⟩, ?_⟩
  unfold Table.cellParaTexts
  exact List.mem_flatMap.mpr ⟨r, hr, List.mem_flatMap.mpr ⟨c, hc, List.mem_map_of_mem _ hp⟩⟩

theorem text_mem_headerTexts {d : Doc} {h : List Para} {p : Para}
    (hh : h ∈ d.headers) (hp : p ∈ h) : p.text ∈ d.headerTexts := by
  unfold Doc.headerTexts
  exact List.mem_flatMap.mpr ⟨h, hh, List.mem_map_of_mem _ hp⟩

theorem bodyTexts_sub_texts {d : Doc} {s : Txt} (h : s ∈ d.bodyTexts) : s ∈ d.texts := by
  unfold Doc.texts
  exact List.mem_append.mpr (Or.inl (List.mem_append.mpr (Or.inl h)))

theorem cellTexts_sub_texts {d : Doc} {s : Txt} (h : s ∈ d.cellTexts) : s ∈ d.texts := by
  unfold Doc.texts
  exact List.mem_append.mpr (Or.inl (List.mem_append.mpr (Or.inr h)))

theorem headerTexts_sub_texts {d : Doc} {s : Txt} (h : s ∈ d.headerTexts) : s ∈ d.texts := by
  unfold Doc.texts
  exact List.mem_append.mpr (Or.inr h)

theorem substPara_id {pat rep : Txt} {p : Para} (h : hasSub p.text pat = false) :
    substPara pat rep p = p := by
  simp [substPara, h]

/-- When the token occurs nowhere, `replace_text` leaves the document
unchanged (and the source merely logs a warning). -/
theorem replace_text_id {d : Doc} {pat : Txt} (rep : Txt)
    (h : ∀ s ∈ d.texts, hasSub s pat = false) : (replace_text d pat rep).1 = d := by
  have hbody : d.body.map (substBlock pat rep) = d.body := by
    conv_rhs => rw [← List.map_id d.body]
    apply List.map_congr_left
    intro b hb
    cases b with
    | para p =>
      have hp := h p.text (bodyTexts_sub_texts (text_mem_bodyTexts hb))
      simp [substBlock, substPara_id hp]
    | table t =>
      show Block.table (substTable pat rep t) = id (Block.table t)
      simp only [id_eq]
      congr 1
      obtain ⟨rows⟩ := t
      show Table.mk (rows.map fun r => ⟨r.cells.map (substCell pat rep)⟩) = Table.mk rows
      congr 1
      conv_rhs => rw [← List.map_id rows]
      apply List.map_congr_left
      intro r hr
      obtain ⟨cells⟩ := r
      show Row.mk (cells.map (substCell pat rep)) = id (Row.mk cells)
      simp only [id_eq]
      congr 1
      conv_rhs => rw [← List.map_id cells]
      apply List.map_congr_left
      intro c hc
      obtain ⟨paras⟩ := c
      show Cell.mk (paras.map (substPara pat rep)) = id (Cell.mk paras)
      simp only [id_eq]
      congr 1
      conv_rhs => rw [← List.map_id paras]
      apply List.map_congr_left
      intro p hp
      have := h p.text (cellTexts_sub_texts (text_mem_cellTexts hb hr hc hp))
      simp [substPara_id this]
  have hheaders : (d.headers.map fun hh => hh.map (substPara pat rep)) = d.headers := by
    conv_rhs => rw [← List.map_id d.headers]
    apply List.map_congr_left
    intro hh hmem
    show hh.map (substPara pat rep) = id hh
    simp only [id_eq]
    conv_rhs => rw [← List.map_id hh]
    apply List.map_congr_left
    intro p hp
    have := h p.text (headerTexts_sub_texts (text_mem_headerTexts hmem hp))
    simp [substPara_id this]
  show Doc.mk (d.body.map (substBlock pat rep)) (d.headers.map fun hh => hh.map (substPara pat rep)) = d
  rw [hbody, hheaders]

-- Inverse membership characterizations. ---------------------------------------

theorem bodyTexts_mem_iff {d : Doc} {s : Txt} :
    s ∈ d.bodyTexts ↔ ∃ p, Block.para p ∈ d.body ∧ s = p.text := by
  unfold Doc.bodyTexts Doc.paragraphs
  constructor
  · intro h
    obtain ⟨p, hp, rfl⟩ := List.mem_map.mp h
    obtain ⟨b, hb, hbp⟩ := List.mem_filterMap.mp hp
    cases b with
    | para q =>
      simp only [blockPara] at hbp
      injection hbp with hq
      exact ⟨q, hb, by rw [hq]⟩
    | table t => simp [blockPara] at hbp
  · rintro ⟨p, hp, rfl⟩
    exact List.mem_map_of_mem _ (List.mem_filterMap.mpr ⟨Block.para p, hp, rfl⟩)

theorem cellTexts_mem_iff {d : Doc} {s : Txt} :
    s ∈ d.cellTexts ↔
      ∃ t r c p, Block.table t ∈ d.body ∧ r ∈ t.rows ∧ c ∈ r.cells ∧
        p ∈ c.paragraphs ∧ s = p.text := by
  unfold Doc.cellTexts Doc.tables Table.cellParaTexts
  constructor
  · intro h
    obtain ⟨t, ht, hs⟩ := List.mem_flatMap.mp h
    obtain ⟨b, hb, hbt⟩ := List.mem_filterMap.mp ht
    obtain ⟨r, hr, hs2⟩ := List.mem_flatMap.mp hs
    obtain ⟨c, hc, hs3⟩ := List.mem_flatMap.mp hs2
    obtain ⟨p, hp, rfl⟩ := List.mem_map.mp hs3
    cases b with
    | para q => simp [blockTable] at hbt
    | table t2 =>
      simp only [blockTable] at hbt
      injection hbt with ht2
      refine ⟨t2, r, c, p, hb, ?_, hc, hp, rfl⟩
      rw [ht2]
      exact hr
  · rintro ⟨t, r, c, p, ht, hr, hc, hp, rfl⟩
    refine List.mem_flatMap.mpr ⟨t, List.mem_filterMap.mpr ⟨Block.table t, ht, rfl⟩, ?_⟩
    exact List.mem_flatMap.mpr ⟨r, hr, List.mem_flatMap.mpr ⟨c, hc, List.mem_map_of_mem _ hp⟩⟩

theorem headerTexts_mem_iff {d : Doc} {s : Txt} :
    s ∈ d.headerTexts ↔ ∃ h p, h ∈ d.headers ∧ p ∈ h ∧ s = p.text := by
  unfold Doc.headerTexts
  constructor
  · intro h
    obtain ⟨hh, hmem, hs⟩ := List.mem_flatMap.mp h
    obtain ⟨p, hp, rfl⟩ := List.mem_map.mp hs
    exact ⟨hh, p, hmem, hp, rfl⟩
  · rintro ⟨hh, p, hmem, hp, rfl⟩
    exact List.mem_flatMap.mpr ⟨hh, hmem, List.mem_map_of_mem _ hp⟩

theorem texts_mem_cases {d : Doc} {s : Txt} (h : s ∈ d.texts) :
    s ∈ d.bodyTexts ∨ s ∈ d.cellTexts ∨ s ∈ d.headerTexts := by
  unfold Doc.texts at h
  rcases List.mem_append.mp h with h2 | h2
  · rcases List.mem_append.mp h2 with h3 | h3
    · exact Or.inl h3
    · exact Or.inr (Or.inl h3)
  · exact Or.inr (Or.inr h2)

theorem texts_of_zones {d : Doc} {s : Txt}
    (h : s ∈ d.bodyTexts ∨ s ∈ d.cellTexts ∨ s ∈ d.headerTexts) : s ∈ d.texts := by
  rcases h with h | h | h
  · exact bodyTexts_sub_texts h
  · exact cellTexts_sub_texts h
  · exact headerTexts_sub_texts h

-- Shape facts for the placeholder vocabulary. ---------------------------------

theorem any_false {α : Type} {l : List α} {p : α → Bool} (h : l.any p = false)
    {a : α} (ha : a ∈ l) : p a = false := by
  rcases Bool.eq_false_or_eq_true (p a) with h2 | h2
  · have h3 : l.any p = true := List.any_eq_true.mpr ⟨a, ha, h2⟩
    rw [h] at h3
    exact absurd h3 (by simp)
  · exact h2

theorem all_ws_of_infix {x y : Txt} (h : x <:+: y) (hy : y.all isWs = true) :
    x.all isWs = true := by
  rw [List.all_eq_true] at hy ⊢
  intro c hc
  exact hy c (h.sublist.subset hc)

theorem all_ws_whole_of_strip {s : Txt} (h : (pyStrip s).all isWs = true) :
    s.all isWs = true := by
  obtain ⟨a, b, hdec, hwa, hwb⟩ := pyStrip_decomp s
  rw [hdec, List.all_append, List.all_append, hwa, hwb, h]
  rfl

theorem segTok_nws (i : Nat) : noWs (segTok i) = true := by
  unfold segTok
  rw [noWs_append, noWs_append]
  have h1 : noWs (T "\x7b\x7bSegment") = true := by decide
  have h2 : noWs (T "\x7d\x7d") = true := by decide
  rw [h1, natTxt_nws, h2]
  rfl

theorem segTok_ne_nil (i : Nat) : segTok i ≠ [] := by
  unfold segTok
  intro h
  have h2 := congrArg List.length h
  simp only [List.length_append, List.length_nil] at h2
  have h3 : (T "\x7b\x7bSegment").length = 9 := by decide
  rw [h3] at h2
  omega

theorem subTokL_nws (i j : Nat) : noWs (subTokL i j) = true := by
  unfold subTokL
  rw [noWs_append, noWs_append, noWs_append, noWs_append]
  have h1 : noWs (T "\x7b\x7bSegment") = true := by decide
  have h2 : noWs (T "Sub-segment") = true := by decide
  have h3 : noWs (T "\x7d\x7d") = true := by decide
  rw [h1, h2, h3, natTxt_nws, natTxt_nws]
  rfl

theorem subTokL_ne_nil (i j : Nat) : subTokL i j ≠ [] := by
  unfold subTokL
  intro h
  have h2 := congrArg List.length h
  simp only [List.length_append, List.length_nil] at h2
  have h3 : (T "\x7b\x7bSegment").length = 9 := by decide
  rw [h3] at h2
  omega

theorem subTokU_nws (i j : Nat) : noWs (subTokU i j) = true := by
  unfold subTokU
  rw [noWs_append, noWs_append, noWs_append, noWs_append]
  have h1 : noWs (T "\x7b\x7bSegment") = true := by decide
  have h2 : noWs (T "Sub-Segment") = true := by decide
  have h3 : noWs (T "\x7d\x7d") = true := by decide
  rw [h1, h2, h3, natTxt_nws, natTxt_nws]
  rfl

theorem subTokU_ne_nil (i j : Nat) : subTokU i j ≠ [] := by
  unfold subTokU
  intro h
  have h2 := congrArg List.length h
  simp only [List.length_append, List.length_nil] at h2
  have h3 : (T "\x7b\x7bSegment").length = 9 := by decide
  rw [h3] at h2
  omega

theorem seg_placeholder_shape : ∀ ph ∈ segment_placeholders,
    noWs ph = true ∧ ph ≠ [] := by
  intro ph hph
  unfold segment_placeholders at hph
  obtain ⟨i, _, hmem⟩ := List.mem_flatMap.mp hph
  rcases List.mem_append.mp hmem with h2 | h2
  · have : ph = segTok i := by
      rcases List.mem_cons.mp h2 with h3 | h3
      · exact h3
      · rcases List.mem_cons.mp h3 with h4 | h4
        · exact h4
        · simp at h4
    subst this
    exact ⟨segTok_nws i, segTok_ne_nil i⟩
  · obtain ⟨j, _, hmem2⟩ := List.mem_flatMap.mp h2
    rcases List.mem_cons.mp hmem2 with h3 | h3
    · subst h3
      exact ⟨subTokU_nws i j, subTokU_ne_nil i j⟩
    · rcases List.mem_cons.mp h3 with h4 | h4
      · subst h4
        exact ⟨subTokL_nws i j, subTokL_ne_nil i j⟩
      · simp at h4

-- Kept paragraphs and rows of `clean_empty_segments` carry no placeholder. ----

theorem body_kept_no_ph {s : Txt} (h : cesRemoveTxt s = false) :
    ∀ ph ∈ segment_placeholders, hasSub s ph = false := by
  intro ph hph
  obtain ⟨hnws, hne⟩ := seg_placeholder_shape ph hph
  unfold cesRemoveTxt at h
  rw [Bool.and_eq_false_iff] at h
  rcases h with hA | hB
  · have hempty : pyStrip s = [] := by
      rcases hsplit : pyStrip s with _ | ⟨c, t⟩
      · rfl
      · rw [hsplit] at hA
        simp at hA
    have hallws : s.all isWs = true := by
      have := pyStrip_all_ws hempty
      exact this
    exact hasSub_of_all_ws hallws hnws hne
  · rcases Bool.eq_false_or_eq_true (hasSub s ph) with htrue | hfalse
    · have hstrip : hasSub (pyStrip s) ph = true := hasSub_pyStrip hnws hne htrue
      have := any_false hB hph
      rw [this] at hstrip
      exact absurd hstrip (by simp)
    · exact hfalse

theorem row_kept_no_ph {r : Row} (hrow : cesRemoveRow r = false) {c : Cell}
    (hc : c ∈ r.cells) {p : Para} (hp : p ∈ c.paragraphs) :
    ∀ ph ∈ segment_placeholders, hasSub p.text ph = false := by
  intro ph hph
  obtain ⟨hnws, hne⟩ := seg_placeholder_shape ph hph
  unfold cesRemoveRow at hrow
  rw [Bool.and_eq_false_iff] at hrow
  rcases hrow with hA | hB
  · have hempty : pyStrip (rowJoined r) = [] := by
      rcases hsplit : pyStrip (rowJoined r) with _ | ⟨c2, t2⟩
      · rfl
      · rw [hsplit] at hA
        simp at hA
    have hallws : (rowJoined r).all isWs = true := pyStrip_all_ws hempty
    have h1 : pyStrip c.textRaw <:+: rowJoined r :=
      mem_pyJoin_infix (List.mem_map_of_mem _ hc)
    have h2 : (pyStrip c.textRaw).all isWs = true := all_ws_of_infix h1 hallws
    have h3 : c.textRaw.all isWs = true := all_ws_whole_of_strip h2
    have h4 : p.text <:+: c.textRaw := mem_pyJoin_infix (List.mem_map_of_mem _ hp)
    have h5 : p.text.all isWs = true := all_ws_of_infix h4 h3
    exact hasSub_of_all_ws h5 hnws hne
  · have hcell := any_false hB hc
    have hcellph := any_false hcell hph
    rcases Bool.eq_false_or_eq_true (hasSub p.text ph) with htrue | hfalse
    · have hsne : (pyStrip p.text).isEmpty = false := by
        rcases hsplit : pyStrip p.text with _ | ⟨c2, t2⟩
        · have hallws : p.text.all isWs = true := pyStrip_all_ws hsplit
          have h6 := hasSub_of_all_ws hallws hnws hne
          rw [htrue] at h6
          exact absurd h6 (by simp)
        · rfl
      have hstrip : hasSub (pyStrip p.text) ph = true := hasSub_pyStrip hnws hne htrue
      have hmemparts : pyStrip p.text ∈ c.paragraphs.filterMap fun p2 =>
          if (pyStrip p2.text).isEmpty then none else some (pyStrip p2.text) := by
        refine List.mem_filterMap.mpr ⟨p, hp, ?_⟩
        rw [if_neg (by rw [hsne]; exact Bool.false_ne_true)]
      have hinfix : pyStrip p.text <:+: cellJoined c := mem_pyJoin_infix hmemparts
      have h7 := hasSub_congr_infix hinfix hstrip
      rw [hcellph] at h7
      exact absurd h7 (by simp)
    · exact hfalse

-- Projections of `clean_empty_segments`. ---------------------------------------

theorem clean_empty_headers (d : Doc) (segs : List Seg) :
    (clean_empty_segments d segs).headers = d.headers := rfl

theorem cesBlock_para_removed {p : Para} (h : cesRemoveTxt p.text = true) :
    cesBlock (.para p) = none := by
  simp [cesBlock, h]

theorem cesBlock_para_kept {p : Para} (h : cesRemoveTxt p.text = false) :
    cesBlock (.para p) = some (.para p) := by
  simp [cesBlock, h]

theorem clean_empty_bodyTexts (d : Doc) (segs : List Seg) :
    (clean_empty_segments d segs).bodyTexts
      = d.bodyTexts.filter fun s => !cesRemoveTxt s := by
  show ((d.body.filterMap cesBlock).filterMap blockPara).map Para.text = _
  unfold Doc.bodyTexts Doc.paragraphs
  rw [List.filter_map]
  induction d.body with
  | nil => rfl
  | cons b bs ih =>
    cases b with
    | para p =>
      by_cases h : cesRemoveTxt p.text = true
      · rw [List.filterMap_cons_none (cesBlock_para_removed h)]
        rw [List.filterMap_cons_some (show blockPara (Block.para p) = some p from rfl)]
        rw [List.filter_cons_of_neg (by simp [Function.comp, h])]
        exact ih
      · have h2 : cesRemoveTxt p.text = false := by
          rcases Bool.eq_false_or_eq_true (cesRemoveTxt p.text) with h3 | h3
          · exact absurd h3 h
          · exact h3
        rw [List.filterMap_cons_some (cesBlock_para_kept h2)]
        rw [List.filterMap_cons_some (show blockPara (Block.para p) = some p from rfl)]
        rw [List.filterMap_cons_some (show blockPara (Block.para p) = some p from rfl)]
        rw [List.filter_cons_of_pos (by simp [Function.comp, h2])]
        rw [List.map_cons, List.map_cons, ih]
    | table t =>
      rw [List.filterMap_cons_some (show cesBlock (Block.table t)
        = some (Block.table ⟨t.rows.filter fun r => !(cesRemoveRow r)⟩) from rfl)]
      rw [List.filterMap_cons_none (show blockPara (Block.table
        ⟨t.rows.filter fun r => !(cesRemoveRow r)⟩) = none from rfl)]
      rw [List.filterMap_cons_none (show blockPara (Block.table t) = none from rfl)]
      exact ih

theorem clean_empty_cellTexts_mem {d : Doc} {segs : List Seg} {s : Txt}
    (h : s ∈ (clean_empty_segments d segs).cellTexts) :
    s ∈ d.cellTexts ∧ ∀ ph ∈ segment_placeholders, hasSub s ph = false := by
  obtain ⟨t, r, c, p, ht, hr, hc, hp, rfl⟩ := cellTexts_mem_iff.mp h
  obtain ⟨b, hb, hbf⟩ := List.mem_filterMap.mp ht
  cases b with
  | para q =>
    by_cases hq : cesRemoveTxt q.text = true
    · rw [cesBlock_para_removed hq] at hbf
      exact absurd hbf (by simp)
    · have hq2 : cesRemoveTxt q.text = false := by
        rcases Bool.eq_false_or_eq_true (cesRemoveTxt q.text) with h3 | h3
        · exact absurd h3 hq
        · exact h3
      rw [cesBlock_para_kept hq2] at hbf
      exact absurd hbf (by simp)
  | table t0 =>
    have hbf2 : (Block.table ⟨t0.rows.filter fun r => !(cesRemoveRow r)⟩ : Block) = Block.table t := by
      have : cesBlock (.table t0) = some (.table ⟨t0.rows.filter fun r => !(cesRemoveRow r)⟩) := rfl
      rw [this] at hbf
      injection hbf
    injection hbf2 with hteq
    subst hteq
    obtain ⟨hr0, hkept⟩ := List.mem_filter.mp hr
    have hkept2 : cesRemoveRow r = false := by simpa using hkept
    refine ⟨cellTexts_mem_iff.mpr ⟨t0, r, c, p, hb, hr0, hc, hp, rfl⟩, ?_⟩
    exact row_kept_no_ph hkept2 hc hp

-- Projections of `clean_all_segment_markers`. ---------------------------------

theorem camCellPara_text (smark emark : Txt) (p : Para) :
    (camCellPara smark emark p).text = camTxt smark emark p.text := by
  unfold camCellPara camTxt substTxt
  by_cases h1 : hasSub p.text smark = true
  · simp only [if_pos h1, Para.text_single]
    by_cases h2 : hasSub (replaceAll p.text smark []) emark = true
    · simp only [if_pos h2, Para.text_single]
    · simp only [if_neg h2, Para.text_single]
  · simp only [if_neg h1]
    by_cases h2 : hasSub p.text emark = true
    · simp only [if_pos h2, Para.text_single]
    · simp only [if_neg h2]

theorem camStep_headers (d : Doc) (n : Nat) : (camStep d n).headers = d.headers := rfl

theorem camDropPara_para_removed {smark emark : Txt} {p : Para}
    (h : (hasSub p.text smark || hasSub p.text emark) = true) :
    camDropPara smark emark (.para p) = none := by
  simp [camDropPara, h]

theorem camDropPara_para_kept {smark emark : Txt} {p : Para}
    (h : (hasSub p.text smark || hasSub p.text emark) = false) :
    camDropPara smark emark (.para p) = some (.para p) := by
  simp [camDropPara, h]

theorem camStep_bodyTexts (d : Doc) (n : Nat) :
    (camStep d n).bodyTexts
      = d.bodyTexts.filter fun s => !(hasSub s (startTok n) || hasSub s (endTok n)) := by
  unfold camStep Doc.bodyTexts Doc.paragraphs
  rw [List.filterMap_map]
  have hcomp : ∀ b ∈ d.body.filterMap (camDropPara (startTok n) (endTok n)),
      (blockPara ∘ camStripTables (startTok n) (endTok n)) b = blockPara b := by
    intro b _
    cases b <;> rfl
  rw [List.filterMap_congr hcomp]
  rw [List.filter_map]
  induction d.body with
  | nil => rfl
  | cons b bs ih =>
    cases b with
    | para p =>
      by_cases h : (hasSub p.text (startTok n) || hasSub p.text (endTok n)) = true
      · rw [List.filterMap_cons_none (camDropPara_para_removed h)]
        rw [List.filterMap_cons_some (show blockPara (Block.para p) = some p from rfl)]
        rw [List.filter_cons_of_neg (by simp [Function.comp, h])]
        exact ih
      · have h2 : (hasSub p.text (startTok n) || hasSub p.text (endTok n)) = false := by
          rcases Bool.eq_false_or_eq_true (hasSub p.text (startTok n) || hasSub p.text (endTok n)) with h3 | h3
          · exact absurd h3 h
          · exact h3
        rw [List.filterMap_cons_some (camDropPara_para_kept h2)]
        rw [List.filterMap_cons_some (show blockPara (Block.para p) = some p from rfl)]
        rw [List.filterMap_cons_some (show blockPara (Block.para p) = some p from rfl)]
        rw [List.filter_cons_of_pos (by simp [Function.comp, h2])]
        rw [List.map_cons, List.map_cons, ih]
    | table t =>
      rw [List.filterMap_cons_some (show camDropPara (startTok n) (endTok n) (Block.table t)
        = some (Block.table t) from rfl)]
      rw [List.filterMap_cons_none (show blockPara (Block.table t) = none from rfl)]
      rw [List.filterMap_cons_none (show blockPara (Block.table t) = none from rfl)]
      exact ih

theorem camTable_cellParaTexts (smark emark : Txt) (t : Table) :
    (camTable smark emark t).cellParaTexts
      = t.cellParaTexts.map (camTxt smark emark) := by
  obtain ⟨rows⟩ := t
  unfold camTable Table.cellParaTexts
  rw [List.flatMap_map, List.map_flatMap]
  congr 1
  funext r
  show ((r.cells.map fun c => (⟨c.paragraphs.map (camCellPara smark emark)⟩ : Cell)).flatMap
      fun c => c.paragraphs.map Para.text)
    = ((r.cells.flatMap fun c => c.paragraphs.map Para.text).map (camTxt smark emark))
  rw [List.flatMap_map, List.map_flatMap]
  congr 1
  funext c
  show ((⟨c.paragraphs.map (camCellPara smark emark)⟩ : Cell).paragraphs).map Para.text
    = (c.paragraphs.map Para.text).map (camTxt smark emark)
  show (c.paragraphs.map (camCellPara smark emark)).map Para.text
    = (c.paragraphs.map Para.text).map (camTxt smark emark)
  rw [List.map_map, List.map_map]
  congr 1
  funext p
  exact camCellPara_text smark emark p

theorem camStep_tables (d : Doc) (n : Nat) :
    (camStep d n).tables = d.tables.map (camTable (startTok n) (endTok n)) := by
  unfold camStep Doc.tables
  rw [List.filterMap_map]
  have hcomp : ∀ b ∈ d.body.filterMap (camDropPara (startTok n) (endTok n)),
      (blockTable ∘ camStripTables (startTok n) (endTok n)) b
        = (blockTable b).map (camTable (startTok n) (endTok n)) := by
    intro b _
    cases b <;> rfl
  rw [List.filterMap_congr hcomp]
  rw [← List.map_filterMap]
  congr 1
  induction d.body with
  | nil => rfl
  | cons b bs ih =>
    cases b with
    | para p =>
      by_cases h : (hasSub p.text (startTok n) || hasSub p.text (endTok n)) = true
      · rw [List.filterMap_cons_none (camDropPara_para_removed h)]
        rw [List.filterMap_cons_none (show blockTable (Block.para p) = none from rfl)]
        exact ih
      · have h2 : (hasSub p.text (startTok n) || hasSub p.text (endTok n)) = false := by
          rcases Bool.eq_false_or_eq_true (hasSub p.text (startTok n) || hasSub p.text (endTok n)) with h3 | h3
          · exact absurd h3 h
          · exact h3
        rw [List.filterMap_cons_some (camDropPara_para_kept h2)]
        rw [List.filterMap_cons_none (show blockTable (Block.para p) = none from rfl)]
        rw [List.filterMap_cons_none (show blockTable (Block.para p) = none from rfl)]
        exact ih
    | table t =>
      rw [List.filterMap_cons_some (show camDropPara (startTok n) (endTok n) (Block.table t)
        = some (Block.table t) from rfl)]
      rw [List.filterMap_cons_some (show blockTable (Block.table t) = some t from rfl)]
      rw [List.filterMap_cons_some (show blockTable (Block.table t) = some t from rfl)]
      rw [ih]

theorem camStep_cellTexts (d : Doc) (n : Nat) :
    (camStep d n).cellTexts
      = d.cellTexts.map (camTxt (startTok n) (endTok n)) := by
  unfold Doc.cellTexts
  rw [camStep_tables, List.flatMap_map, List.map_flatMap]
  congr 1
  funext t
  exact camTable_cellParaTexts (startTok n) (endTok n) t

theorem camStep_headerTexts (d : Doc) (n : Nat) :
    (camStep d n).headerTexts = d.headerTexts := rfl

-- Subset facts for `remove_unused_sections`. ----------------------------------

theorem removeRange_sub {body : List Block} {s e : Nat} :
    ∀ b ∈ removeRange body s e, b ∈ body := by
  intro b hb
  rcases List.mem_append.mp hb with h | h
  · exact List.take_subset _ _ h
  · exact List.drop_subset _ _ h

theorem removeZones_sub {body : List Block} {zones : List (Nat × Nat)} :
    ∀ b ∈ removeZones body zones, b ∈ body := by
  unfold removeZones
  generalize zones.insertionSort zoneDescRel = zs
  induction zs generalizing body with
  | nil => exact fun b hb => hb
  | cons z rest ih =>
    intro b hb
    exact removeRange_sub _ (@ih (removeRange body z.1 z.2) b hb)

theorem remove_unused_foldl_headers (segs : List Seg) :
    ∀ (l : List Nat) (d : Doc),
      ((l.foldl (fun d0 n =>
        if n ∈ presentSegments segs then d0
        else ⟨removeZones d0.body (findZones d0.body (startTok n) (endTok n)), d0.headers⟩) d)).headers
      = d.headers := by
  intro l
  induction l with
  | nil => intro d; rfl
  | cons n rest ih =>
    intro d
    rw [List.foldl_cons]
    by_cases h : n ∈ presentSegments segs
    · rw [if_pos h]
      exact ih d
    · rw [if_neg h]
      exact ih _

theorem remove_unused_foldl_body_sub (segs : List Seg) :
    ∀ (l : List Nat) (d : Doc) (b : Block),
      b ∈ ((l.foldl (fun d0 n =>
        if n ∈ presentSegments segs then d0
        else ⟨removeZones d0.body (findZones d0.body (startTok n) (endTok n)), d0.headers⟩) d)).body →
      b ∈ d.body := by
  intro l
  induction l with
  | nil => exact fun d b hb => hb
  | cons n rest ih =>
    intro d b hb
    rw [List.foldl_cons] at hb
    by_cases h : n ∈ presentSegments segs
    · rw [if_pos h] at hb
      exact ih d b hb
    · rw [if_neg h] at hb
      exact removeZones_sub _ (ih _ b hb)

theorem remove_unused_headers (d : Doc) (segs : List Seg) :
    (remove_unused_sections d segs).headers = d.headers :=
  remove_unused_foldl_headers segs _ d

theorem remove_unused_body_sub {d : Doc} {segs : List Seg} :
    ∀ b ∈ (remove_unused_sections d segs).body, b ∈ d.body :=
  fun b hb => remove_unused_foldl_body_sub segs _ d b hb

theorem segBare_bf (i : Nat) : braceFree (T "Segment" ++ natTxt i) = true := by
  rw [braceFree_append]
  have h : braceFree (T "Segment") = true := by decide
  rw [h, natTxt_bf]
  rfl

theorem subBareL_bf (i j : Nat) :
    braceFree (T "Segment" ++ natTxt i ++ T "Sub-segment" ++ natTxt j) = true := by
  rw [braceFree_append, braceFree_append, braceFree_append]
  have h1 : braceFree (T "Segment") = true := by decide
  have h2 : braceFree (T "Sub-segment") = true := by decide
  rw [h1, h2, natTxt_bf, natTxt_bf]
  rfl

theorem companyBare_bf (i : Nat) : braceFree (T "Company" ++ natTxt i) = true := by
  rw [braceFree_append]
  have h : braceFree (T "Company") = true := by decide
  rw [h, natTxt_bf]
  rfl

theorem startBare_bf (n : Nat) :
    braceFree (T "Segment" ++ natTxt n ++ T "_Start") = true := by
  rw [braceFree_append, braceFree_append]
  have h1 : braceFree (T "Segment") = true := by decide
  have h2 : braceFree (T "_Start") = true := by decide
  rw [h1, h2, natTxt_bf]
  rfl

theorem endBare_bf (n : Nat) :
    braceFree (T "Segment" ++ natTxt n ++ T "_End") = true := by
  rw [braceFree_append, braceFree_append]
  have h1 : braceFree (T "Segment") = true := by decide
  have h2 : braceFree (T "_End") = true := by decide
  rw [h1, h2, natTxt_bf]
  rfl

-- Preservation and elimination through `replace_text` chains. ------------------

theorem TextsWf_replace {d : Doc} {x rep : Txt} (hd : TextsWf d)
    (hx : braceFree x = true) (hrep : braceFree rep = true) :
    TextsWf ((replace_text d (tokTxt x) rep).1) := by
  intro s hs
  rw [replace_text_fst_texts] at hs
  obtain ⟨s0, hs0, rfl⟩ := List.mem_map.mp hs
  exact WfTxt_substTxt (hd s0 hs0) hx hrep

theorem NoTok_replace_self {d : Doc} {x rep : Txt} (hd : TextsWf d)
    (hx : braceFree x = true) (hrep : braceFree rep = true) :
    NoTok ((replace_text d (tokTxt x) rep).1) (tokTxt x) := by
  intro s hs
  rw [replace_text_fst_texts] at hs
  obtain ⟨s0, hs0, rfl⟩ := List.mem_map.mp hs
  exact hasSub_substTxt_self (hd s0 hs0) hx hrep

theorem NoTok_replace_mono {d : Doc} {x z rep : Txt} (hd : TextsWf d)
    (hx : braceFree x = true) (hz : braceFree z = true) (hrep : braceFree rep = true)
    (hgone : NoTok d (tokTxt z)) :
    NoTok ((replace_text d (tokTxt x) rep).1) (tokTxt z) := by
  intro s hs
  rw [replace_text_fst_texts] at hs
  obtain ⟨s0, hs0, rfl⟩ := List.mem_map.mp hs
  exact hasSub_substTxt_mono (hd s0 hs0) hx hz hrep (hgone s0 hs0)

theorem replaceJobs_wf : ∀ (jobs : List (Txt × Txt)) (d : Doc), TextsWf d →
    (∀ j ∈ jobs, braceFree j.1 = true ∧ braceFree j.2 = true) →
    TextsWf (replaceJobs d jobs) := by
  intro jobs
  induction jobs with
  | nil => exact fun d hd _ => hd
  | cons j rest ih =>
    intro d hd hj
    have hjh := hj j (List.mem_cons_self _ _)
    exact ih _ (TextsWf_replace hd hjh.1 hjh.2)
      (fun j2 h2 => hj j2 (List.mem_cons_of_mem _ h2))

theorem replaceJobs_mono : ∀ (jobs : List (Txt × Txt)) (d : Doc), TextsWf d →
    (∀ j ∈ jobs, braceFree j.1 = true ∧ braceFree j.2 = true) →
    ∀ {z : Txt}, braceFree z = true → NoTok d (tokTxt z) →
    NoTok (replaceJobs d jobs) (tokTxt z) := by
  intro jobs
  induction jobs with
  | nil => exact fun d _ _ _ _ h => h
  | cons j rest ih =>
    intro d hd hj z hz hgone
    have hjh := hj j (List.mem_cons_self _ _)
    exact ih _ (TextsWf_replace hd hjh.1 hjh.2)
      (fun j2 h2 => hj j2 (List.mem_cons_of_mem _ h2)) hz
      (NoTok_replace_mono hd hjh.1 hz hjh.2 hgone)

theorem replaceJobs_gone : ∀ (jobs : List (Txt × Txt)) (d : Doc), TextsWf d →
    (∀ j ∈ jobs, braceFree j.1 = true ∧ braceFree j.2 = true) →
    ∀ {x rep : Txt}, (x, rep) ∈ jobs →
    NoTok (replaceJobs d jobs) (tokTxt x) := by
  intro jobs
  induction jobs with
  | nil =>
    intro d _ _ x rep hmem
    simp at hmem
  | cons j rest ih =>
    intro d hd hj x rep hmem
    have hjh := hj j (List.mem_cons_self _ _)
    have hd2 : TextsWf ((replace_text d (tokTxt j.1) j.2).1) :=
      TextsWf_replace hd hjh.1 hjh.2
    have hrest : ∀ j2 ∈ rest, braceFree j2.1 = true ∧ braceFree j2.2 = true :=
      fun j2 h2 => hj j2 (List.mem_cons_of_mem _ h2)
    rcases List.mem_cons.mp hmem with heq | hmem2
    · have hx : x = j.1 := by rw [← heq]
      subst hx
      exact replaceJobs_mono rest _ hd2 hrest hjh.1
        (NoTok_replace_self hd hjh.1 hjh.2)
    · exact ih _ hd2 hrest hmem2

theorem replaceJobs_cons (d : Doc) (j : Txt × Txt) (jobs : List (Txt × Txt)) :
    replaceJobs d (j :: jobs) = replaceJobs ((replace_text d (tokTxt j.1) j.2).1) jobs := rfl

theorem replaceJobs_append (d : Doc) (j1 j2 : List (Txt × Txt)) :
    replaceJobs d (j1 ++ j2) = replaceJobs (replaceJobs d j1) j2 := by
  unfold replaceJobs
  rw [List.foldl_append]

theorem replace_region_eq (d : Doc) (r : Txt) :
    replace_region d r = replaceJobs d [(T "region", r)] := by
  unfold replace_region replaceJobs
  rw [regionTok_eq]
  rfl

theorem replace_country_eq (d : Doc) (c : Txt) :
    replace_country d c = replaceJobs d [(T "country", c)] := by
  unfold replace_country replaceJobs
  rw [countryTok_eq]
  rfl

theorem replace_market_eq (d : Doc) (m : Txt) :
    (replace_text d marketTok m).1 = replaceJobs d [(T "market_name", m)] := by
  unfold replaceJobs
  rw [marketTok_eq]
  rfl

theorem subFold_eq (i : Nat) : ∀ (l : List (Nat × Txt)) (d : Doc),
    l.foldl (fun d2 js => (replace_text d2 (subTokL (i + 1) (js.1 + 1)) js.2).1) d
      = replaceJobs d (l.map fun js =>
          (T "Segment" ++ natTxt (i + 1) ++ T "Sub-segment" ++ natTxt (js.1 + 1), js.2)) := by
  intro l
  induction l with
  | nil => intro d; rfl
  | cons js rest ih =>
    intro d
    rw [List.foldl_cons, List.map_cons, replaceJobs_cons]
    rw [← subTokL_eq]
    exact ih _

theorem replace_segments_eq (d : Doc) (segs : List Seg) :
    replace_segments d segs = replaceJobs d (segJobs segs) := by
  unfold replace_segments segJobs
  generalize segs.enum = l
  induction l generalizing d with
  | nil => rfl
  | cons is rest ih =>
    rw [List.foldl_cons, List.flatMap_cons, List.cons_append, replaceJobs_cons,
      replaceJobs_append]
    rw [subFold_eq]
    rw [← segTok_eq]
    exact ih _

theorem replace_companies_eq (d : Doc) (companies : List Txt) :
    replace_companies d companies = replaceJobs d (companyJobs companies) := by
  unfold replace_companies companyJobs
  generalize (companies.take 10).enum = l
  induction l generalizing d with
  | nil => rfl
  | cons ic rest ih =>
    rw [List.foldl_cons, List.map_cons, replaceJobs_cons]
    rw [companyTok_eq]
    exact ih _

-- Enumeration membership helpers. ---------------------------------------------

theorem enumFrom_snd_mem {α : Type} :
    ∀ (l : List α) (n : Nat) (p : Nat × α), p ∈ l.enumFrom n → p.2 ∈ l := by
  intro l
  induction l with
  | nil =>
    intro n p h
    simp [List.enumFrom] at h
  | cons a t ih =>
    intro n p h
    rcases List.mem_cons.mp h with h2 | h2
    · subst h2
      exact List.mem_cons_self _ _
    · exact List.mem_cons_of_mem _ (ih (n + 1) p h2)

theorem enum_snd_mem {α : Type} {l : List α} {p : Nat × α} (h : p ∈ l.enum) :
    p.2 ∈ l := enumFrom_snd_mem l 0 p h

theorem enumFrom_get_mem {α : Type} :
    ∀ (l : List α) (n k : Nat) (h : k < l.length),
      (n + k, l.get ⟨k, h⟩) ∈ l.enumFrom n := by
  intro l
  induction l with
  | nil =>
    intro n k h
    simp at h
  | cons a t ih =>
    intro n k h
    cases k with
    | zero =>
      simp [List.enumFrom]
    | succ k2 =>
      have h2 : k2 < t.length := by
        simp only [List.length_cons] at h
        omega
      have h3 := ih (n + 1) k2 h2
      have h4 : n + 1 + k2 = n + (k2 + 1) := by omega
      rw [h4] at h3
      exact List.mem_cons_of_mem _ h3

theorem enum_get_mem {α : Type} (l : List α) (k : Nat) (h : k < l.length) :
    (k, l.get ⟨k, h⟩) ∈ l.enum := by
  have := enumFrom_get_mem l 0 k h
  simpa using this

theorem segJobs_bf {segs : List Seg}
    (hnames : ∀ sg ∈ segs, braceFree sg.name = true ∧
      ∀ sb ∈ sg.subSegments, braceFree sb = true) :
    ∀ j ∈ segJobs segs, braceFree j.1 = true ∧ braceFree j.2 = true := by
  intro j hj
  unfold segJobs at hj
  obtain ⟨is, his, hmem⟩ := List.mem_flatMap.mp hj
  have hsg := enum_snd_mem his
  rcases List.mem_cons.mp hmem with h2 | h2
  · subst h2
    exact ⟨segBare_bf _, (hnames is.2 hsg).1⟩
  · obtain ⟨js, hjs, rfl⟩ := List.mem_map.mp h2
    exact ⟨subBareL_bf _ _, (hnames is.2 hsg).2 js.2 (enum_snd_mem hjs)⟩

theorem companyJobs_bf {companies : List Txt}
    (hbf : ∀ c ∈ companies, braceFree c = true) :
    ∀ j ∈ companyJobs companies, braceFree j.1 = true ∧ braceFree j.2 = true := by
  intro j hj
  unfold companyJobs at hj
  obtain ⟨ic, hic, rfl⟩ := List.mem_map.mp hj
  exact ⟨companyBare_bf _, hbf ic.2 (List.take_subset _ _ (enum_snd_mem hic))⟩

theorem segJobs_mem_name {segs : List Seg} {k : Nat} (hk : k < segs.length) :
    (T "Segment" ++ natTxt (k + 1), (segs.get ⟨k, hk⟩).name) ∈ segJobs segs := by
  unfold segJobs
  exact List.mem_flatMap.mpr ⟨(k, segs.get ⟨k, hk⟩), enum_get_mem segs k hk,
    List.mem_cons_self _ _⟩

theorem segJobs_mem_sub {segs : List Seg} {k j : Nat} (hk : k < segs.length)
    (hj : j < (segs.get ⟨k, hk⟩).subSegments.length) :
    (T "Segment" ++ natTxt (k + 1) ++ T "Sub-segment" ++ natTxt (j + 1),
      (segs.get ⟨k, hk⟩).subSegments.get ⟨j, hj⟩) ∈ segJobs segs := by
  unfold segJobs
  refine List.mem_flatMap.mpr ⟨(k, segs.get ⟨k, hk⟩), enum_get_mem segs k hk, ?_⟩
  refine List.mem_cons_of_mem _ (List.mem_map.mpr ?_)
  exact ⟨(j, (segs.get ⟨k, hk⟩).subSegments.get ⟨j, hj⟩),
    enum_get_mem _ j hj, rfl⟩

theorem companyJobs_mem {companies : List Txt} {k : Nat}
    (hk : k < (companies.take 10).length) :
    (T "Company" ++ natTxt (k + 1), (companies.take 10).get ⟨k, hk⟩)
      ∈ companyJobs companies := by
  unfold companyJobs
  exact List.mem_map.mpr ⟨(k, (companies.take 10).get ⟨k, hk⟩),
    enum_get_mem _ k hk, rfl⟩

-- Preservation through the pruning passes. -------------------------------------

theorem clean_empty_headerTexts (d : Doc) (segs : List Seg) :
    (clean_empty_segments d segs).headerTexts = d.headerTexts := rfl

theorem clean_empty_texts_sub {d : Doc} {segs : List Seg} :
    ∀ s ∈ (clean_empty_segments d segs).texts, s ∈ d.texts := by
  intro s hs
  rcases texts_mem_cases hs with h | h | h
  · rw [clean_empty_bodyTexts] at h
    exact bodyTexts_sub_texts (List.mem_of_mem_filter h)
  · exact cellTexts_sub_texts (clean_empty_cellTexts_mem h).1
  · rw [clean_empty_headerTexts] at h
    exact headerTexts_sub_texts h

theorem TextsWf_clean_empty {d : Doc} {segs : List Seg} (hd : TextsWf d) :
    TextsWf (clean_empty_segments d segs) :=
  fun s hs => hd s (clean_empty_texts_sub s hs)

theorem NoTok_clean_empty_mono {d : Doc} {segs : List Seg} {t : Txt}
    (hgone : NoTok d t) : NoTok (clean_empty_segments d segs) t :=
  fun s hs => hgone s (clean_empty_texts_sub s hs)

/-- After `clean_empty_segments`, no segment placeholder of the generated
list remains in the body or in table cells; headers are untouched, so their
absence must hold beforehand. -/
theorem clean_empty_gone {d : Doc} {segs : List Seg}
    (hhdr : ∀ s ∈ d.headerTexts, ∀ ph ∈ segment_placeholders, hasSub s ph = false) :
    ∀ ph ∈ segment_placeholders, NoTok (clean_empty_segments d segs) ph := by
  intro ph hph s hs
  rcases texts_mem_cases hs with h | h | h
  · rw [clean_empty_bodyTexts] at h
    obtain ⟨_, hcond⟩ := List.mem_filter.mp h
    have h2 : cesRemoveTxt s = false := by simpa using hcond
    exact body_kept_no_ph h2 ph hph
  · exact (clean_empty_cellTexts_mem h).2 ph hph
  · rw [clean_empty_headerTexts] at h
    exact hhdr s h ph hph

theorem remove_unused_texts_sub {d : Doc} {segs : List Seg} :
    ∀ s ∈ (remove_unused_sections d segs).texts, s ∈ d.texts := by
  intro s hs
  rcases texts_mem_cases hs with h | h | h
  · obtain ⟨p, hp, rfl⟩ := bodyTexts_mem_iff.mp h
    exact bodyTexts_sub_texts (bodyTexts_mem_iff.mpr ⟨p, remove_unused_body_sub _ hp, rfl⟩)
  · obtain ⟨t, r, c, p, ht, hr, hc, hp2, rfl⟩ := cellTexts_mem_iff.mp h
    exact cellTexts_sub_texts
      (cellTexts_mem_iff.mpr ⟨t, r, c, p, remove_unused_body_sub _ ht, hr, hc, hp2, rfl⟩)
  · have heq : (remove_unused_sections d segs).headerTexts = d.headerTexts := by
      unfold Doc.headerTexts
      rw [remove_unused_headers]
    rw [heq] at h
    exact headerTexts_sub_texts h

theorem TextsWf_remove_unused {d : Doc} {segs : List Seg} (hd : TextsWf d) :
    TextsWf (remove_unused_sections d segs) :=
  fun s hs => hd s (remove_unused_texts_sub s hs)

theorem NoTok_remove_unused_mono {d : Doc} {segs : List Seg} {t : Txt}
    (hgone : NoTok d t) : NoTok (remove_unused_sections d segs) t :=
  fun s hs => hgone s (remove_unused_texts_sub s hs)

theorem TextsWf_camStep {d : Doc} {n : Nat} (hd : TextsWf d) : TextsWf (camStep d n) := by
  intro s hs
  rcases texts_mem_cases hs with h | h | h
  · rw [camStep_bodyTexts] at h
    exact hd _ (bodyTexts_sub_texts (List.mem_of_mem_filter h))
  · rw [camStep_cellTexts] at h
    obtain ⟨s0, hs0, rfl⟩ := List.mem_map.mp h
    have h1 : WfTxt s0 := hd _ (cellTexts_sub_texts hs0)
    have h2 : WfTxt (substTxt (startTok n) [] s0) := by
      rw [startTok_eq]
      exact WfTxt_substTxt h1 (startBare_bf n) (by decide)
    unfold camTxt
    rw [endTok_eq]
    exact WfTxt_substTxt h2 (endBare_bf n) (by decide)
  · rw [camStep_headerTexts] at h
    exact hd _ (headerTexts_sub_texts h)

theorem NoTok_camStep_mono {d : Doc} {n : Nat} {z : Txt} (hd : TextsWf d)
    (hz : braceFree z = true) (hgone : NoTok d (tokTxt z)) :
    NoTok (camStep d n) (tokTxt z) := by
  intro s hs
  rcases texts_mem_cases hs with h | h | h
  · rw [camStep_bodyTexts] at h
    exact hgone _ (bodyTexts_sub_texts (List.mem_of_mem_filter h))
  · rw [camStep_cellTexts] at h
    obtain ⟨s0, hs0, rfl⟩ := List.mem_map.mp h
    have h1 : WfTxt s0 := hd _ (cellTexts_sub_texts hs0)
    have h1w : WfTxt (substTxt (startTok n) [] s0) := by
      rw [startTok_eq]
      exact WfTxt_substTxt h1 (startBare_bf n) (by decide)
    have h2 : hasSub (substTxt (startTok n) [] s0) (tokTxt z) = false := by
      rw [startTok_eq]
      exact hasSub_substTxt_mono h1 (startBare_bf n) hz (by decide)
        (hgone _ (cellTexts_sub_texts hs0))
    unfold camTxt
    rw [endTok_eq]
    exact hasSub_substTxt_mono h1w (endBare_bf n) hz (by decide) h2
  · rw [camStep_headerTexts] at h
    exact hgone _ (headerTexts_sub_texts h)

theorem startTok_shape (n : Nat) : IsTokShape (startTok n) :=
  ⟨_, startBare_bf n, startTok_eq n⟩

theorem endTok_shape (n : Nat) : IsTokShape (endTok n) :=
  ⟨_, endBare_bf n, endTok_eq n⟩

theorem WfTxt_substTxt_tok {s pat rep : Txt} (hs : WfTxt s) (hp : IsTokShape pat)
    (hrep : braceFree rep = true) : WfTxt (substTxt pat rep s) := by
  obtain ⟨x, hx, rfl⟩ := hp
  exact WfTxt_substTxt hs hx hrep

theorem hasSub_substTxt_self_tok {s pat rep : Txt} (hs : WfTxt s) (hp : IsTokShape pat)
    (hrep : braceFree rep = true) : hasSub (substTxt pat rep s) pat = false := by
  obtain ⟨x, hx, rfl⟩ := hp
  exact hasSub_substTxt_self hs hx hrep

theorem hasSub_substTxt_mono_tok {s pat t rep : Txt} (hs : WfTxt s) (hp : IsTokShape pat)
    (ht : IsTokShape t) (hrep : braceFree rep = true)
    (hgone : hasSub s t = false) : hasSub (substTxt pat rep s) t = false := by
  obtain ⟨x, hx, rfl⟩ := hp
  obtain ⟨z, hz, rfl⟩ := ht
  exact hasSub_substTxt_mono hs hx hz hrep hgone

theorem camStep_marker_gone {d : Doc} {n : Nat} (hd : TextsWf d)
    (hhdr : ∀ s ∈ d.headerTexts,
      hasSub s (startTok n) = false ∧ hasSub s (endTok n) = false) :
    NoTok (camStep d n) (startTok n) ∧ NoTok (camStep d n) (endTok n) := by
  constructor
  · intro s hs
    rcases texts_mem_cases hs with h | h | h
    · rw [camStep_bodyTexts] at h
      obtain ⟨_, hcond⟩ := List.mem_filter.mp h
      have h2 : (hasSub s (startTok n) || hasSub s (endTok n)) = false := by
        simpa using hcond
      exact (Bool.or_eq_false_iff.mp h2).1
    · rw [camStep_cellTexts] at h
      obtain ⟨s0, hs0, rfl⟩ := List.mem_map.mp h
      have h1 : WfTxt s0 := hd _ (cellTexts_sub_texts hs0)
      have h1w : WfTxt (substTxt (startTok n) [] s0) :=
        WfTxt_substTxt_tok h1 (startTok_shape n) (by decide)
      have h2 : hasSub (substTxt (startTok n) [] s0) (startTok n) = false :=
        hasSub_substTxt_self_tok h1 (startTok_shape n) (by decide)
      unfold camTxt
      exact hasSub_substTxt_mono_tok h1w (endTok_shape n) (startTok_shape n) (by decide) h2
    · rw [camStep_headerTexts] at h
      exact (hhdr s h).1
  · intro s hs
    rcases texts_mem_cases hs with h | h | h
    · rw [camStep_bodyTexts] at h
      obtain ⟨_, hcond⟩ := List.mem_filter.mp h
      have h2 : (hasSub s (startTok n) || hasSub s (endTok n)) = false := by
        simpa using hcond
      exact (Bool.or_eq_false_iff.mp h2).2
    · rw [camStep_cellTexts] at h
      obtain ⟨s0, hs0, rfl⟩ := List.mem_map.mp h
      have h1 : WfTxt s0 := hd _ (cellTexts_sub_texts hs0)
      have h1w : WfTxt (substTxt (startTok n) [] s0) :=
        WfTxt_substTxt_tok h1 (startTok_shape n) (by decide)
      unfold camTxt
      exact hasSub_substTxt_self_tok h1w (endTok_shape n) (by decide)
    · rw [camStep_headerTexts] at h
      exact (hhdr s h).2

theorem NoTok_camStep_mono_tok {d : Doc} {n : Nat} {t : Txt} (hd : TextsWf d)
    (ht : IsTokShape t) (hgone : NoTok d t) : NoTok (camStep d n) t := by
  obtain ⟨z, hz, rfl⟩ := ht
  exact NoTok_camStep_mono hd hz hgone

theorem camStep_headerTexts_eq (d : Doc) (n : Nat) :
    (camStep d n).headerTexts = d.headerTexts := rfl

theorem camFold_wf : ∀ (l : List Nat) (d : Doc), TextsWf d →
    TextsWf (l.foldl camStep d) := by
  intro l
  induction l with
  | nil => exact fun d hd => hd
  | cons n rest ih => exact fun d hd => ih _ (TextsWf_camStep hd)

theorem camFold_mono : ∀ (l : List Nat) (d : Doc), TextsWf d →
    ∀ {t : Txt}, IsTokShape t → NoTok d t → NoTok (l.foldl camStep d) t := by
  intro l
  induction l with
  | nil => exact fun d _ _ _ h => h
  | cons n rest ih =>
    intro d hd t ht hgone
    exact ih _ (TextsWf_camStep hd) ht (NoTok_camStep_mono_tok hd ht hgone)

theorem camFold_headerTexts : ∀ (l : List Nat) (d : Doc),
    (l.foldl camStep d).headerTexts = d.headerTexts := by
  intro l
  induction l with
  | nil => exact fun d => rfl
  | cons n rest ih =>
    intro d
    rw [List.foldl_cons, ih]
    exact camStep_headerTexts_eq d n

theorem camFold_marker_gone : ∀ (l : List Nat) (d : Doc), TextsWf d →
    (∀ s ∈ d.headerTexts, ∀ n ∈ l,
      hasSub s (startTok n) = false ∧ hasSub s (endTok n) = false) →
    ∀ n ∈ l, NoTok (l.foldl camStep d) (startTok n)
      ∧ NoTok (l.foldl camStep d) (endTok n) := by
  intro l
  induction l with
  | nil =>
    intro d _ _ n hn
    simp at hn
  | cons m rest ih =>
    intro d hd hhdr n hn
    rw [List.foldl_cons]
    have hd2 : TextsWf (camStep d m) := TextsWf_camStep hd
    have hhdr2 : ∀ s ∈ (camStep d m).headerTexts, ∀ k ∈ rest,
        hasSub s (startTok k) = false ∧ hasSub s (endTok k) = false := by
      intro s hs k hk
      rw [camStep_headerTexts_eq] at hs
      exact hhdr s hs k (List.mem_cons_of_mem _ hk)
    rcases List.mem_cons.mp hn with heq | hmem
    · subst heq
      have hm := camStep_marker_gone hd (fun s hs =>
        hhdr s hs n (List.mem_cons_self _ _))
      exact ⟨camFold_mono rest _ hd2 (startTok_shape n) hm.1,
        camFold_mono rest _ hd2 (endTok_shape n) hm.2⟩
    · exact ih _ hd2 hhdr2 n hmem

theorem marketTok_shape : IsTokShape marketTok := ⟨_, by decide, marketTok_eq⟩

theorem regionTok_shape : IsTokShape regionTok := ⟨_, by decide, regionTok_eq⟩

theorem countryTok_shape : IsTokShape countryTok := ⟨_, by decide, countryTok_eq⟩

theorem segTok_shape (i : Nat) : IsTokShape (segTok i) := ⟨_, segBare_bf i, segTok_eq i⟩

theorem subTokL_shape (i j : Nat) : IsTokShape (subTokL i j) :=
  ⟨_, subBareL_bf i j, subTokL_eq i j⟩

theorem subBareU_bf (i j : Nat) :
    braceFree (T "Segment" ++ natTxt i ++ T "Sub-Segment" ++ natTxt j) = true := by
  rw [braceFree_append, braceFree_append, braceFree_append]
  have h1 : braceFree (T "Segment") = true := by decide
  have h2 : braceFree (T "Sub-Segment") = true := by decide
  rw [h1, h2, natTxt_bf, natTxt_bf]
  rfl

theorem subTokU_shape (i j : Nat) : IsTokShape (subTokU i j) :=
  ⟨_, subBareU_bf i j, subTokU_eq i j⟩

theorem companyTok_shape (n : Nat) : IsTokShape (companyTok n) :=
  ⟨_, companyBare_bf n, companyTok_eq n⟩

theorem placeholder_shape : ∀ ph ∈ segment_placeholders, IsTokShape ph := by
  intro ph hph
  unfold segment_placeholders at hph
  obtain ⟨i, _, hmem⟩ := List.mem_flatMap.mp hph
  rcases List.mem_append.mp hmem with h2 | h2
  · have : ph = segTok i := by
      rcases List.mem_cons.mp h2 with h3 | h3
      · exact h3
      · rcases List.mem_cons.mp h3 with h4 | h4
        · exact h4
        · simp at h4
    subst this
    exact segTok_shape i
  · obtain ⟨j, _, hmem2⟩ := List.mem_flatMap.mp h2
    rcases List.mem_cons.mp hmem2 with h3 | h3
    · subst h3
      exact subTokU_shape i j
    · rcases List.mem_cons.mp h3 with h4 | h4
      · subst h4
        exact subTokL_shape i j
      · simp at h4

theorem segTok_mem_ph {i : Nat} (hi : i ∈ List.range' 1 6) :
    segTok i ∈ segment_placeholders := by
  unfold segment_placeholders
  exact List.mem_flatMap.mpr ⟨i, hi,
    List.mem_append.mpr (Or.inl (List.mem_cons_self _ _))⟩

theorem subTokL_mem_ph {i j : Nat} (hi : i ∈ List.range' 1 6)
    (hj : j ∈ List.range' 1 10) : subTokL i j ∈ segment_placeholders := by
  unfold segment_placeholders
  refine List.mem_flatMap.mpr ⟨i, hi, List.mem_append.mpr (Or.inr ?_)⟩
  refine List.mem_flatMap.mpr ⟨j, hj, ?_⟩
  exact List.mem_cons_of_mem _ (List.mem_cons_self _ _)

-- Generic NoTok transports with shaped tokens. ---------------------------------

theorem NoTok_replace_mono_tok {d : Doc} {x rep t : Txt} (hd : TextsWf d)
    (hx : braceFree x = true) (ht : IsTokShape t) (hrep : braceFree rep = true)
    (hgone : NoTok d t) : NoTok ((replace_text d (tokTxt x) rep).1) t := by
  obtain ⟨z, hz, rfl⟩ := ht
  exact NoTok_replace_mono hd hx hz hrep hgone

theorem replaceJobs_mono_tok : ∀ (jobs : List (Txt × Txt)) (d : Doc), TextsWf d →
    (∀ j ∈ jobs, braceFree j.1 = true ∧ braceFree j.2 = true) →
    ∀ {t : Txt}, IsTokShape t → NoTok d t → NoTok (replaceJobs d jobs) t := by
  intro jobs d hd hj t ht hgone
  obtain ⟨z, hz, rfl⟩ := ht
  exact replaceJobs_mono jobs d hd hj hz hgone

theorem replaceJobs_header_mono : ∀ (jobs : List (Txt × Txt)) (d : Doc), TextsWf d →
    (∀ j ∈ jobs, braceFree j.1 = true ∧ braceFree j.2 = true) →
    ∀ {t : Txt}, IsTokShape t →
    (∀ s ∈ d.headerTexts, hasSub s t = false) →
    ∀ s ∈ (replaceJobs d jobs).headerTexts, hasSub s t = false := by
  intro jobs
  induction jobs with
  | nil => exact fun d _ _ _ _ h => h
  | cons j rest ih =>
    intro d hd hj t ht hhdr
    have hjh := hj j (List.mem_cons_self _ _)
    refine ih _ (TextsWf_replace hd hjh.1 hjh.2)
      (fun j2 h2 => hj j2 (List.mem_cons_of_mem _ h2)) ht ?_
    intro s hs
    rw [replace_text_fst_headerTexts] at hs
    obtain ⟨s0, hs0, rfl⟩ := List.mem_map.mp hs
    exact hasSub_substTxt_mono_tok (hd _ (headerTexts_sub_texts hs0))
      ⟨j.1, hjh.1, rfl⟩ ht hjh.2 (hhdr _ hs0)

theorem replaceJobs_headerTexts_map : ∀ (jobs : List (Txt × Txt)) (d : Doc),
    ∀ s ∈ (replaceJobs d jobs).headerTexts, ∃ s0 ∈ d.headerTexts, True := by
  intro jobs
  induction jobs with
  | nil => exact fun d s hs => ⟨s, hs, trivial⟩
  | cons j rest ih =>
    intro d s hs
    obtain ⟨s1, hs1, _⟩ := ih _ s hs
    rw [replace_text_fst_headerTexts] at hs1
    obtain ⟨s0, hs0, _⟩ := List.mem_map.mp hs1
    exact ⟨s0, hs0, trivial⟩

-- Brace facts for the substituted values. --------------------------------------

theorem valid_region_bf : ∀ r ∈ valid_regions, braceFree r = true := by decide

theorem sub?_bf {d : InputData} (hsub : ∀ kv ∈ d.subFields, braceFree kv.2 = true)
    {i j : Nat} {v : Txt} (h : d.sub? i j = some v) : braceFree v = true := by
  unfold InputData.sub? at h
  obtain ⟨kv, hkv, hv⟩ := Option.map_eq_some'.mp h
  have := List.mem_of_find?_eq_some hkv
  rw [← hv]
  exact hsub kv this

theorem seg?_bf {d : InputData} (hseg : ∀ kv ∈ d.segmentFields, braceFree kv.2 = true)
    {i : Nat} {v : Txt} (h : d.seg? i = some v) : braceFree v = true := by
  unfold InputData.seg? at h
  obtain ⟨kv, hkv, hv⟩ := Option.map_eq_some'.mp h
  have := List.mem_of_find?_eq_some hkv
  rw [← hv]
  exact hseg kv this

theorem company?_bf {d : InputData}
    (hcomp : ∀ kv ∈ d.companyFields, braceFree kv.2 = true)
    {i : Nat} {v : Txt} (h : d.company? i = some v) : braceFree v = true := by
  unfold InputData.company? at h
  obtain ⟨kv, hkv, hv⟩ := Option.map_eq_some'.mp h
  have := List.mem_of_find?_eq_some hkv
  rw [← hv]
  exact hcomp kv this

theorem collectSubsF_bf {d : InputData}
    (hsub : ∀ kv ∈ d.subFields, braceFree kv.2 = true) :
    ∀ (f i j : Nat), ∀ v ∈ collectSubsF f d i j, braceFree v = true := by
  intro f
  induction f with
  | zero =>
    intro i j v hv
    simp [collectSubsF] at hv
  | succ f ih =>
    intro i j v hv
    unfold collectSubsF at hv
    rcases hs : d.sub? i j with _ | v2
    · rw [hs] at hv
      simp at hv
    · rw [hs] at hv
      rcases List.mem_cons.mp hv with h2 | h2
      · subst h2
        exact sub?_bf hsub hs
      · exact ih i (j + 1) v h2

theorem collectSegsF_bf {d : InputData}
    (hseg : ∀ kv ∈ d.segmentFields, braceFree kv.2 = true)
    (hsub : ∀ kv ∈ d.subFields, braceFree kv.2 = true) :
    ∀ (f i : Nat), ∀ sg ∈ collectSegsF f d i,
      braceFree sg.name = true ∧ ∀ sb ∈ sg.subSegments, braceFree sb = true := by
  intro f
  induction f with
  | zero =>
    intro i sg hsg
    simp [collectSegsF] at hsg
  | succ f ih =>
    intro i sg hsg
    unfold collectSegsF at hsg
    rcases hs : d.seg? i with _ | name
    · rw [hs] at hsg
      simp at hsg
    · rw [hs] at hsg
      rcases List.mem_cons.mp hsg with h2 | h2
      · subst h2
        exact ⟨seg?_bf hseg hs, fun sb hsb => collectSubsF_bf hsub _ i 1 sb hsb⟩
      · exact ih (i + 1) sg h2

theorem materializeSegs_bf {d : InputData}
    (hseg : ∀ kv ∈ d.segmentFields, braceFree kv.2 = true)
    (hsub : ∀ kv ∈ d.subFields, braceFree kv.2 = true) :
    ∀ sg ∈ materializeSegs d, braceFree sg.name = true ∧
      ∀ sb ∈ sg.subSegments, braceFree sb = true :=
  fun sg hsg => collectSegsF_bf hseg hsub _ 1 sg hsg

theorem pipelineCompanies_bf {d : InputData}
    (hcomp : ∀ kv ∈ d.companyFields, braceFree kv.2 = true) :
    ∀ c ∈ (List.range' 1 10).map (fun i => (d.company? i).getD []),
      braceFree c = true := by
  intro c hc
  obtain ⟨i, _, rfl⟩ := List.mem_map.mp hc
  rcases hs : d.company? i with _ | v
  · decide
  · exact company?_bf hcomp hs

theorem companyJobs_mem_range {f : Nat → Txt} {k : Nat} (hk : k ∈ List.range' 1 10) :
    ∃ rep, (T "Company" ++ natTxt k, rep) ∈ companyJobs ((List.range' 1 10).map f) := by
  obtain ⟨hk1, hk2⟩ := List.mem_range'_1.mp hk
  have hlen : ((List.range' 1 10).map f).length = 10 := by
    rw [List.length_map, List.length_range']
  have htake : ((List.range' 1 10).map f).take 10 = (List.range' 1 10).map f :=
    List.take_of_length_le (by rw [hlen])
  have hk0 : k - 1 < (((List.range' 1 10).map f).take 10).length := by
    rw [htake, hlen]
    omega
  have hmem := @companyJobs_mem ((List.range' 1 10).map f) (k - 1) hk0
  have heq : k - 1 + 1 = k := by omega
  rw [heq] at hmem
  exact ⟨_, hmem⟩

/-- Core completeness lemma: after the pipeline tail (market name, segments,
pruning, companies, zone removal, marker stripping), no closed-vocabulary
token remains, provided the entering document is well formed, its headers
carry no segment placeholders or markers, region/country tokens are already
gone, the market name is non-empty, and all substituted values are
brace-free. -/
theorem synthTail_no_vocab {data : InputData} {doc2 : Doc}
    (hd : TextsWf doc2)
    (hmk : data.market_name.getD [] ≠ [])
    (hmkbf : braceFree (data.market_name.getD []) = true)
    (hsegbf : ∀ kv ∈ data.segmentFields, braceFree kv.2 = true)
    (hsubbf : ∀ kv ∈ data.subFields, braceFree kv.2 = true)
    (hcompbf : ∀ kv ∈ data.companyFields, braceFree kv.2 = true)
    (hhdrseg : ∀ s ∈ doc2.headerTexts, ∀ ph ∈ segment_placeholders, hasSub s ph = false)
    (hhdrmark : ∀ s ∈ doc2.headerTexts, ∀ n ∈ List.range' 1 6,
      hasSub s (startTok n) = false ∧ hasSub s (endTok n) = false)
    (hregion : NoTok doc2 regionTok)
    (hcountry : NoTok doc2 countryTok) :
    ∀ t ∈ closedVocab, NoTok (synthTail data doc2) t := by
  have hsynth : synthTail data doc2
      = clean_all_segment_markers
          (remove_unused_sections
            (replace_companies
              (clean_empty_segments
                (replace_segments ((replace_text doc2 marketTok (data.market_name.getD [])).1)
                  (materializeSegs data))
                (materializeSegs data))
              ((List.range' 1 10).map fun i => (data.company? i).getD []))
            (materializeSegs data)) := by
    simp only [synthTail, update_document_references]
    rw [if_pos hmk]
  intro t ht
  rw [hsynth]
  have hsegsbf := materializeSegs_bf hsegbf hsubbf
  have hjobsbf := segJobs_bf hsegsbf
  have hcompsbf := pipelineCompanies_bf hcompbf
  have hcjobsbf := companyJobs_bf hcompsbf
  have hmbf : ∀ j ∈ [(T "market_name", data.market_name.getD [])],
      braceFree j.1 = true ∧ braceFree j.2 = true := by
    intro j hj
    rw [List.mem_singleton] at hj
    subst hj
    refine ⟨?_, hmkbf⟩
    show braceFree (T "market_name") = true
    decide
  set market := data.market_name.getD [] with hmdef
  set segs := materializeSegs data with hsegsdef
  set companies := (List.range' 1 10).map (fun i => (data.company? i).getD []) with hcompaniesdef
  set doc3 := (replace_text doc2 marketTok market).1 with hdoc3
  set doc4 := replace_segments doc3 segs with hdoc4
  set doc5 := clean_empty_segments doc4 segs with hdoc5
  set doc6 := replace_companies doc5 companies with hdoc6
  set doc7 := remove_unused_sections doc6 segs with hdoc7
  have hd3 : TextsWf doc3 := by
    rw [hdoc3, replace_market_eq]
    exact replaceJobs_wf _ _ hd hmbf
  have hd4 : TextsWf doc4 := by
    rw [hdoc4, replace_segments_eq]
    exact replaceJobs_wf _ _ hd3 hjobsbf
  have hd5 : TextsWf doc5 := by
    rw [hdoc5]
    exact TextsWf_clean_empty hd4
  have hd6 : TextsWf doc6 := by
    rw [hdoc6, replace_companies_eq]
    exact replaceJobs_wf _ _ hd5 hcjobsbf
  have hd7 : TextsWf doc7 := by
    rw [hdoc7]
    exact TextsWf_remove_unused hd6
  -- header transports
  have hhdr3 : ∀ {t2 : Txt}, IsTokShape t2 →
      (∀ s ∈ doc2.headerTexts, hasSub s t2 = false) →
      ∀ s ∈ doc3.headerTexts, hasSub s t2 = false := by
    intro t2 ht2 hh
    rw [hdoc3, replace_market_eq]
    exact replaceJobs_header_mono _ _ hd hmbf ht2 hh
  have hhdr4 : ∀ {t2 : Txt}, IsTokShape t2 →
      (∀ s ∈ doc2.headerTexts, hasSub s t2 = false) →
      ∀ s ∈ doc4.headerTexts, hasSub s t2 = false := by
    intro t2 ht2 hh
    rw [hdoc4, replace_segments_eq]
    exact replaceJobs_header_mono _ _ hd3 hjobsbf ht2 (hhdr3 ht2 hh)
  have hhdr5 : ∀ {t2 : Txt}, IsTokShape t2 →
      (∀ s ∈ doc2.headerTexts, hasSub s t2 = false) →
      ∀ s ∈ doc5.headerTexts, hasSub s t2 = false := by
    intro t2 ht2 hh
    rw [hdoc5, clean_empty_headerTexts]
    exact hhdr4 ht2 hh
  have hhdr6 : ∀ {t2 : Txt}, IsTokShape t2 →
      (∀ s ∈ doc2.headerTexts, hasSub s t2 = false) →
      ∀ s ∈ doc6.headerTexts, hasSub s t2 = false := by
    intro t2 ht2 hh
    rw [hdoc6, replace_companies_eq]
    exact replaceJobs_header_mono _ _ hd5 hcjobsbf ht2 (hhdr5 ht2 hh)
  have hhdr7 : ∀ {t2 : Txt}, IsTokShape t2 →
      (∀ s ∈ doc2.headerTexts, hasSub s t2 = false) →
      ∀ s ∈ doc7.headerTexts, hasSub s t2 = false := by
    intro t2 ht2 hh
    have heq : doc7.headerTexts = doc6.headerTexts := by
      rw [hdoc7]
      unfold Doc.headerTexts
      rw [remove_unused_headers]
    rw [heq]
    exact hhdr6 ht2 hh
  -- monotone transports of absence to the final document
  have monoFrom7 : ∀ {t2 : Txt}, IsTokShape t2 → NoTok doc7 t2 →
      NoTok (clean_all_segment_markers doc7) t2 := by
    intro t2 ht2 h7
    show NoTok ((List.range' 1 6).foldl camStep doc7) t2
    exact camFold_mono _ _ hd7 ht2 h7
  have monoFrom6 : ∀ {t2 : Txt}, IsTokShape t2 → NoTok doc6 t2 →
      NoTok (clean_all_segment_markers doc7) t2 := by
    intro t2 ht2 h6
    refine monoFrom7 ht2 ?_
    rw [hdoc7]
    exact NoTok_remove_unused_mono h6
  have monoFrom5 : ∀ {t2 : Txt}, IsTokShape t2 → NoTok doc5 t2 →
      NoTok (clean_all_segment_markers doc7) t2 := by
    intro t2 ht2 h5
    refine monoFrom6 ht2 ?_
    rw [hdoc6, replace_companies_eq]
    exact replaceJobs_mono_tok _ _ hd5 hcjobsbf ht2 h5
  have monoFrom4 : ∀ {t2 : Txt}, IsTokShape t2 → NoTok doc4 t2 →
      NoTok (clean_all_segment_markers doc7) t2 := by
    intro t2 ht2 h4
    refine monoFrom5 ht2 ?_
    rw [hdoc5]
    exact NoTok_clean_empty_mono h4
  have monoFrom3 : ∀ {t2 : Txt}, IsTokShape t2 → NoTok doc3 t2 →
      NoTok (clean_all_segment_markers doc7) t2 := by
    intro t2 ht2 h3
    refine monoFrom4 ht2 ?_
    rw [hdoc4, replace_segments_eq]
    exact replaceJobs_mono_tok _ _ hd3 hjobsbf ht2 h3
  have monoFrom2 : ∀ {t2 : Txt}, IsTokShape t2 → NoTok doc2 t2 →
      NoTok (clean_all_segment_markers doc7) t2 := by
    intro t2 ht2 h2
    refine monoFrom3 ht2 ?_
    rw [hdoc3, replace_market_eq]
    exact replaceJobs_mono_tok _ _ hd hmbf ht2 h2
  -- case analysis on the vocabulary token
  unfold closedVocab at ht
  rcases List.mem_append.mp ht with h1 | h1
  · rcases List.mem_append.mp h1 with h2 | h2
    · rcases List.mem_cons.mp h2 with rfl | h3
      · -- market token, replaced at doc3
        refine monoFrom3 marketTok_shape ?_
        rw [hdoc3, replace_market_eq]
        have := replaceJobs_gone [(T "market_name", market)] doc2 hd hmbf
          (List.mem_singleton.mpr rfl)
        rw [← marketTok_eq] at this
        exact this
      · rcases List.mem_cons.mp h3 with rfl | h4
        · exact monoFrom2 regionTok_shape hregion
        · rcases List.mem_cons.mp h4 with rfl | h5
          · exact monoFrom2 countryTok_shape hcountry
          · simp at h5
    · obtain ⟨i, hi, hmem⟩ := List.mem_flatMap.mp h2
      rcases List.mem_cons.mp hmem with rfl | h3
      · -- segment token: removed by clean_empty_segments
        refine monoFrom5 (segTok_shape i) ?_
        rw [hdoc5]
        refine clean_empty_gone ?_ _ (segTok_mem_ph hi)
        intro s hs ph hph
        exact hhdr4 (placeholder_shape ph hph)
          (fun s2 hs2 => hhdrseg s2 hs2 ph hph) s hs
      · rcases List.mem_cons.mp h3 with rfl | h4
        · -- a Start marker: removed by clean_all_segment_markers
          have := camFold_marker_gone (List.range' 1 6) doc7 hd7 ?hm i hi
          · exact this.1
          · intro s hs n hn
            exact ⟨hhdr7 (startTok_shape n) (fun s2 hs2 => (hhdrmark s2 hs2 n hn).1) s hs,
              hhdr7 (endTok_shape n) (fun s2 hs2 => (hhdrmark s2 hs2 n hn).2) s hs⟩
        · rcases List.mem_cons.mp h4 with rfl | h5
          · have := camFold_marker_gone (List.range' 1 6) doc7 hd7 ?hm2 i hi
            · exact this.2
            · intro s hs n hn
              exact ⟨hhdr7 (startTok_shape n) (fun s2 hs2 => (hhdrmark s2 hs2 n hn).1) s hs,
                hhdr7 (endTok_shape n) (fun s2 hs2 => (hhdrmark s2 hs2 n hn).2) s hs⟩
          · obtain ⟨j, hj, rfl⟩ := List.mem_map.mp h5
            refine monoFrom5 (subTokL_shape i j) ?_
            rw [hdoc5]
            refine clean_empty_gone ?_ _ (subTokL_mem_ph hi hj)
            intro s hs ph hph
            exact hhdr4 (placeholder_shape ph hph)
              (fun s2 hs2 => hhdrseg s2 hs2 ph hph) s hs
  · obtain ⟨n, hn, rfl⟩ := List.mem_map.mp h1
    refine monoFrom6 (companyTok_shape n) ?_
    rw [hdoc6, replace_companies_eq]
    obtain ⟨rep, hmem⟩ := @companyJobs_mem_range (fun i => (data.company? i).getD []) n hn
    have := replaceJobs_gone (companyJobs companies) doc5 hd5 hcjobsbf hmem
    rw [← companyTok_eq] at this
    exact this

/-- Inversion of a successful `generate_word_doc` run: the output is the
pipeline tail applied to the template after the scope substitution, and the
scope step is determined by the template type. -/
theorem generate_word_doc_ok_cases
    {exists_ : Txt → Bool} {templates : Txt → Doc} {data : InputData} {out : Doc}
    (h : generate_word_doc exists_ templates data = .ok out) :
    ∃ path doc2, out = synthTail data doc2 ∧
      ((data.template_type.getD (T "Global") = T "Regional" ∧
          ∃ r, r ∈ valid_regions ∧ doc2 = replace_region (templates path) r) ∨
        (data.template_type.getD (T "Global") = T "Country" ∧
          ∃ c, data.country = some c ∧ c ≠ [] ∧
            doc2 = replace_country (templates path) c) ∨
        (data.template_type.getD (T "Global") ≠ T "Regional" ∧
          data.template_type.getD (T "Global") ≠ T "Country" ∧
          doc2 = templates path)) := by
  simp only [generate_word_doc] at h
  split at h
  next e heq => exact Except.noConfusion h
  next path heq =>
    split at h
    next e2 heq1 => exact Except.noConfusion h
    next doc1 heq1 =>
      split at h
      next e3 heq2 => exact Except.noConfusion h
      next doc2 heq2 =>
        injection h with h
        refine ⟨path, doc2, h.symm, ?_⟩
        by_cases hR : data.template_type.getD (T "Global") = T "Regional"
        · rw [if_pos hR] at heq1
          have hnC : data.template_type.getD (T "Global") ≠ T "Country" := by
            rw [hR]; decide
          rw [if_neg hnC] at heq2
          injection heq2 with heq2
          cases hro : data.region with
          | none => rw [hro] at heq1; exact Except.noConfusion heq1
          | some r =>
            simp only [hro] at heq1
            by_cases hr0 : r = []
            · rw [if_pos hr0] at heq1
              exact Except.noConfusion heq1
            · rw [if_neg hr0] at heq1
              cases hval : validate_region r with
              | error e4 => rw [hval] at heq1; exact Except.noConfusion heq1
              | ok r2 =>
                rw [hval] at heq1
                injection heq1 with heq1
                obtain ⟨rfl, hv⟩ : r2 = r ∧ r ∈ valid_regions := by
                  unfold validate_region at hval
                  by_cases hvr : r ∈ valid_regions
                  · rw [if_pos hvr] at hval
                    injection hval with hval
                    exact ⟨hval.symm, hvr⟩
                  · rw [if_neg hvr] at hval
                    exact Except.noConfusion hval
                exact Or.inl ⟨hR, r2, hv, by rw [← heq2, ← heq1]⟩
        · rw [if_neg hR] at heq1
          injection heq1 with heq1
          by_cases hC : data.template_type.getD (T "Global") = T "Country"
          · rw [if_pos hC] at heq2
            cases hco : data.country with
            | none => rw [hco] at heq2; exact Except.noConfusion heq2
            | some c =>
              simp only [hco] at heq2
              by_cases hc0 : c = []
              · rw [if_pos hc0] at heq2
                exact Except.noConfusion heq2
              · rw [if_neg hc0] at heq2
                injection heq2 with heq2
                exact Or.inr (Or.inl ⟨hC, c, rfl, hc0, by rw [← heq2, ← heq1]⟩)
          · rw [if_neg hC] at heq2
            injection heq2 with heq2
            exact Or.inr (Or.inr ⟨hR, hC, by rw [← heq2, ← heq1]⟩)

/-- `synthTail_no_vocab` specialised to a document obtained from a template
by a brace-free substitution job list, with the header hygiene stated on the
template itself. -/
theorem synthTail_no_vocab_jobs {data : InputData} (d0 : Doc)
    (jobs : List (Txt × Txt))
    (hwf0 : TextsWf d0)
    (hjbf : ∀ j ∈ jobs, braceFree j.1 = true ∧ braceFree j.2 = true)
    (hhseg0 : ∀ s ∈ d0.headerTexts, ∀ ph ∈ segment_placeholders,
      hasSub s ph = false)
    (hhmark0 : ∀ s ∈ d0.headerTexts, ∀ n ∈ List.range' 1 6,
      hasSub s (startTok n) = false ∧ hasSub s (endTok n) = false)
    (hregion : NoTok (replaceJobs d0 jobs) regionTok)
    (hcountry : NoTok (replaceJobs d0 jobs) countryTok)
    (hmk : data.market_name.getD [] ≠ [])
    (hmkbf : braceFree (data.market_name.getD []) = true)
    (hsegbf : ∀ kv ∈ data.segmentFields, braceFree kv.2 = true)
    (hsubbf : ∀ kv ∈ data.subFields, braceFree kv.2 = true)
    (hcompbf : ∀ kv ∈ data.companyFields, braceFree kv.2 = true) :
    ∀ t ∈ closedVocab, NoTok (synthTail data (replaceJobs d0 jobs)) t := by
  refine synthTail_no_vocab (replaceJobs_wf _ _ hwf0 hjbf) hmk hmkbf hsegbf hsubbf
    hcompbf ?_ ?_ hregion hcountry
  · intro s hs ph hph
    exact replaceJobs_header_mono _ _ hwf0 hjbf (placeholder_shape ph hph)
      (fun s2 hs2 => hhseg0 s2 hs2 ph hph) s hs
  · intro s hs n hn
    exact ⟨replaceJobs_header_mono _ _ hwf0 hjbf (startTok_shape n)
        (fun s2 hs2 => (hhmark0 s2 hs2 n hn).1) s hs,
      replaceJobs_header_mono _ _ hwf0 hjbf (endTok_shape n)
        (fun s2 hs2 => (hhmark0 s2 hs2 n hn).2) s hs⟩

/-- C1 (amended): a successful single-document synthesis leaves no
closed-vocabulary placeholder token in any body paragraph, table cell or
header, PROVIDED the record's market name is present and non-empty (the
code's `if market_name:` guard skips the substitution otherwise, refuting
the claim's "including when the record's market_name is absent or the empty
string"), the templates are well formed with hygienic headers and carry
scope tokens only for their class, and the substituted values are
brace-free. -/
theorem c1_completeness
    {exists_ : Txt → Bool} {templates : Txt → Doc} {data : InputData} {out : Doc}
    (hok : generate_word_doc exists_ templates data = .ok out)
    (hwf : ∀ p, TextsWf (templates p))
    (hhseg : ∀ p, ∀ s ∈ (templates p).headerTexts, ∀ ph ∈ segment_placeholders,
      hasSub s ph = false)
    (hhmark : ∀ p, ∀ s ∈ (templates p).headerTexts, ∀ n ∈ List.range' 1 6,
      hasSub s (startTok n) = false ∧ hasSub s (endTok n) = false)
    (hreg : ∀ p, data.template_type.getD (T "Global") ≠ T "Regional" →
      NoTok (templates p) regionTok)
    (hctry : ∀ p, data.template_type.getD (T "Global") ≠ T "Country" →
      NoTok (templates p) countryTok)
    (hmk : data.market_name.getD [] ≠ [])
    (hmkbf : braceFree (data.market_name.getD []) = true)
    (hcbf : ∀ c, data.country = some c → braceFree c = true)
    (hsegbf : ∀ kv ∈ data.segmentFields, braceFree kv.2 = true)
    (hsubbf : ∀ kv ∈ data.subFields, braceFree kv.2 = true)
    (hcompbf : ∀ kv ∈ data.companyFields, braceFree kv.2 = true) :
    ∀ t ∈ closedVocab, NoTok out t := by
  obtain ⟨path, doc2, rfl, hcase⟩ := generate_word_doc_ok_cases hok
  rcases hcase with ⟨hR, r, hv, rfl⟩ | ⟨hC, c, hco, hc0, rfl⟩ | ⟨hnR, hnC, rfl⟩
  · have hjbf : ∀ j ∈ [(T "region", r)],
        braceFree j.1 = true ∧ braceFree j.2 = true := by
      intro j hj
      rw [List.mem_singleton] at hj
      subst hj
      refine ⟨?_, valid_region_bf r hv⟩
      show braceFree (T "region") = true
      decide
    rw [replace_region_eq]
    refine synthTail_no_vocab_jobs _ _ (hwf path) hjbf (hhseg path) (hhmark path)
      ?_ ?_ hmk hmkbf hsegbf hsubbf hcompbf
    · have := replaceJobs_gone [(T "region", r)] (templates path) (hwf path) hjbf
        (List.mem_singleton.mpr rfl)
      rw [← regionTok_eq] at this
      exact this
    · exact replaceJobs_mono_tok _ _ (hwf path) hjbf countryTok_shape
        (hctry path (by rw [hR]; decide))
  · have hjbf : ∀ j ∈ [(T "country", c)],
        braceFree j.1 = true ∧ braceFree j.2 = true := by
      intro j hj
      rw [List.mem_singleton] at hj
      subst hj
      refine ⟨?_, hcbf c hco⟩
      show braceFree (T "country") = true
      decide
    rw [replace_country_eq]
    refine synthTail_no_vocab_jobs _ _ (hwf path) hjbf (hhseg path) (hhmark path)
      ?_ ?_ hmk hmkbf hsegbf hsubbf hcompbf
    · exact replaceJobs_mono_tok _ _ (hwf path) hjbf regionTok_shape
        (hreg path (by rw [hC]; decide))
    · have := replaceJobs_gone [(T "country", c)] (templates path) (hwf path) hjbf
        (List.mem_singleton.mpr rfl)
      rw [← countryTok_eq] at this
      exact this
  · refine synthTail_no_vocab_jobs (templates path) [] (hwf path)
      (fun j hj => absurd hj (List.not_mem_nil j)) (hhseg path) (hhmark path)
      ?_ ?_ hmk hmkbf hsegbf hsubbf hcompbf
    · exact hreg path hnR
    · exact hctry path hnC

/-- C1 (counterexample): on a Global request whose market_name is the empty
string, synthesis succeeds but the output still contains the
closed-vocabulary token `{{market_name}}` in a body paragraph — the
word.py:830 `if market_name:` guard skips the substitution, refuting the
claim's "including when the record's market_name is absent or the empty
string". -/
theorem c1_empty_market_counterexample :
    generate_word_doc (fun _ => true) (fun _ => c1CexDoc) c1CexData
        = .ok c1CexDoc ∧
      marketTok ∈ closedVocab ∧ marketTok ∈ c1CexDoc.texts ∧
      hasSub marketTok marketTok = true := by decide

/-- Witness for the amended C1 theorem at a concrete input: a Global request
with a non-empty market name run on the same template succeeds, and no
closed-vocabulary token survives. -/
theorem c1_completeness_witness :
    generate_word_doc (fun _ => true) (fun _ => c1CexDoc) c1WitData
        = .ok c1WitOut ∧
      (∀ t ∈ closedVocab, NoTok c1WitOut t) := by
  constructor
  · decide
  · refine @c1_completeness (fun _ => true) (fun _ => c1CexDoc) c1WitData c1WitOut
      (by decide)
      (fun p => ?_) (fun p s hs ph hph => ?_) (fun p s hs n hn => ?_)
      (fun p h => by show ∀ s ∈ c1CexDoc.texts, hasSub s regionTok = false; decide)
      (fun p h => by show ∀ s ∈ c1CexDoc.texts, hasSub s countryTok = false; decide)
      (by decide) (by decide)
      (fun c h => Option.noConfusion h) (by decide) (by decide) (by decide)
    · intro s hs
      have he : c1CexDoc.texts = [marketTok] := by decide
      rw [he] at hs
      rw [List.mem_singleton.mp hs]
      exact ⟨[Chunk.tok (T "market_name")], by decide, by decide⟩
    · have he : c1CexDoc.headerTexts = [] := rfl
      rw [he] at hs
      exact absurd hs (List.not_mem_nil s)
    · have he : c1CexDoc.headerTexts = [] := rfl
      rw [he] at hs
      exact absurd hs (List.not_mem_nil s)

/-- C2 (amended): on a six-zone template and a record providing Segment1 and
Segment3 but no Segment2, the while-loop materialisation stops at the first
gap — it yields only Segment1 even though a Segment3 field is present — so
zones 2, 3, 4, 5 and 6 are all removed; zone 1's markers are stripped and
its content is kept.  The claim's "block content of zones 1 and 3 is
present" fails for zone 3. -/
theorem c2_gap_scenario :
    materializeSegs c2Data = [⟨T "SegOne", []⟩] ∧
      c2Data.seg? 3 = some (T "SegThree") ∧
      generate_word_doc (fun _ => true) (fun _ => c2Doc) c2Data = .ok c2Out := by
  decide

/-- C2 (counterexample): the record provides Segment3, its zone content
occurs in the template, yet it is absent from the output (and so is the
whole zone-3 block content), refuting "the block content of zones 1 and 3 is
present". -/
theorem c2_zone3_removed_counterexample :
    c2Data.seg? 3 = some (T "SegThree") ∧
      T "ZoneThreeBody" ∈ c2Doc.texts ∧
      generate_word_doc (fun _ => true) (fun _ => c2Doc) c2Data = .ok c2Out ∧
      T "ZoneThreeBody" ∉ c2Out.texts ∧
      c2Out.texts = [T "ZoneOneBody"] := by
  decide

/-- Counting helper: a fold step that always increments `g` by one makes the
fold add the list length. -/
theorem foldl_count_aux {α β : Type} (f : β → α → β) (g : β → Nat)
    (hf : ∀ st a, g (f st a) = g st + 1) :
    ∀ (l : List α) (st : β), g (l.foldl f st) = g st + l.length := by
  intro l
  induction l with
  | nil => intro st; simp
  | cons a rest ih =>
    intro st
    rw [List.foldl_cons, ih, hf]
    simp [Nat.add_assoc, Nat.add_comm 1]

theorem bulkStep_count (exists_ : Txt → Bool) (templates : Txt → Doc)
    (st : BulkOutcome) (ir : Nat × RowCsv) :
    (bulkStep exists_ templates st ir).success
      + (bulkStep exists_ templates st ir).failed
      = st.success + st.failed + 1 := by
  unfold bulkStep
  cases h : processRow exists_ templates ir.1 ir.2 with
  | ok fd =>
    show st.success + 1 + st.failed = st.success + st.failed + 1
    omega
  | error e =>
    show st.success + (st.failed + 1) = st.success + st.failed + 1
    omega

/-- Every bulk row is either a success or a recorded failure: the loop never
aborts, so the two counters always sum to the number of rows. -/
theorem bulk_success_failed (exists_ : Txt → Bool) (templates : Txt → Doc)
    (rows : List RowCsv) :
    (generate_bulk_documents exists_ templates rows).success
      + (generate_bulk_documents exists_ templates rows).failed = rows.length := by
  show (rows.enum.foldl (bulkStep exists_ templates) ⟨0, 0, [], []⟩).success
    + (rows.enum.foldl (bulkStep exists_ templates) ⟨0, 0, [], []⟩).failed
    = rows.length
  have h := foldl_count_aux (bulkStep exists_ templates)
    (fun st => st.success + st.failed)
    (fun st ir => bulkStep_count exists_ templates st ir) rows.enum ⟨0, 0, [], []⟩
  simpa using h

/-- C3 (code_bug): the loop indeed isolates failures (success + failed =
number of rows, first conjunct), but the claimed scenario outcome is wrong:
`generate_single_document` calls `replace_header_textbox(doc, {...})` with
two arguments against a three-positional-argument signature (word.py:1241,
1248, 1255), so every Global row with a market name raises `TypeError`.
The 5-row table yields 0 successes and 5 failures — not 4 and 1 — and,
since every row failed, no archive is returned. -/
theorem c3_bulk_rows_failure :
    (∀ (exists_ : Txt → Bool) (templates : Txt → Doc) (rows : List RowCsv),
        (generate_bulk_documents exists_ templates rows).success
          + (generate_bulk_documents exists_ templates rows).failed
          = rows.length) ∧
      generate_bulk_documents (fun _ => true) (fun _ => (⟨[], []⟩ : Doc)) c3Rows
        = ⟨0, 5, [],
            [T "Error in row 1: " ++ typeErrorHeaderTextbox,
             T "Error in row 2: " ++ typeErrorHeaderTextbox,
             T "Error in row 3: Region is required for Regional template in row 3",
             T "Error in row 4: " ++ typeErrorHeaderTextbox,
             T "Error in row 5: " ++ typeErrorHeaderTextbox]⟩ ∧
      bulkArchive
          (generate_bulk_documents (fun _ => true) (fun _ => (⟨[], []⟩ : Doc)) c3Rows)
        = none :=
  ⟨fun e t r => bulk_success_failed e t r, by decide, by decide⟩

/-- C4 (confirmed): the substitution engine (1) maps every reachable
paragraph text — body, table cells, headers — by the per-text replacement;
(2) matches on the paragraph's concatenated run text, so a token split
across the paragraph's runs is recognised; (3) on a match collapses the
result into a single first run, clearing the rest; (4) for a well-formed
document and brace-free token name and value, every occurrence is replaced
— none remains; (5) its `replacement_done` flag is exactly "the token
occurs somewhere"; and (6) when the token occurs nowhere the call returns
normally with the document unchanged (the source only logs a warning). -/
theorem c4_replace_text_characterization :
    (∀ (d : Doc) (pat rep : Txt),
        ((replace_text d pat rep).1).texts = d.texts.map (substTxt pat rep)) ∧
      (∀ (rs : List Txt) (pat rep : Txt),
        (substPara pat rep ⟨rs⟩).text = substTxt pat rep rs.flatten) ∧
      (∀ (rs : List Txt) (pat rep : Txt), hasSub rs.flatten pat = true →
        substPara pat rep ⟨rs⟩ = ⟨[replaceAll rs.flatten pat rep]⟩) ∧
      (∀ (d : Doc) (x rep : Txt), TextsWf d → braceFree x = true →
        braceFree rep = true →
        NoTok ((replace_text d (tokTxt x) rep).1) (tokTxt x)) ∧
      (∀ (d : Doc) (pat rep : Txt),
        (replace_text d pat rep).2 = (d.texts.any fun s => hasSub s pat)) ∧
      (∀ (d : Doc) (pat rep : Txt), (replace_text d pat rep).2 = false →
        (replace_text d pat rep).1 = d) := by
  refine ⟨fun d pat rep => replace_text_fst_texts d pat rep,
    fun rs pat rep => substPara_text pat rep ⟨rs⟩,
    fun rs pat rep h => ?_,
    fun d x rep hd hx hrep => NoTok_replace_self hd hx hrep,
    fun d pat rep => rfl,
    fun d pat rep h => replace_text_id rep ?_⟩
  · simp [substPara, Para.text, h]
  · intro s hs
    have := List.any_eq_false.mp h s hs
    simpa using this

/-- Witness for C4 at a concrete input: the market token split across two
runs is recognised and replaced, collapsed into a single run. -/
theorem c4_split_run_witness :
    (substPara marketTok (T "Widgets") ⟨[T "\x7b\x7bmarket_", T "name\x7d\x7d market"]⟩).text
      = T "Widgets market" := by
  have h := c4_replace_text_characterization.2.1
    [T "\x7b\x7bmarket_", T "name\x7d\x7d market"] marketTok (T "Widgets")
  rw [h]
  decide

/-- C5 (amended): substitution is idempotent only when the replacement
cannot re-introduce the token: for a well-formed document and a brace-free
token name and value, the first application removes every occurrence, so the
second application is the identity.  The claim's unconditional "for every
document tree, token, and replacement value" fails when the value contains
the token. -/
theorem c5_idempotent_brace_free {d : Doc} {x rep : Txt} (hd : TextsWf d)
    (hx : braceFree x = true) (hrep : braceFree rep = true) :
    (replace_text ((replace_text d (tokTxt x) rep).1) (tokTxt x) rep).1
      = (replace_text d (tokTxt x) rep).1 := by
  apply replace_text_id
  exact NoTok_replace_self hd hx hrep

/-- C5 (counterexample): with the value "A{{market_name}}", which contains
the token, the second application changes the tree again — substitution is
not idempotent in general. -/
theorem c5_not_idempotent_counterexample :
    (replace_text ((replace_text c5Doc marketTok c5Rep).1) marketTok c5Rep).1
      ≠ (replace_text c5Doc marketTok c5Rep).1 := by decide

/-- Witness for the amended C5 theorem at a concrete input. -/
theorem c5_idempotent_witness :
    (replace_text ((replace_text c5Doc (tokTxt (T "market_name")) (T "V")).1)
        (tokTxt (T "market_name")) (T "V")).1
      = (replace_text c5Doc (tokTxt (T "market_name")) (T "V")).1 := by
  refine c5_idempotent_brace_free ?_ (by decide) (by decide)
  intro s hs
  have he : c5Doc.texts = [marketTok] := by decide
  rw [he] at hs
  rw [List.mem_singleton.mp hs]
  exact ⟨[Chunk.tok (T "market_name")], by decide, by decide⟩

/-- The word.py:339-341 paragraph identity is sound: at a paragraph block,
counting the paragraph-tagged elements before the index and looking that
count up in the flat paragraph list returns exactly that paragraph. -/
theorem paraCountLookup_get : ∀ (body : List Block) (i : Nat) {p : Para},
    body.get? i = some (Block.para p) → paraCountLookup body i = some p := by
  intro body
  induction body with
  | nil =>
    intro i p h
    simp at h
  | cons b rest ih =>
    intro i p h
    cases i with
    | zero =>
      rw [List.get?_cons_zero] at h
      injection h with h
      subst h
      simp [paraCountLookup, List.filterMap_cons, blockPara]
    | succ i2 =>
      rw [List.get?_cons_succ] at h
      have step : paraCountLookup (b :: rest) (i2 + 1) = paraCountLookup rest i2 := by
        cases b with
        | para q =>
          unfold paraCountLookup
          simp [List.filterMap_cons, blockPara, List.take_succ_cons,
            List.filter_cons, isParaBlock]
        | table t =>
          unfold paraCountLookup
          simp [List.filterMap_cons, blockPara, List.take_succ_cons,
            List.filter_cons, isParaBlock]
      rw [step]
      exact ih i2 h

theorem findZonesAux_eq_scanSpec (body : List Block) (smark emark : Txt) :
    ∀ (rest : List Block) (i : Nat) (op : Option Nat), rest = body.drop i →
    findZonesAux body smark emark i rest op = scanSpec smark emark rest i op := by
  intro rest
  induction rest with
  | nil => intro i op hr; rfl
  | cons b rest2 ih =>
    intro i op hr
    have hget : body.get? i = some b := by
      have h0 : (body.drop i).get? 0 = some b := by rw [← hr]; rfl
      rw [List.get?_drop] at h0
      simpa using h0
    have hr2 : rest2 = body.drop (i + 1) := by
      have : body.drop (i + 1) = (body.drop i).drop 1 := by
        rw [List.drop_drop]
      rw [this, ← hr]
      rfl
    cases b with
    | table t =>
      show findZonesAux body smark emark i (Block.table t :: rest2) op = _
      unfold findZonesAux scanSpec
      exact ih (i + 1) op hr2
    | para p =>
      have hpl : paraCountLookup body i = some p := paraCountLookup_get body i hget
      cases op with
      | none =>
        by_cases hs : hasSub p.text smark = true
        · by_cases he : hasSub p.text emark = true
          · show findZonesAux body smark emark i (Block.para p :: rest2) none = _
            unfold findZonesAux scanSpec
            simp only [hpl, hs, he, Option.isNone_none, Bool.and_true, if_pos, if_true]
            rw [ih (i + 1) none hr2]
          · show findZonesAux body smark emark i (Block.para p :: rest2) none = _
            unfold findZonesAux scanSpec
            simp only [hpl, hs, he, Option.isNone_none, Bool.and_true, if_pos, if_true,
              if_false, Bool.false_eq_true]
            rw [ih (i + 1) (some i) hr2]
        · show findZonesAux body smark emark i (Block.para p :: rest2) none = _
          unfold findZonesAux scanSpec
          simp only [hpl, hs, Option.isNone_none, Bool.and_true, Bool.false_eq_true,
            if_false]
          rw [ih (i + 1) none hr2]
      | some s =>
        by_cases he : hasSub p.text emark = true
        · show findZonesAux body smark emark i (Block.para p :: rest2) (some s) = _
          unfold findZonesAux scanSpec
          simp only [hpl, he, Option.isNone_some, Bool.and_false, if_false, if_true,
            Bool.false_eq_true]
          rw [ih (i + 1) none hr2]
        · show findZonesAux body smark emark i (Block.para p :: rest2) (some s) = _
          unfold findZonesAux scanSpec
          simp only [hpl, he, Option.isNone_some, Bool.and_false, if_false,
            Bool.false_eq_true]
          rw [ih (i + 1) (some s) hr2]

theorem findZones_eq_scanSpec (body : List Block) (smark emark : Txt) :
    findZones body smark emark = scanSpec smark emark body 0 none := by
  unfold findZones
  exact findZonesAux_eq_scanSpec body smark emark body 0 none rfl

/-- Scan invariant: every recorded zone is an inclusive in-bounds range at
or after the scan position (or the open start), and the recorded zones are
pairwise disjoint in scan order. -/
theorem scanSpec_inv (smark emark : Txt) :
    ∀ (rest : List Block) (i : Nat) (op : Option Nat),
    (∀ s, op = some s → s ≤ i) →
    (∀ z ∈ scanSpec smark emark rest i op,
        op.getD i ≤ z.1 ∧ z.1 ≤ z.2 ∧ z.2 < i + rest.length)
      ∧ List.Pairwise (fun a b => a.2 < b.1) (scanSpec smark emark rest i op) := by
  intro rest
  induction rest with
  | nil =>
    intro i op hop
    refine ⟨fun z hz => ?_, ?_⟩
    · simp [scanSpec] at hz
    · simp [scanSpec]
  | cons b rest2 ih =>
    intro i op hop
    cases b with
    | table t =>
      have hexpand : scanSpec smark emark (Block.table t :: rest2) i op
          = scanSpec smark emark rest2 (i + 1) op := by
        conv_lhs => unfold scanSpec
      rw [hexpand]
      have h := ih (i + 1) op (fun s hs => Nat.le_succ_of_le (hop s hs))
      refine ⟨fun z hz => ?_, h.2⟩
      have hz2 := h.1 z hz
      cases op with
      | none =>
        simp only [Option.getD_none, List.length_cons] at hz2 ⊢
        omega
      | some s =>
        simp only [Option.getD_some, List.length_cons] at hz2 ⊢
        omega
    | para p =>
      cases op with
      | none =>
        by_cases hs : hasSub p.text smark = true
        · by_cases he : hasSub p.text emark = true
          · have hexpand : scanSpec smark emark (Block.para p :: rest2) i none
                = (i, i) :: scanSpec smark emark rest2 (i + 1) none := by
              conv_lhs => unfold scanSpec
              rw [if_pos hs, if_pos he]
            rw [hexpand]
            have h := ih (i + 1) none (fun s hs0 => Option.noConfusion hs0)
            constructor
            · intro z hz
              rcases List.mem_cons.mp hz with rfl | hz2
              · refine ⟨Nat.le_refl i, Nat.le_refl i, ?_⟩
                show i < i + (rest2.length + 1)
                omega
              · have hz3 := h.1 z hz2
                simp only [Option.getD_none, List.length_cons] at hz3 ⊢
                omega
            · refine List.pairwise_cons.mpr ⟨fun z hz2 => ?_, h.2⟩
              have hz3 := h.1 z hz2
              simp only [Option.getD_none] at hz3
              show i < z.1
              omega
          · have hexpand : scanSpec smark emark (Block.para p :: rest2) i none
                = scanSpec smark emark rest2 (i + 1) (some i) := by
              conv_lhs => unfold scanSpec
              rw [if_pos hs, if_neg he]
            rw [hexpand]
            have h := ih (i + 1) (some i) (fun s hs0 => by injection hs0 with hs0; omega)
            refine ⟨fun z hz => ?_, h.2⟩
            have hz2 := h.1 z hz
            simp only [Option.getD_some, Option.getD_none, List.length_cons] at hz2 ⊢
            omega
        · have hexpand : scanSpec smark emark (Block.para p :: rest2) i none
              = scanSpec smark emark rest2 (i + 1) none := by
            conv_lhs => unfold scanSpec
            rw [if_neg hs]
          rw [hexpand]
          have h := ih (i + 1) none (fun s hs0 => Option.noConfusion hs0)
          refine ⟨fun z hz => ?_, h.2⟩
          have hz2 := h.1 z hz
          simp only [Option.getD_none, List.length_cons] at hz2 ⊢
          omega
      | some s =>
        have hsle : s ≤ i := hop s rfl
        by_cases he : hasSub p.text emark = true
        · have hexpand : scanSpec smark emark (Block.para p :: rest2) i (some s)
              = (s, i) :: scanSpec smark emark rest2 (i + 1) none := by
            conv_lhs => unfold scanSpec
            rw [if_pos he]
          rw [hexpand]
          have h := ih (i + 1) none (fun s2 hs0 => Option.noConfusion hs0)
          constructor
          · intro z hz
            rcases List.mem_cons.mp hz with rfl | hz2
            · refine ⟨Nat.le_refl s, hsle, ?_⟩
              show i < i + (rest2.length + 1)
              omega
            · have hz3 := h.1 z hz2
              simp only [Option.getD_none, Option.getD_some, List.length_cons] at hz3 ⊢
              omega
          · refine List.pairwise_cons.mpr ⟨fun z hz2 => ?_, h.2⟩
            have hz3 := h.1 z hz2
            simp only [Option.getD_none] at hz3
            show i < z.1
            omega
        · have hexpand : scanSpec smark emark (Block.para p :: rest2) i (some s)
              = scanSpec smark emark rest2 (i + 1) (some s) := by
            conv_lhs => unfold scanSpec
            rw [if_neg he]
          rw [hexpand]
          have h := ih (i + 1) (some s) (fun s2 hs0 => by injection hs0 with hs0; omega)
          refine ⟨fun z hz => ?_, h.2⟩
          have hz2 := h.1 z hz
          simp only [Option.getD_some, List.length_cons] at hz2 ⊢
          omega

/-- `sorted(zones, reverse=True)` on the ascending, pairwise-disjoint scan
output is exactly the reversed list: ranges are processed from the highest
start index to the lowest. -/
theorem insertionSort_desc_eq_reverse (zones : List (Nat × Nat))
    (hpw : List.Pairwise (fun a b => a.2 < b.1) zones)
    (hle : ∀ z ∈ zones, z.1 ≤ z.2) :
    zones.insertionSort zoneDescRel = zones.reverse := by
  refine List.eq_of_perm_of_sorted
    ((List.perm_insertionSort zoneDescRel zones).trans (zones.reverse_perm).symm)
    (List.sorted_insertionSort zoneDescRel zones) ?_
  rw [List.Sorted, List.pairwise_reverse]
  refine List.Pairwise.imp_of_mem ?_ hpw
  intro a b ha hb hab
  unfold zoneDescRel
  have := hle a ha
  omega

theorem dropRanges_nil : ∀ (i : Nat) (body : List Block),
    dropRanges [] i body = body := by
  intro i body
  induction body generalizing i with
  | nil => rfl
  | cons b rest ih =>
    unfold dropRanges
    rw [if_neg (by simp)]
    rw [ih]

/-- Once the index has passed a range's end, that range never drops another
block. -/
theorem dropRanges_past : ∀ (body : List Block) (z : Nat × Nat)
    (zones : List (Nat × Nat)) (i : Nat), z.2 < i →
    dropRanges (z :: zones) i body = dropRanges zones i body := by
  intro body
  induction body with
  | nil => intro z zones i h; rfl
  | cons b rest ih =>
    intro z zones i h
    unfold dropRanges
    have hz : ((z :: zones).any fun w => decide (w.1 ≤ i) && decide (i ≤ w.2))
        = (zones.any fun w => decide (w.1 ≤ i) && decide (i ≤ w.2)) := by
      rw [List.any_cons]
      have : (decide (z.1 ≤ i) && decide (i ≤ z.2)) = false := by
        have : ¬(i ≤ z.2) := by omega
        simp [this]
      rw [this, Bool.false_or]
    rw [hz]
    by_cases hc : (zones.any fun w => decide (w.1 ≤ i) && decide (i ≤ w.2)) = true
    · rw [if_pos hc, if_pos hc]
      exact ih z zones (i + 1) (by omega)
    · rw [if_neg hc, if_neg hc]
      rw [ih z zones (i + 1) (by omega)]

/-- In-range phase: once inside range `z`, dropping the rest of the range is
the same as letting `z` filter it out, provided later ranges start after
`z` ends. -/
theorem dropRanges_inside : ∀ (body : List Block) (i : Nat) (z : Nat × Nat)
    (zones : List (Nat × Nat)), z.1 ≤ i → i ≤ z.2 → (∀ w ∈ zones, z.2 < w.1) →
    (dropRanges zones i body).drop (z.2 - i + 1) = dropRanges (z :: zones) i body := by
  intro body
  induction body with
  | nil =>
    intro i z zones h1 h2 h3
    simp [dropRanges]
  | cons b rest ih =>
    intro i z zones h1 h2 h3
    have hz : (zones.any fun w => decide (w.1 ≤ i) && decide (i ≤ w.2)) = false := by
      rw [List.any_eq_false]
      intro w hw
      have := h3 w hw
      simp only [Bool.and_eq_true, decide_eq_true_eq, not_and]
      intro hwi
      omega
    have hzc : ((z :: zones).any fun w => decide (w.1 ≤ i) && decide (i ≤ w.2)) = true := by
      rw [List.any_eq_true]
      exact ⟨z, List.mem_cons_self z zones, by
        simp only [Bool.and_eq_true, decide_eq_true_eq]
        exact ⟨h1, h2⟩⟩
    conv_lhs => unfold dropRanges
    conv_rhs => unfold dropRanges
    rw [if_neg (by rw [hz]; exact Bool.false_ne_true), if_pos hzc]
    rw [List.drop_succ_cons]
    by_cases hcase : i < z.2
    · have harith : z.2 - i = z.2 - (i + 1) + 1 := by omega
      rw [harith]
      exact ih (i + 1) z zones (by omega) (by omega) h3
    · have harith : z.2 - i = 0 := by omega
      rw [harith, List.drop_zero]
      exact (dropRanges_past rest z zones (i + 1) (by omega)).symm

/-- Pre-range phase: removing range `z` from the result of dropping later
ranges equals letting `z :: zones` filter, while the index is at or before
the start of `z`. -/
theorem dropRanges_before : ∀ (body : List Block) (i : Nat) (z : Nat × Nat)
    (zones : List (Nat × Nat)), i ≤ z.1 → z.1 ≤ z.2 → (∀ w ∈ zones, z.2 < w.1) →
    removeRange (dropRanges zones i body) (z.1 - i) (z.2 - i)
      = dropRanges (z :: zones) i body := by
  intro body
  induction body with
  | nil =>
    intro i z zones h1 h2 h3
    simp [dropRanges, removeRange]
  | cons b rest ih =>
    intro i z zones h1 h2 h3
    have hz : (zones.any fun w => decide (w.1 ≤ i) && decide (i ≤ w.2)) = false := by
      rw [List.any_eq_false]
      intro w hw
      have := h3 w hw
      simp only [Bool.and_eq_true, decide_eq_true_eq, not_and]
      intro hwi
      omega
    by_cases hcase : i = z.1
    · have h0 : z.1 - i = 0 := by omega
      rw [h0]
      show (dropRanges zones i (b :: rest)).take 0
          ++ (dropRanges zones i (b :: rest)).drop (z.2 - i + 1) = _
      rw [List.take_zero, List.nil_append]
      exact dropRanges_inside (b :: rest) i z zones (by omega) (by omega) h3
    · have hilt : i < z.1 := by omega
      have hzc : ((z :: zones).any fun w => decide (w.1 ≤ i) && decide (i ≤ w.2))
          = false := by
        rw [List.any_eq_false]
        intro w hw
        rcases List.mem_cons.mp hw with rfl | hw2
        · simp only [Bool.and_eq_true, decide_eq_true_eq, not_and]
          intro hwi
          omega
        · have := h3 w hw2
          simp only [Bool.and_eq_true, decide_eq_true_eq, not_and]
          intro hwi
          omega
      have hXeq : dropRanges zones i (b :: rest) = b :: dropRanges zones (i + 1) rest := by
        conv_lhs => unfold dropRanges
        rw [if_neg (by rw [hz]; exact Bool.false_ne_true)]
      have hYeq : dropRanges (z :: zones) i (b :: rest)
          = b :: dropRanges (z :: zones) (i + 1) rest := by
        conv_lhs => unfold dropRanges
        rw [if_neg (by rw [hzc]; exact Bool.false_ne_true)]
      rw [hXeq, hYeq]
      obtain ⟨k, hk⟩ : ∃ k, z.1 - i = k + 1 := ⟨z.1 - i - 1, by omega⟩
      have hd : z.2 - i + 1 = (z.2 - (i + 1) + 1) + 1 := by omega
      show (b :: dropRanges zones (i + 1) rest).take (z.1 - i)
          ++ (b :: dropRanges zones (i + 1) rest).drop (z.2 - i + 1) = _
      rw [hk, hd, List.take_succ_cons, List.drop_succ_cons, List.cons_append]
      have hrec := ih (i + 1) z zones (by omega) h2 h3
      have hk2 : z.1 - (i + 1) = k := by omega
      rw [hk2] at hrec
      rw [← hrec]
      rfl

/-- Removing the recorded ranges from the highest to the lowest amounts to
an index filter, when the ranges are valid and pairwise disjoint ascending. -/
theorem foldr_removeRange_eq : ∀ (zones : List (Nat × Nat)) (body : List Block),
    List.Pairwise (fun a b => a.2 < b.1) zones →
    (∀ z ∈ zones, z.1 ≤ z.2) →
    zones.foldr (fun z b => removeRange b z.1 z.2) body = dropRanges zones 0 body := by
  intro zones
  induction zones with
  | nil =>
    intro body _ _
    rw [List.foldr_nil, dropRanges_nil]
  | cons z rest ih =>
    intro body hpw hle
    rw [List.foldr_cons]
    rw [ih body (List.pairwise_cons.mp hpw).2
      (fun w hw => hle w (List.mem_cons_of_mem z hw))]
    have hk := dropRanges_before body 0 z rest (Nat.zero_le _)
      (hle z (List.mem_cons_self z rest)) (List.pairwise_cons.mp hpw).1
    simpa using hk

/-- The index-walk pruning is the filtered enumeration. -/
theorem dropRanges_eq_filter : ∀ (body : List Block) (zones : List (Nat × Nat))
    (i : Nat),
    dropRanges zones i body
      = ((body.enumFrom i).filter fun ib =>
          !(zones.any fun z => decide (z.1 ≤ ib.1) && decide (ib.1 ≤ z.2))).map
          Prod.snd := by
  intro body
  induction body with
  | nil => intro zones i; rfl
  | cons b rest ih =>
    intro zones i
    rw [List.enumFrom_cons]
    by_cases hc : (zones.any fun z => decide (z.1 ≤ i) && decide (i ≤ z.2)) = true
    · have hp : (!(zones.any fun z =>
          decide (z.1 ≤ (i, b).1) && decide ((i, b).1 ≤ z.2))) = false := by
        simpa using hc
      rw [List.filter_cons_of_neg (by rw [hp]; exact Bool.false_ne_true)]
      conv_lhs => unfold dropRanges
      rw [if_pos hc]
      exact ih zones (i + 1)
    · have hp : (!(zones.any fun z =>
          decide (z.1 ≤ (i, b).1) && decide ((i, b).1 ≤ z.2))) = true := by
        simpa using hc
      rw [@List.filter_cons_of_pos _ (fun ib =>
        !(zones.any fun z => decide (z.1 ≤ ib.1) && decide (ib.1 ≤ z.2)))
        (i, b) (List.enumFrom (i + 1) rest) hp]
      conv_lhs => unfold dropRanges
      rw [if_neg hc]
      rw [List.map_cons]
      rw [ih zones (i + 1)]

/-- The removal pass on the scan's output equals the index filter on the
body. -/
theorem removeZones_findZones_eq (body : List Block) (smark emark : Txt) :
    removeZones body (findZones body smark emark)
      = ((body.enum.filter fun ib =>
          !((findZones body smark emark).any fun z =>
            decide (z.1 ≤ ib.1) && decide (ib.1 ≤ z.2))).map Prod.snd) := by
  have hinv := scanSpec_inv smark emark body 0 none (fun s hs => Option.noConfusion hs)
  have heq := findZones_eq_scanSpec body smark emark
  have hpw : List.Pairwise (fun a b => a.2 < b.1) (findZones body smark emark) := by
    rw [heq]
    exact hinv.2
  have hle : ∀ z ∈ findZones body smark emark, z.1 ≤ z.2 := by
    rw [heq]
    intro z hz
    exact (hinv.1 z hz).2.1
  unfold removeZones
  rw [insertionSort_desc_eq_reverse _ hpw hle]
  rw [List.foldl_reverse]
  rw [show (fun (x : Nat × Nat) (y : List Block) => removeRange y x.1 x.2)
      = (fun z b => removeRange b z.1 z.2) from rfl]
  rw [foldr_removeRange_eq _ body hpw hle]
  rw [dropRanges_eq_filter]
  rfl

/-- C6 (confirmed): conditional-section removal for an absent segment
(1) performs exactly the claimed in-order scan — open a zone at the first
Start marker seen while no zone is open, close it at the next End marker,
record the inclusive range, skip tables (the word.py:339-341
paragraph-count lookup resolves to the scanned paragraph) — shown by
equality with `scanSpec`, the scan transcribed from the claim's words;
(2) every recorded range is inclusive, well-ordered and in bounds;
(3) multiple instances of the same segment yield pairwise-disjoint ranges
in scan order; (4) `sorted(..., reverse=True)` processes ranges from the
highest start index to the lowest (the sort is exactly the reversed scan
output); and (5) removing the recorded ranges in that order deletes
precisely the blocks whose index lies in some recorded range. -/
theorem c6_zone_scan_and_removal :
    (∀ (body : List Block) (smark emark : Txt),
        findZones body smark emark = scanSpec smark emark body 0 none) ∧
      (∀ (body : List Block) (smark emark : Txt),
        ∀ z ∈ findZones body smark emark, z.1 ≤ z.2 ∧ z.2 < body.length) ∧
      (∀ (body : List Block) (smark emark : Txt),
        List.Pairwise (fun a b => a.2 < b.1) (findZones body smark emark)) ∧
      (∀ (body : List Block) (smark emark : Txt),
        (findZones body smark emark).insertionSort zoneDescRel
          = (findZones body smark emark).reverse) ∧
      (∀ (body : List Block) (smark emark : Txt),
        removeZones body (findZones body smark emark)
          = ((body.enum.filter fun ib =>
              !((findZones body smark emark).any fun z =>
                decide (z.1 ≤ ib.1) && decide (ib.1 ≤ z.2))).map Prod.snd)) := by
  have hbnd : ∀ (body : List Block) (smark emark : Txt),
      ∀ z ∈ findZones body smark emark, z.1 ≤ z.2 ∧ z.2 < body.length := by
    intro body smark emark z hz
    rw [findZones_eq_scanSpec] at hz
    have h := (scanSpec_inv smark emark body 0 none
      (fun s hs => Option.noConfusion hs)).1 z hz
    exact ⟨h.2.1, by have := h.2.2; omega⟩
  have hpw : ∀ (body : List Block) (smark emark : Txt),
      List.Pairwise (fun a b => a.2 < b.1) (findZones body smark emark) := by
    intro body smark emark
    rw [findZones_eq_scanSpec]
    exact (scanSpec_inv smark emark body 0 none (fun s hs => Option.noConfusion hs)).2
  refine ⟨fun body s e => findZones_eq_scanSpec body s e, hbnd, hpw,
    fun body s e => ?_, fun body s e => removeZones_findZones_eq body s e⟩
  exact insertionSort_desc_eq_reverse _ (hpw body s e)
    (fun z hz => (hbnd body s e z hz).1)

/-- C7 (confirmed): after zone removal followed by marker stripping, no
`{{SegmentN_Start}}` or `{{SegmentN_End}}` for any N in 1..6 remains in any
body paragraph, table cell or header — including markers of retained
segments and unmatched Start markers — for a well-formed document whose
headers carry no markers (the source's markers live in the body and table
cells, per the spec's template grammar; the cleaner never visits headers). -/
theorem c7_no_markers {d : Doc} {segs : List Seg}
    (hd : TextsWf d)
    (hhdr : ∀ s ∈ d.headerTexts, ∀ n ∈ List.range' 1 6,
      hasSub s (startTok n) = false ∧ hasSub s (endTok n) = false) :
    ∀ n ∈ List.range' 1 6,
      NoTok (clean_all_segment_markers (remove_unused_sections d segs)) (startTok n)
        ∧ NoTok (clean_all_segment_markers (remove_unused_sections d segs)) (endTok n) := by
  intro n hn
  have hd7 : TextsWf (remove_unused_sections d segs) := TextsWf_remove_unused hd
  have hhdr7 : ∀ s ∈ (remove_unused_sections d segs).headerTexts,
      ∀ m ∈ List.range' 1 6,
      hasSub s (startTok m) = false ∧ hasSub s (endTok m) = false := by
    intro s hs m hm
    have heq : (remove_unused_sections d segs).headerTexts = d.headerTexts := by
      unfold Doc.headerTexts
      rw [remove_unused_headers]
    rw [heq] at hs
    exact hhdr s hs m hm
  exact camFold_marker_gone (List.range' 1 6) (remove_unused_sections d segs)
    hd7 hhdr7 n hn

/-- Witness for C7 at a concrete input: markers of segment 1 are gone even
though segment 1's zone is removed entirely (no segment provided). -/
theorem c7_no_markers_witness :
    NoTok (clean_all_segment_markers (remove_unused_sections c7Doc [])) (startTok 1)
      ∧ NoTok (clean_all_segment_markers (remove_unused_sections c7Doc [])) (endTok 1) := by
  refine c7_no_markers ?_ ?_ 1 (by decide)
  · intro s hs
    have he : c7Doc.texts = [startTok 1, T "Body", endTok 1] := by decide
    rw [he] at hs
    simp only [List.mem_cons, List.not_mem_nil, or_false] at hs
    rcases hs with rfl | rfl | rfl
    · exact ⟨[Chunk.tok (T "Segment1_Start")], by decide, by decide⟩
    · exact ⟨[Chunk.lit (T "Body")], by decide, by decide⟩
    · exact ⟨[Chunk.tok (T "Segment1_End")], by decide, by decide⟩
  · intro s hs m hm
    have he : c7Doc.headerTexts = [] := rfl
    rw [he] at hs
    exact absurd hs (List.not_mem_nil s)

/-- The region dictionary misses a key exactly when it is not one of the
five fixed regions. -/
theorem lookupT_region_none_iff (r0 : Txt) :
    lookupT region_template_mapping r0 = none ↔ r0 ∉ valid_regions := by
  unfold lookupT
  rw [Option.map_eq_none', List.find?_eq_none]
  constructor
  · intro h hmem
    simp only [valid_regions, List.mem_cons, List.not_mem_nil, or_false] at hmem
    rcases hmem with rfl | rfl | rfl | rfl | rfl
    · exact h (T "North America", T "north_america_region_template.docx")
        (by decide) (by decide)
    · exact h (T "Europe", T "europe_region_template.docx") (by decide) (by decide)
    · exact h (T "Asia Pacific", T "asia_pacific_region_template.docx")
        (by decide) (by decide)
    · exact h (T "Middle East & Africa", T "middle_east_africa_region_template.docx")
        (by decide) (by decide)
    · exact h (T "Latin America", T "latin_america_region_template.docx")
        (by decide) (by decide)
  · intro h kv hkv
    simp only [region_template_mapping, List.mem_cons, List.not_mem_nil, or_false] at hkv
    rcases hkv with rfl | rfl | rfl | rfl | rfl <;>
      · intro hbeq
        have heq := eq_of_beq hbeq
        exact h (heq ▸ (by decide))

/-- The class dictionary misses a key exactly when it is neither Global nor
Country. -/
theorem lookupT_template_none_iff (tt : Txt) :
    lookupT template_mapping tt = none ↔ (tt ≠ T "Global" ∧ tt ≠ T "Country") := by
  unfold lookupT
  rw [Option.map_eq_none', List.find?_eq_none]
  constructor
  · intro h
    constructor
    · intro hG
      exact h (T "Global", T "global_template.docx") (by decide) (by rw [hG]; decide)
    · intro hC
      exact h (T "Country", T "country_template.docx") (by decide) (by rw [hC]; decide)
  · rintro ⟨hG, hC⟩ kv hkv
    simp only [template_mapping, List.mem_cons, List.not_mem_nil, or_false] at hkv
    rcases hkv with rfl | rfl <;> intro hbeq
    · exact hG (eq_of_beq hbeq).symm
    · exact hC (eq_of_beq hbeq).symm

/-- C8 (confirmed): template resolution is a pure function of the class and
region whose outcome is exactly one of: InvalidRegion when the class is
Regional and the region is missing, empty, or not one of the five fixed
regions; InvalidTemplateType when the class is none of Regional, Global,
Country; TemplateNotFound when the class (and region) map to an asset the
store lacks; otherwise the asset path determined 1:1 by the mapping (the
seven mapped filenames are pairwise distinct). -/
theorem c8_template_resolution :
    (∀ (E : Txt → Bool) (tt : Txt) (r : Option Txt),
      (tt = T "Regional" ∧ (r = none ∨ r = some []) ∧
        get_template_path E tt r
          = .error (.invalidRegion (T "Region is required for Regional template")))
      ∨ (tt = T "Regional" ∧ r ≠ none ∧ r ≠ some [] ∧ r.getD [] ∉ valid_regions ∧
        get_template_path E tt r
          = .error (.invalidRegion (T "Invalid region: " ++ r.getD [])))
      ∨ (∃ fn,
          (tt = T "Regional" ∧ r ≠ none ∧ r ≠ some [] ∧ r.getD [] ∈ valid_regions ∧
              lookupT region_template_mapping (r.getD []) = some fn
            ∨ tt ≠ T "Regional" ∧ lookupT template_mapping tt = some fn) ∧
          ((E (T "templates/" ++ fn) = true ∧
              get_template_path E tt r = .ok (T "templates/" ++ fn))
            ∨ (E (T "templates/" ++ fn) = false ∧
              get_template_path E tt r
                = .error (.templateNotFound (T "Template file not found: " ++ fn)))))
      ∨ (tt ≠ T "Regional" ∧ tt ≠ T "Global" ∧ tt ≠ T "Country" ∧
        get_template_path E tt r
          = .error (.invalidTemplateType (T "Invalid template type: " ++ tt)))) ∧
      (∀ r0 : Txt, lookupT region_template_mapping r0 = none ↔ r0 ∉ valid_regions) ∧
      (∀ tt : Txt, lookupT template_mapping tt = none
        ↔ (tt ≠ T "Global" ∧ tt ≠ T "Country")) ∧
      (region_template_mapping.map Prod.snd ++ template_mapping.map Prod.snd).Nodup := by
  refine ⟨?_, lookupT_region_none_iff, lookupT_template_none_iff, by decide⟩
  intro E tt r
  by_cases hR : tt = T "Regional"
  · by_cases hno : r = none ∨ r = some []
    · refine Or.inl ⟨hR, hno, ?_⟩
      unfold get_template_path
      rw [if_pos hR, if_pos hno]
    · have hno2 := hno
      push_neg at hno2
      cases hl : lookupT region_template_mapping (r.getD []) with
      | none =>
        refine Or.inr (Or.inl ⟨hR, hno2.1, hno2.2,
          (lookupT_region_none_iff _).mp hl, ?_⟩)
        unfold get_template_path
        rw [if_pos hR, if_neg hno]
        simp only [hl]
      | some fn =>
        have hmem : r.getD [] ∈ valid_regions := by
          by_contra hc
          rw [← lookupT_region_none_iff] at hc
          rw [hc] at hl
          exact Option.noConfusion hl
        by_cases hE : E (T "templates/" ++ fn) = true
        · refine Or.inr (Or.inr (Or.inl ⟨fn,
            Or.inl ⟨hR, hno2.1, hno2.2, hmem, rfl⟩, Or.inl ⟨hE, ?_⟩⟩))
          unfold get_template_path
          rw [if_pos hR, if_neg hno]
          simp only [hl]
          rw [if_pos hE]
        · have hEf : E (T "templates/" ++ fn) = false := by
            revert hE
            cases E (T "templates/" ++ fn) <;> simp
          refine Or.inr (Or.inr (Or.inl ⟨fn,
            Or.inl ⟨hR, hno2.1, hno2.2, hmem, rfl⟩, Or.inr ⟨hEf, ?_⟩⟩))
          unfold get_template_path
          rw [if_pos hR, if_neg hno]
          simp only [hl]
          rw [if_neg hE]
  · cases hl : lookupT template_mapping tt with
    | none =>
      have hni := (lookupT_template_none_iff tt).mp hl
      refine Or.inr (Or.inr (Or.inr ⟨hR, hni.1, hni.2, ?_⟩))
      unfold get_template_path
      rw [if_neg hR]
      simp only [hl]
    | some fn =>
      by_cases hE : E (T "templates/" ++ fn) = true
      · refine Or.inr (Or.inr (Or.inl ⟨fn, Or.inr ⟨hR, rfl⟩, Or.inl ⟨hE, ?_⟩⟩))
        unfold get_template_path
        rw [if_neg hR]
        simp only [hl]
        rw [if_pos hE]
      · have hEf : E (T "templates/" ++ fn) = false := by
          revert hE
          cases E (T "templates/" ++ fn) <;> simp
        refine Or.inr (Or.inr (Or.inl ⟨fn, Or.inr ⟨hR, rfl⟩, Or.inr ⟨hEf, ?_⟩⟩))
        unfold get_template_path
        rw [if_neg hR]
        simp only [hl]
        rw [if_neg hE]

theorem rowSeg?_bf {d : RowDoc}
    (hseg : ∀ kv ∈ d.segmentFields, braceFree kv.2 = true)
    {i : Nat} {v : Txt} (h : d.seg? i = some v) : braceFree v = true := by
  unfold RowDoc.seg? at h
  obtain ⟨kv, hkv, hv⟩ := Option.map_eq_some'.mp h
  have := List.mem_of_find?_eq_some hkv
  rw [← hv]
  exact hseg kv this

theorem rowSub?_bf {d : RowDoc}
    (hsub : ∀ kv ∈ d.subFields, braceFree kv.2 = true)
    {i j : Nat} {v : Txt} (h : d.sub? i j = some v) : braceFree v = true := by
  unfold RowDoc.sub? at h
  obtain ⟨kv, hkv, hv⟩ := Option.map_eq_some'.mp h
  have := List.mem_of_find?_eq_some hkv
  rw [← hv]
  exact hsub kv this

theorem rowCompany?_bf {d : RowDoc}
    (hcomp : ∀ kv ∈ d.companyFields, braceFree kv.2 = true)
    {i : Nat} {v : Txt} (h : d.company? i = some v) : braceFree v = true := by
  unfold RowDoc.company? at h
  obtain ⟨kv, hkv, hv⟩ := Option.map_eq_some'.mp h
  have := List.mem_of_find?_eq_some hkv
  rw [← hv]
  exact hcomp kv this

theorem rowSegs_bf {d : RowDoc}
    (hseg : ∀ kv ∈ d.segmentFields, braceFree kv.2 = true)
    (hsub : ∀ kv ∈ d.subFields, braceFree kv.2 = true) :
    ∀ sg ∈ rowSegs d, braceFree sg.name = true ∧
      ∀ sb ∈ sg.subSegments, braceFree sb = true := by
  intro sg hsg
  unfold rowSegs at hsg
  obtain ⟨i, hi, hmem⟩ := List.mem_filterMap.mp hsg
  obtain ⟨name, hname, rfl⟩ := Option.map_eq_some'.mp hmem
  refine ⟨rowSeg?_bf hseg hname, ?_⟩
  intro sb hsb
  obtain ⟨j, hj, hsub2⟩ := List.mem_filterMap.mp hsb
  exact rowSub?_bf hsub hsub2

theorem rowCompanies_bf {d : RowDoc}
    (hcomp : ∀ kv ∈ d.companyFields, braceFree kv.2 = true) :
    ∀ c ∈ (List.range' 1 10).map (fun i => (d.company? i).getD []),
      braceFree c = true := by
  intro c hc
  obtain ⟨i, _, rfl⟩ := List.mem_map.mp hc
  rcases hs : d.company? i with _ | v
  · decide
  · exact rowCompany?_bf hcomp hs

/-- The pipeline's company job for index k carries exactly `f k` — for a
missing CompanyK field that value is the empty string. -/
theorem companyJobs_map_get {f : Nat → Txt} {k : Nat} (hk : k ∈ List.range' 1 10) :
    (T "Company" ++ natTxt k, f k) ∈ companyJobs ((List.range' 1 10).map f) := by
  obtain ⟨hk1, hk2⟩ := List.mem_range'_1.mp hk
  have hlen : ((List.range' 1 10).map f).length = 10 := by
    rw [List.length_map, List.length_range']
  have htake : ((List.range' 1 10).map f).take 10 = (List.range' 1 10).map f :=
    List.take_of_length_le (by rw [hlen])
  have hk0 : k - 1 < (((List.range' 1 10).map f).take 10).length := by
    rw [htake, hlen]
    omega
  have hmem := @companyJobs_mem ((List.range' 1 10).map f) (k - 1) hk0
  have h10 : k - 1 < (List.range' 1 10).length := by
    rw [List.length_range']
    omega
  have hval : (((List.range' 1 10).map f).take 10).get ⟨k - 1, hk0⟩ = f k := by
    have h1 : (((List.range' 1 10).map f).take 10)[k - 1]?
        = some ((((List.range' 1 10).map f).take 10).get ⟨k - 1, hk0⟩) := by
      rw [List.get_eq_getElem]
      exact List.getElem?_eq_getElem hk0
    have h2 : (((List.range' 1 10).map f).take 10)[k - 1]? = some (f k) := by
      rw [htake]
      rw [List.getElem?_map, List.getElem?_eq_getElem h10]
      rw [Option.map_some']
      rw [List.getElem_range'_1]
      have harith : 1 + (k - 1) = k := by omega
      rw [harith]
    exact Option.some.inj (h1.symm.trans h2)
  have harith : k - 1 + 1 = k := by omega
  rw [harith, hval] at hmem
  exact hmem

/-- Companies are always substituted by the single-document tail: no
`{{CompanyN}}` for N in 1..10 survives, with no requirement on the market
name being present. -/
theorem synthTail_company_gone {data : InputData} {doc2 : Doc}
    (hd : TextsWf doc2)
    (hmkbf : braceFree (data.market_name.getD []) = true)
    (hsegbf : ∀ kv ∈ data.segmentFields, braceFree kv.2 = true)
    (hsubbf : ∀ kv ∈ data.subFields, braceFree kv.2 = true)
    (hcompbf : ∀ kv ∈ data.companyFields, braceFree kv.2 = true) :
    ∀ n ∈ List.range' 1 10, NoTok (synthTail data doc2) (companyTok n) := by
  intro n hn
  have hsyn : synthTail data doc2
      = clean_all_segment_markers
          (remove_unused_sections
            (replace_companies
              (clean_empty_segments
                (replace_segments
                  (if data.market_name.getD [] ≠ [] then
                    (replace_text doc2 marketTok (data.market_name.getD [])).1
                  else doc2)
                  (materializeSegs data))
                (materializeSegs data))
              ((List.range' 1 10).map fun i => (data.company? i).getD []))
            (materializeSegs data)) := by
    simp only [synthTail, update_document_references]
  rw [hsyn]
  have hjobsbf := segJobs_bf (materializeSegs_bf hsegbf hsubbf)
  have hcjobsbf := companyJobs_bf (pipelineCompanies_bf hcompbf)
  have hd3 : TextsWf (if data.market_name.getD [] ≠ [] then
      (replace_text doc2 marketTok (data.market_name.getD [])).1 else doc2) := by
    by_cases hmk : data.market_name.getD [] ≠ []
    · rw [if_pos hmk, replace_market_eq]
      refine replaceJobs_wf _ _ hd ?_
      intro j hj
      rw [List.mem_singleton] at hj
      subst hj
      refine ⟨?_, hmkbf⟩
      show braceFree (T "market_name") = true
      decide
    · rw [if_neg hmk]
      exact hd
  have hd4 : TextsWf (replace_segments
      (if data.market_name.getD [] ≠ [] then
        (replace_text doc2 marketTok (data.market_name.getD [])).1 else doc2)
      (materializeSegs data)) := by
    rw [replace_segments_eq]
    exact replaceJobs_wf _ _ hd3 hjobsbf
  have hd5 := @TextsWf_clean_empty _ (materializeSegs data) hd4
  have hgone6 : NoTok (replace_companies
      (clean_empty_segments (replace_segments
        (if data.market_name.getD [] ≠ [] then
          (replace_text doc2 marketTok (data.market_name.getD [])).1 else doc2)
        (materializeSegs data)) (materializeSegs data))
      ((List.range' 1 10).map fun i => (data.company? i).getD []))
      (companyTok n) := by
    rw [replace_companies_eq]
    have := replaceJobs_gone _ _ hd5 hcjobsbf (companyJobs_map_get hn)
    rw [← companyTok_eq] at this
    exact this
  have hd6 : TextsWf (replace_companies
      (clean_empty_segments (replace_segments
        (if data.market_name.getD [] ≠ [] then
          (replace_text doc2 marketTok (data.market_name.getD [])).1 else doc2)
        (materializeSegs data)) (materializeSegs data))
      ((List.range' 1 10).map fun i => (data.company? i).getD [])) := by
    rw [replace_companies_eq]
    exact replaceJobs_wf _ _ hd5 hcjobsbf
  have hgone7 := @NoTok_remove_unused_mono _ (materializeSegs data) _ hgone6
  have hd7 := @TextsWf_remove_unused _ (materializeSegs data) hd6
  exact camFold_mono _ _ hd7 (companyTok_shape n) hgone7

/-- Companies are always substituted by the bulk row tail as well. -/
theorem synthTailRow_company_gone {data : RowDoc} {doc2 : Doc}
    (hd : TextsWf doc2)
    (hsegbf : ∀ kv ∈ data.segmentFields, braceFree kv.2 = true)
    (hsubbf : ∀ kv ∈ data.subFields, braceFree kv.2 = true)
    (hcompbf : ∀ kv ∈ data.companyFields, braceFree kv.2 = true) :
    ∀ n ∈ List.range' 1 10, NoTok (synthTailRow data doc2) (companyTok n) := by
  intro n hn
  have hsyn : synthTailRow data doc2
      = clean_all_segment_markers
          (remove_unused_sections
            (replace_companies
              (clean_empty_segments (replace_segments doc2 (rowSegs data))
                (rowSegs data))
              ((List.range' 1 10).map fun i => (data.company? i).getD []))
            (rowSegs data)) := by
    simp only [synthTailRow, update_document_references]
  rw [hsyn]
  have hjobsbf := segJobs_bf (rowSegs_bf hsegbf hsubbf)
  have hcjobsbf := companyJobs_bf (rowCompanies_bf hcompbf)
  have hd4 : TextsWf (replace_segments doc2 (rowSegs data)) := by
    rw [replace_segments_eq]
    exact replaceJobs_wf _ _ hd hjobsbf
  have hd5 := @TextsWf_clean_empty _ (rowSegs data) hd4
  have hgone6 : NoTok (replace_companies
      (clean_empty_segments (replace_segments doc2 (rowSegs data)) (rowSegs data))
      ((List.range' 1 10).map fun i => (data.company? i).getD []))
      (companyTok n) := by
    rw [replace_companies_eq]
    have := replaceJobs_gone _ _ hd5 hcjobsbf (companyJobs_map_get hn)
    rw [← companyTok_eq] at this
    exact this
  have hd6 : TextsWf (replace_companies
      (clean_empty_segments (replace_segments doc2 (rowSegs data)) (rowSegs data))
      ((List.range' 1 10).map fun i => (data.company? i).getD [])) := by
    rw [replace_companies_eq]
    exact replaceJobs_wf _ _ hd5 hcjobsbf
  have hgone7 := @NoTok_remove_unused_mono _ (rowSegs data) _ hgone6
  have hd7 := @TextsWf_remove_unused _ (rowSegs data) hd6
  exact camFold_mono _ _ hd7 (companyTok_shape n) hgone7

/-- A successful bulk-row generation is the row tail applied to the fetched
template (the scope branches and the market-name branch of the buggy
header-textbox calls all raise, so success implies they were skipped). -/
theorem generate_single_document_ok_cases
    {E : Txt → Bool} {tpl : Txt → Doc} {data : RowDoc} {out : Doc}
    (h : generate_single_document E tpl data = .ok out) :
    ∃ path, out = synthTailRow data (tpl path) := by
  simp only [generate_single_document] at h
  split at h
  next e heq => exact Except.noConfusion h
  next path heq =>
    split at h
    next e2 heq1 => exact Except.noConfusion h
    next doc1 heq1 =>
      split at h
      next e3 heq2 => exact Except.noConfusion h
      next doc2 heq2 =>
        injection h with h
        by_cases hR : data.template_type = T "Regional"
        · rw [if_pos hR] at heq1
          cases hval : validate_region data.region with
          | error e4 =>
            simp only [hval] at heq1
            exact Except.noConfusion heq1
          | ok r2 =>
            simp only [hval] at heq1
            exact Except.noConfusion heq1
        · rw [if_neg hR] at heq1
          by_cases hC : data.template_type = T "Country"
          · rw [if_pos hC] at heq1
            exact Except.noConfusion heq1
          · rw [if_neg hC] at heq1
            injection heq1 with heq1
            by_cases hM : data.market_name ≠ []
            · rw [if_pos hM] at heq2
              exact Except.noConfusion heq2
            · rw [if_neg hM] at heq2
              injection heq2 with heq2
              exact ⟨path, by rw [← h, ← heq2, ← heq1]⟩

/-- C9 (confirmed): every company placeholder `{{Company1}}..{{Company10}}`
is always substituted: (1) a successful single-document synthesis leaves no
company token (for a well-formed template store and brace-free inputs, with
no requirement that the market name be present); (2) likewise a successful
bulk-row generation; (3) companies beyond the tenth are ignored; (4) a
missing CompanyK field contributes the job replacing `{{CompanyK}}` with the
empty string; and (5) company tokens are not segment placeholders and never
make the pruning pass delete their paragraph. -/
theorem c9_companies_always_substituted :
    (∀ (E : Txt → Bool) (tpl : Txt → Doc) (data : InputData) (out : Doc),
      generate_word_doc E tpl data = .ok out →
      (∀ p, TextsWf (tpl p)) →
      braceFree (data.market_name.getD []) = true →
      (∀ c, data.country = some c → braceFree c = true) →
      (∀ kv ∈ data.segmentFields, braceFree kv.2 = true) →
      (∀ kv ∈ data.subFields, braceFree kv.2 = true) →
      (∀ kv ∈ data.companyFields, braceFree kv.2 = true) →
      ∀ n ∈ List.range' 1 10, NoTok out (companyTok n)) ∧
      (∀ (E : Txt → Bool) (tpl : Txt → Doc) (data : RowDoc) (out : Doc),
        generate_single_document E tpl data = .ok out →
        (∀ p, TextsWf (tpl p)) →
        (∀ kv ∈ data.segmentFields, braceFree kv.2 = true) →
        (∀ kv ∈ data.subFields, braceFree kv.2 = true) →
        (∀ kv ∈ data.companyFields, braceFree kv.2 = true) →
        ∀ n ∈ List.range' 1 10, NoTok out (companyTok n)) ∧
      (∀ (d : Doc) (cs : List Txt),
        replace_companies d cs = replace_companies d (cs.take 10)) ∧
      (∀ (data : InputData), ∀ k ∈ List.range' 1 10, data.company? k = none →
        (T "Company" ++ natTxt k, ([] : Txt))
          ∈ companyJobs ((List.range' 1 10).map fun i => (data.company? i).getD [])) ∧
      (∀ n ∈ List.range' 1 10, companyTok n ∉ segment_placeholders
        ∧ cesRemoveTxt (companyTok n) = false) := by
  refine ⟨?single, ?bulk, ?ten, ?dflt, by decide⟩
  case single =>
    intro E tpl data out hok hwf hmkbf hcbf hsegbf hsubbf hcompbf
    obtain ⟨path, doc2, rfl, hcase⟩ := generate_word_doc_ok_cases hok
    have hd2 : TextsWf doc2 := by
      rcases hcase with ⟨hR, r, hv, rfl⟩ | ⟨hC, c, hco, hc0, rfl⟩ | ⟨h1, h2, rfl⟩
      · rw [replace_region_eq]
        refine replaceJobs_wf _ _ (hwf path) ?_
        intro j hj
        rw [List.mem_singleton] at hj
        subst hj
        refine ⟨?_, valid_region_bf r hv⟩
        show braceFree (T "region") = true
        decide
      · rw [replace_country_eq]
        refine replaceJobs_wf _ _ (hwf path) ?_
        intro j hj
        rw [List.mem_singleton] at hj
        subst hj
        refine ⟨?_, hcbf c hco⟩
        show braceFree (T "country") = true
        decide
      · exact hwf path
    exact synthTail_company_gone hd2 hmkbf hsegbf hsubbf hcompbf
  case bulk =>
    intro E tpl data out hok hwf hsegbf hsubbf hcompbf
    obtain ⟨path, rfl⟩ := generate_single_document_ok_cases hok
    exact synthTailRow_company_gone (hwf path) hsegbf hsubbf hcompbf
  case ten =>
    intro d cs
    unfold replace_companies
    rw [List.take_take, Nat.min_self]
  case dflt =>
    intro data k hk hnone
    have hmem := @companyJobs_map_get (fun i => (data.company? i).getD []) k hk
    simpa only [hnone, Option.getD_none] using hmem

/-- Witness for C9 at a concrete input: `{{Company2}}` with no Company2
field becomes the empty string, not a surviving token or a pruned
paragraph. -/
theorem c9_companies_witness :
    generate_word_doc (fun _ => true) (fun _ => c9Doc) c9Data = .ok c9Out ∧
      (∀ n ∈ List.range' 1 10, NoTok c9Out (companyTok n)) := by
  constructor
  · decide
  · refine c9_companies_always_substituted.1 (fun _ => true) (fun _ => c9Doc)
      c9Data c9Out (by decide) (fun p => ?_) (by decide)
      (fun c h => Option.noConfusion h) (by decide) (by decide) (by decide)
    intro s hs
    have he : c9Doc.texts = [companyTok 2] := by decide
    rw [he] at hs
    rw [List.mem_singleton.mp hs]
    exact ⟨[Chunk.tok (T "Company" ++ natTxt 2)], by decide, by decide⟩

theorem camFold_headers : ∀ (l : List Nat) (d : Doc),
    (l.foldl camStep d).headers = d.headers := by
  intro l
  induction l with
  | nil => intro d; rfl
  | cons n rest ih =>
    intro d
    rw [List.foldl_cons, ih, camStep_headers]

theorem camFold_bodyTexts : ∀ (l : List Nat) (d : Doc),
    (l.foldl camStep d).bodyTexts
      = d.bodyTexts.filter fun s =>
          l.all fun n => !(hasSub s (startTok n) || hasSub s (endTok n)) := by
  intro l
  induction l with
  | nil =>
    intro d
    rw [List.foldl_nil]
    have hall : (fun s => ([] : List Nat).all fun n =>
        !(hasSub s (startTok n) || hasSub s (endTok n))) = fun s => true := rfl
    rw [hall, List.filter_true]
  | cons n rest ih =>
    intro d
    rw [List.foldl_cons, ih, camStep_bodyTexts]
    rw [List.filter_filter]
    congr 1
    funext s
    rw [List.all_cons, Bool.and_comm]

theorem camFold_cellTexts : ∀ (l : List Nat) (d : Doc),
    (l.foldl camStep d).cellTexts
      = d.cellTexts.map fun s =>
          l.foldl (fun s2 n => camTxt (startTok n) (endTok n) s2) s := by
  intro l
  induction l with
  | nil =>
    intro d
    rw [List.foldl_nil]
    have hid : (fun s => ([] : List Nat).foldl
        (fun s2 n => camTxt (startTok n) (endTok n) s2) s) = fun s => s := rfl
    rw [hid, List.map_id']
  | cons n rest ih =>
    intro d
    rw [List.foldl_cons, ih, camStep_cellTexts, List.map_map]
    exact List.map_congr_left fun s _ => rfl

/-- C10 (confirmed): marker stripping is asymmetric in what it preserves:
(1) headers are untouched; (2) a body paragraph whose text carries any
`{{SegmentN_Start}}` or `{{SegmentN_End}}` marker is deleted in its entirety
— the body texts are exactly the filter keeping marker-free paragraphs,
discarding any other text in a deleted paragraph; (3) inside table cells
every paragraph text is kept and only transformed by the per-segment marker
erasures `camTxt`; and (4) that transformation is the identity on a text
containing neither marker — all other cell content is left unchanged. -/
theorem c10_marker_strip_asymmetry :
    (∀ d : Doc, (clean_all_segment_markers d).headers = d.headers) ∧
      (∀ d : Doc, (clean_all_segment_markers d).bodyTexts
        = d.bodyTexts.filter fun s =>
            (List.range' 1 6).all fun n =>
              !(hasSub s (startTok n) || hasSub s (endTok n))) ∧
      (∀ d : Doc, (clean_all_segment_markers d).cellTexts
        = d.cellTexts.map fun s =>
            (List.range' 1 6).foldl
              (fun s2 n => camTxt (startTok n) (endTok n) s2) s) ∧
      (∀ (smark emark s : Txt), hasSub s smark = false → hasSub s emark = false →
        camTxt smark emark s = s) := by
  refine ⟨fun d => camFold_headers (List.range' 1 6) d,
    fun d => camFold_bodyTexts (List.range' 1 6) d,
    fun d => camFold_cellTexts (List.range' 1 6) d, ?_⟩
  intro smark emark s h1 h2
  unfold camTxt
  rw [show substTxt smark [] s = s from by
    unfold substTxt
    rw [if_neg (by rw [h1]; exact Bool.false_ne_true)]]
  unfold substTxt
  rw [if_neg (by rw [h2]; exact Bool.false_ne_true)]
